import Mathlib

/-!
Verification development for the neo4j-to-postgres migration pipeline.

Each `def` below is a shallow embedding of a function of the source
repository (file and function named in its doc comment).  Python `None`
and strings are modelled by `Option String`; Python truthiness of such a
value is `pyTruthy`.  Python dicts and sets are modelled by insertion
ordered association lists.  Timestamps are modelled as rational numbers
of seconds since the epoch.
-/

/-- Python `str.lower()`, modelled character-wise (ASCII casing). -/
def String.pyLower (s : String) : String :=
  String.mk (s.toList.map Char.toLower)

namespace Migration

/-- Python truthiness of an optional string: `None` and `""` are falsy. -/
def pyTruthy : Option String → Bool
  | none => false
  | some s => !(s == "")

/-- Python truthiness of an optional string, as the underlying value when
truthy. -/
def truthyVal : Option String → Option String
  | none => none
  | some s => if s == "" then none else some s

@[simp] theorem pyTruthy_none : pyTruthy none = false := rfl

@[simp] theorem pyTruthy_some (s : String) : pyTruthy (some s) = !(s == "") := rfl

/-! ## Model of `app_config/utils.py : convert_epoch_to_timestamp`

The Python function receives either `None`, a string (CSV field) or an
int; `EpochInput` models that domain.  A timezone-aware timestamp
instant is modelled by its integer count of epoch milliseconds: the
source's `datetime.fromtimestamp(value / 1000, utc)` denotes the
instant `value` ms and `datetime.fromtimestamp(value, utc)` the instant
`value * 1000` ms (exact at the integral millisecond inputs the claims
concern). -/

/-- Input domain of `convert_epoch_to_timestamp`: Python `None`, `str`, `int`. -/
inductive EpochInput where
  | none : EpochInput
  | str : String → EpochInput
  | int : Int → EpochInput
deriving DecidableEq, Repr

/-- Python truthiness on `EpochInput` (`not value` in the source). -/
def epochTruthy : EpochInput → Bool
  | .none => false
  | .str s => !(s == "")
  | .int n => !(n == 0)

/-- Digits-and-underscores body of a Python integer literal: nonempty,
first and last characters are digits, underscores only between digits
and never doubled (the CPython `int()` grammar for decimal strings). -/
def pyIntBodyOk : List Char → Bool
  | [] => false
  | cs =>
    (cs.head?.elim false Char.isDigit) &&
    ((cs.getLast?.elim false Char.isDigit)) &&
    cs.all (fun c => c.isDigit || c == '_') &&
    (cs.zip cs.tail).all (fun p => !(p.1 == '_' && p.2 == '_'))

/-- Numeric value of a digit/underscore body (underscores skipped). -/
def pyIntBodyVal (cs : List Char) : Nat :=
  cs.foldl (fun a c => if c.isDigit then a * 10 + (c.toNat - '0'.toNat) else a) 0

/-- Characters Python `int()` strips from both ends of its argument. -/
def pyIsSpace (c : Char) : Bool :=
  c == ' ' || c == '\t' || c == '\n' || c == '\r' || c == '\x0b' || c == '\x0c'

/-- Strip whitespace from both ends of a character list. -/
def stripWs (cs : List Char) : List Char :=
  ((cs.dropWhile pyIsSpace).reverse.dropWhile pyIsSpace).reverse

/-- Model of Python `int(s)` on a string: strip whitespace, optional
sign, then a digit body; `Option.none` models `ValueError`. -/
def pyParseInt (s : String) : Option Int :=
  let t := stripWs s.toList
  match t with
  | '-' :: rest => if pyIntBodyOk rest then some (-(pyIntBodyVal rest : Int)) else none
  | '+' :: rest => if pyIntBodyOk rest then some (pyIntBodyVal rest : Int) else none
  | rest => if pyIntBodyOk rest then some (pyIntBodyVal rest : Int) else none

/-- Model of Python `int(value)` on the `EpochInput` domain (`int()` of an
int is the int itself; of a string, the parse above; `None` never reaches
this point in the source). -/
def pyIntOf : EpochInput → Option Int
  | .none => none
  | .str s => pyParseInt s
  | .int n => some n

/-- Embedding of `app_config/utils.py : convert_epoch_to_timestamp`.
Returns the timestamp instant in epoch milliseconds, or `none` for the
Python `None` result. -/
def convert_epoch_to_timestamp (value : EpochInput) : Option Int :=
  if !(epochTruthy value) then
    none
  else
    match pyIntOf value with
    | none => none
    | some v =>
      if v > 1000000000000 then
        some v
      else
        some (v * 1000)

/-! ## Model of `migrations/client_migration.py : sort_rows_for_foreign_key`

A client row is the 11-tuple built by `map_clients_to_rows`; the sort
only reads index 0 (`client_id`), reads and rewrites index 8 (`colony`),
and moves rows around whole, so the other nine components are modelled
by an opaque `payload` tag that distinguishes rows.  Python dicts and
sets are modelled by association lists / lists kept in insertion order
with in-place update, matching dict semantics; for `set` objects the
insertion order is one admissible iteration order (the ordering
properties proved below do not depend on it). -/

/-- A client row: index 0 (`client_id`), index 8 (`colony`), and the
remaining nine tuple components abstracted as `payload`. -/
structure ClientRow where
  client_id : Option String
  colony : Option String
  payload : Nat
deriving DecidableEq, Repr

/-- Key of a row in `client_id_to_row`: its client id when truthy. -/
def rowKey (r : ClientRow) : Option String := truthyVal r.client_id

/-- Python dict update `m[k] = v` on an insertion-ordered association
list: replace in place, else append. -/
def alistSet {α β : Type} [BEq α] (m : List (α × β)) (k : α) (v : β) : List (α × β) :=
  if m.any (fun p => p.1 == k) then
    m.map (fun p => if p.1 == k then (p.1, v) else p)
  else
    m ++ [(k, v)]

/-- Python dict lookup `m.get(k)` on an association list. -/
def alistGet {α β : Type} [BEq α] (m : List (α × β)) (k : α) : Option β :=
  (m.find? (fun p => p.1 == k)).map Prod.snd

/-- Python set modelled as a list in insertion order: add if absent. -/
def setAdd {α : Type} [BEq α] (s : List α) (x : α) : List α :=
  if s.contains x then s else s ++ [x]

/-- Insertion-ordered deduplication, modelling iteration over a Python
set built from a sequence. -/
def dedupFirst {α : Type} [BEq α] (xs : List α) : List α :=
  xs.foldl setAdd []

/-- Dict update specialised to `client_id_to_row`. -/
def dictSet (m : List (String × ClientRow)) (k : String) (v : ClientRow) :
    List (String × ClientRow) :=
  alistSet m k v

/-- Dict lookup specialised to `client_id_to_row`. -/
def dictGet (m : List (String × ClientRow)) (k : String) : Option ClientRow :=
  alistGet m k

/-- The comprehension `{row[0]: row for row in rows if row[0]}`. -/
def buildClientMap (rows : List ClientRow) : List (String × ClientRow) :=
  rows.foldl
    (fun m row =>
      match rowKey row with
      | some k => dictSet m k row
      | none => m)
    []

/-- `dependencies[parent].add(child)`: dict-of-set update. -/
def depsAdd (deps : List (String × List (Option String))) (parent : String)
    (child : Option String) : List (String × List (Option String)) :=
  if deps.any (fun p => p.1 == parent) then
    deps.map (fun p =>
      if p.1 == parent then (p.1, if p.2.contains child then p.2 else p.2 ++ [child])
      else p)
  else
    deps ++ [(parent, [child])]

/-- One iteration of the validation/graph-building loop of
`sort_rows_for_foreign_key` (lines 109-131): rewrite a dangling colony
to `None` (updating `client_id_to_row` when the row has a truthy id) and
add the dependency edge `colony -> client_id` when the colony resolves
within the batch and is not a self reference. -/
def fixStep (ids : List String)
    (st : List (String × ClientRow) × List (String × List (Option String)))
    (row : ClientRow) :
    List (String × ClientRow) × List (String × List (Option String)) :=
  let m := st.1
  let deps := st.2
  let (row', colony', m') :=
    match truthyVal row.colony with
    | some c =>
      if ids.contains c then (row, row.colony, m)
      else
        let fixed : ClientRow := { row with colony := none }
        match rowKey row with
        | some k => (fixed, none, dictSet m k fixed)
        | none => (fixed, none, m)
    | none => (row, row.colony, m)
  match truthyVal colony' with
  | some c =>
    if ids.contains c && !(row'.client_id == some c) then
      (m', depsAdd deps c row'.client_id)
    else
      (m', deps)
  | none => (m', deps)

/-- Degree lookup `in_degree.get(k, 0)`. -/
def degGet (deg : List (Option String × Int)) (k : Option String) : Int :=
  (alistGet deg k).getD 0

/-- Degree store `in_degree[k] = v` (update in place, else append). -/
def degSet (deg : List (Option String × Int)) (k : Option String) (v : Int) :
    List (Option String × Int) :=
  alistSet deg k v

/-- In-degree computation (lines 135-138): zero for every client id,
then one increment per dependency edge. -/
def buildDeg (ids : List String) (deps : List (String × List (Option String))) :
    List (Option String × Int) :=
  deps.foldl
    (fun deg p =>
      p.2.foldl (fun d child => degSet d child (degGet d child + 1)) deg)
    (ids.map (fun i => (some i, (0 : Int))))

/-- State of the Kahn while-loop: pending queue, in-degrees, emitted rows. -/
structure KahnState where
  queue : List (Option String)
  deg : List (Option String × Int)
  sorted : List ClientRow
deriving Repr

/-- The Kahn while-loop (lines 144-155), fuel-indexed.  Each iteration
pops the queue head, emits its row when it is a key of
`client_id_to_row`, and decrements the in-degree of each dependent,
enqueueing those that reach zero.  Each iteration strictly decreases
`queue.length + sum of positive in-degrees`, so with fuel at least that
initial measure the loop runs until the queue is empty, exactly like the
source's unbounded `while queue`. -/
def kahnLoop (m : List (String × ClientRow)) (deps : List (String × List (Option String))) :
    Nat → KahnState → KahnState
  | 0, st => st
  | fuel + 1, st =>
    match st.queue with
    | [] => st
    | current :: rest =>
      let sorted' :=
        match current with
        | some k =>
          match dictGet m k with
          | some row => st.sorted ++ [row]
          | none => st.sorted
        | none => st.sorted
      let dependents : List (Option String) :=
        match current with
        | some k => ((deps.find? (fun p => p.1 == k)).map Prod.snd).getD []
        | none => []
      let step :=
        dependents.foldl
          (fun (acc : List (Option String × Int) × List (Option String)) child =>
            let d := degGet acc.1 child - 1
            (degSet acc.1 child d, if d == 0 then acc.2 ++ [child] else acc.2))
          (st.deg, rest)
      kahnLoop m deps fuel ⟨step.2, step.1, sorted'⟩

/-- Fuel bound for the Kahn loop: initial queue length plus the sum of
the positive in-degrees. -/
def kahnFuel (queue : List (Option String)) (deg : List (Option String × Int)) : Nat :=
  queue.length + deg.foldl (fun a p => a + p.2.toNat) 0

/-- Embedding of `client_migration.py : sort_rows_for_foreign_key`
(lines 88-164). -/
def sort_rows_for_foreign_key (rows : List ClientRow) : List ClientRow :=
  if rows.isEmpty then rows
  else
    let map0 := buildClientMap rows
    let ids := map0.map Prod.fst
    let fixed := rows.foldl (fixStep ids) (map0, [])
    let m := fixed.1
    let deps := fixed.2
    let deg0 := buildDeg ids deps
    let queue0 := (ids.filter (fun i => degGet deg0 (some i) == 0)).map some
    let final := kahnLoop m deps (kahnFuel queue0 deg0) ⟨queue0, deg0, []⟩
    let sorted := final.sorted
    let added := sorted.filterMap rowKey
    sorted ++
      rows.filter (fun r =>
        match rowKey r with
        | some k => !(added.contains k)
        | none => false)

/-! ## Model of the staged CSV records and
`migrations/complete_migration.py : get_*_rows`

A normalized staged record (output of `read_csv_data`) is a dict of
optional string fields; empty strings were already converted to `None`
by the reader, but the extractors still test truthiness, so fields are
`Option String` and guards use `pyTruthy`/`truthyVal`. -/

/-- A normalized staged CSV record, restricted to the fields the
extraction functions read. -/
structure CsvRecord where
  sub_community_id : Option String := none
  sub_community_location : Option String := none
  sub_community_name : Option String := none
  sub_community_status : Option String := none
  community_id : Option String := none
  sub_community_domain : Option String := none
  sub_community_type : Option String := none
  building_id : Option String := none
  building_name : Option String := none
  building_status : Option String := none
  building_location : Option String := none
  building_site_code : Option String := none
  building_open_time : Option String := none
  building_close_time : Option String := none
  building_domain : Option String := none
  building_type : Option String := none
  building_created_by : Option String := none
  building_created_on : Option String := none
  spaces_id : Option String := none
  spaces_layout : Option String := none
  spaces_name : Option String := none
  spaces_status : Option String := none
  spaces_domain : Option String := none
  spaces_type : Option String := none
  asset_id : Option String := none
  asset_code : Option String := none
  cost_of_purchase : Option String := none
  created_by : Option String := none
  created_on : Option String := none
  asset_name : Option String := none
  asset_make : Option String := none
  asset_model : Option String := none
  asset_status : Option String := none
  asset_updated_by : Option String := none
  asset_updated_on : Option String := none
  analytics_profile_id : Option String := none
  asset_domain : Option String := none
  asset_settings_id : Option String := none
  active_contract : Option String := none
  asset_type : Option String := none
  data_point_id : Option String := none
  point_name : Option String := none
  point_display_name : Option String := none
  point_data_type : Option String := none
  remote_data_type : Option String := none
  access_type : Option String := none
  point_status : Option String := none
  point_symbol : Option String := none
  point_unit : Option String := none
  point_expression : Option String := none
  point_precedence : Option String := none
deriving DecidableEq, Repr

/-- Python `field or "ACTIVE"`. -/
def orActive (f : Option String) : String :=
  match truthyVal f with
  | some s => s
  | none => "ACTIVE"

/-- The pattern `convert_epoch_to_timestamp(record.get(k)) if
record.get(k) else None`. -/
def epochOfField (f : Option String) : Option Int :=
  match truthyVal f with
  | some s => convert_epoch_to_timestamp (.str s)
  | none => none

/-- Strip a given character from both ends of a character list
(Python `str.strip(c)`). -/
def stripChar (c : Char) (cs : List Char) : List Char :=
  ((cs.dropWhile (fun x => x == c)).reverse.dropWhile (fun x => x == c)).reverse

/-- Python `s.strip()` as a string-to-string function. -/
def pyStrip (s : String) : String :=
  String.mk (stripWs s.toList)

/-- An exact decimal value, mantissa times ten to the exponent: the
model of a parsed Python float literal. -/
abbrev DecimalVal : Type := Int × Int

/-- Digit run to a natural number. -/
def digitsVal (cs : List Char) : Nat :=
  cs.foldl (fun a c => a * 10 + (c.toNat - '0'.toNat)) 0

/-- Parse an unsigned decimal float body `digits[.digits]` /
`.digits` / `digits.` into mantissa and decimal exponent. -/
def parseDecBody (cs : List Char) : Option (Nat × Int) :=
  let intPart := cs.takeWhile Char.isDigit
  let rest := cs.dropWhile Char.isDigit
  match rest with
  | [] => if intPart.isEmpty then none else some (digitsVal intPart, 0)
  | '.' :: frac =>
    if frac.all Char.isDigit && !(intPart.isEmpty && frac.isEmpty) then
      some (digitsVal (intPart ++ frac), -(frac.length : Int))
    else none
  | _ => none

/-- Model of Python `float(s)` on the decimal literal forms
`[ws][sign]digits[.digits][e[sign]digits][ws]` (the forms staged cost
and precedence data can take); other inputs are a `ValueError`. -/
def pyParseFloat (s : String) : Option DecimalVal :=
  let t := stripWs s.toList
  let (sign, body) :=
    match t with
    | '-' :: r => ((-1 : Int), r)
    | '+' :: r => ((1 : Int), r)
    | r => ((1 : Int), r)
  let mantissaPart := body.takeWhile (fun c => c.isDigit || c == '.')
  let expPart := body.dropWhile (fun c => c.isDigit || c == '.')
  match parseDecBody mantissaPart with
  | none => none
  | some (m, e) =>
    match expPart with
    | [] => some (sign * (m : Int), e)
    | 'e' :: er =>
      (match pyParseInt (String.mk er) with
       | some ev => some (sign * (m : Int), e + ev)
       | none => none)
    | 'E' :: er =>
      (match pyParseInt (String.mk er) with
       | some ev => some (sign * (m : Int), e + ev)
       | none => none)
    | _ => none

/-- Embedding of `complete_migration.py : _safe_float` (lines 236-242). -/
def _safe_float (value : Option String) : Option DecimalVal :=
  if value == none || value == some "" || value == some "null" then none
  else
    match value with
    | none => none
    | some s => pyParseFloat s

/-- Subcommunity row tuple (lines 131-139). -/
structure SubRow where
  identifier : String
  geo_location : Option String
  name : Option String
  status : String
  community_id : Option String
  domain : Option String
  type : Option String
deriving DecidableEq, Repr

/-- Row built from one record by `get_subcommunity_rows`. -/
def mkSubRow (sub_id : String) (r : CsvRecord) : SubRow :=
  ⟨sub_id, r.sub_community_location, r.sub_community_name,
   orActive r.sub_community_status, r.community_id,
   r.sub_community_domain, r.sub_community_type⟩

/-- Recursion of `get_subcommunity_rows` with its `seen` set. -/
def subcommunityGo (seen : List String) : List CsvRecord → List SubRow
  | [] => []
  | r :: rest =>
    match truthyVal r.sub_community_id with
    | some k =>
      if seen.contains k then subcommunityGo seen rest
      else mkSubRow k r :: subcommunityGo (setAdd seen k) rest
    | none => subcommunityGo seen rest

/-- Embedding of `complete_migration.py : get_subcommunity_rows`
(lines 123-140). -/
def get_subcommunity_rows (data : List CsvRecord) : List SubRow :=
  subcommunityGo [] data

/-- Building row tuple (lines 151-164). -/
structure BuildingRow where
  identifier : String
  name : Option String
  status : String
  geo_location : Option String
  site_code : Option String
  store_open_time : Option Int
  store_close_time : Option Int
  domain : Option String
  type : Option String
  created_by : Option String
  created_on : Option Int
  sub_community_id : Option String
deriving DecidableEq, Repr

/-- Row built from one record by `get_building_rows`. -/
def mkBuildingRow (bldg_id : String) (r : CsvRecord) : BuildingRow :=
  ⟨bldg_id, r.building_name, orActive r.building_status,
   r.building_location, r.building_site_code,
   epochOfField r.building_open_time, epochOfField r.building_close_time,
   r.building_domain, r.building_type, r.building_created_by,
   epochOfField r.building_created_on, r.sub_community_id⟩

/-- Recursion of `get_building_rows` with its `seen` set. -/
def buildingGo (seen : List String) : List CsvRecord → List BuildingRow
  | [] => []
  | r :: rest =>
    match truthyVal r.building_id with
    | some k =>
      if seen.contains k then buildingGo seen rest
      else mkBuildingRow k r :: buildingGo (setAdd seen k) rest
    | none => buildingGo seen rest

/-- Embedding of `complete_migration.py : get_building_rows`
(lines 143-165). -/
def get_building_rows (data : List CsvRecord) : List BuildingRow :=
  buildingGo [] data

/-- Space row tuple (lines 197-207). -/
structure SpaceRow where
  identifier : String
  layout_hierarchy : Int
  name : Option String
  status : String
  building_identifier : String
  domain : Option String
  type : Option String
deriving DecidableEq, Repr

/-- The `int(layout_raw)` with `except (TypeError, ValueError): 0` of
`get_space_rows`. -/
def spacesLayoutOf (layout_raw : Option String) : Int :=
  match layout_raw with
  | none => 0
  | some s => (pyParseInt s).getD 0

/-- Row built from one record by `get_space_rows`. -/
def mkSpaceRow (space_id building_id : String) (r : CsvRecord) : SpaceRow :=
  ⟨space_id, spacesLayoutOf r.spaces_layout, r.spaces_name,
   orActive r.spaces_status, building_id, r.spaces_domain, r.spaces_type⟩

/-- Recursion of `get_space_rows` with its `seen` set: a record is
skipped without marking its key as seen when the key is missing, the
literal string `"null"`, or the record lacks a truthy `building_id`. -/
def spaceGo (seen : List String) : List CsvRecord → List SpaceRow
  | [] => []
  | r :: rest =>
    match truthyVal r.spaces_id with
    | some k =>
      if k == "null" then spaceGo seen rest
      else if seen.contains k then spaceGo seen rest
      else
        match truthyVal r.building_id with
        | some b => mkSpaceRow k b r :: spaceGo (setAdd seen k) rest
        | none => spaceGo seen rest
    | none => spaceGo seen rest

/-- Embedding of `complete_migration.py : get_space_rows`
(lines 168-212). -/
def get_space_rows (data : List CsvRecord) : List SpaceRow :=
  spaceGo [] data

/-- Asset row tuple (lines 264-286). -/
structure AssetRow where
  identifier : String
  asset_code : Option String
  cost_of_purchase : Option DecimalVal
  created_by : Option String
  created_on : Option Int
  display_name : Option String
  make : Option String
  model : Option String
  status : String
  updated_by : Option String
  updated_on : Option Int
  analytics_profile_id : Option String
  client_id : Option String
  domain : Option String
  asset_settings_id : Option String
  site_id : Option String
  sub_community_id : Option String
  active_contract : Option String
  type : Option String
deriving DecidableEq, Repr

/-- Row built from one record by `get_asset_rows` given the asset-type
name lookup table. -/
def mkAssetRow (asset_id : String) (asset_type_map : List (String × String))
    (r : CsvRecord) : AssetRow :=
  let asset_type_name := pyStrip (r.asset_type.getD "")
  let asset_type_id := alistGet asset_type_map asset_type_name
  ⟨asset_id, r.asset_code, _safe_float r.cost_of_purchase, r.created_by,
   epochOfField r.created_on, r.asset_name, r.asset_make, r.asset_model,
   orActive r.asset_status, r.asset_updated_by,
   epochOfField r.asset_updated_on, r.analytics_profile_id,
   r.community_id, r.asset_domain, r.asset_settings_id, r.building_id,
   r.sub_community_id, r.active_contract, asset_type_id⟩

/-- Recursion of `get_asset_rows` with its `seen` set. -/
def assetGo (asset_type_map : List (String × String)) (seen : List String) :
    List CsvRecord → List AssetRow
  | [] => []
  | r :: rest =>
    match truthyVal r.asset_id with
    | some k =>
      if seen.contains k then assetGo asset_type_map seen rest
      else mkAssetRow k asset_type_map r :: assetGo asset_type_map (setAdd seen k) rest
    | none => assetGo asset_type_map seen rest

/-- Embedding of `complete_migration.py : get_asset_rows`
(lines 245-287). -/
def get_asset_rows (data : List CsvRecord) (asset_type_map : List (String × String)) :
    List AssetRow :=
  assetGo asset_type_map [] data

/-- Embedding of `complete_migration.py : get_asset_space_rows`
(lines 290-314): unique (asset id, space id) pairs.  Both ids are
truthy strings; the re-strip of already-stripped reader output is kept
as in the source. -/
def assetSpaceGo (seen : List (String × String)) :
    List CsvRecord → List (String × String)
  | [] => []
  | r :: rest =>
    match truthyVal r.asset_id, truthyVal r.spaces_id with
    | some a, some s =>
      let a := pyStrip a
      let s := pyStrip s
      if a == "" || s == "" then assetSpaceGo seen rest
      else if seen.contains (a, s) then assetSpaceGo seen rest
      else (a, s) :: assetSpaceGo (setAdd seen (a, s)) rest
    | _, _ => assetSpaceGo seen rest

/-- Embedding of `get_asset_space_rows`. -/
def get_asset_space_rows (data : List CsvRecord) : List (String × String) :=
  assetSpaceGo [] data

/-- The id-less data-point row tuple built by `get_data_point_rows`
(lines 341-350). -/
structure DataPointRowData where
  access_type : Option String
  data_type : Option String
  display_name : Option String
  name : String
  remote_data_type : Option String
  status : String
  symbol : Option String
  unit : Option String
deriving DecidableEq, Repr

/-- Row built from one record by `get_data_point_rows`. -/
def mkDataPointRowData (point_name : String) (r : CsvRecord) : DataPointRowData :=
  ⟨r.access_type, r.point_data_type, r.point_display_name, point_name,
   r.remote_data_type, orActive r.point_status, r.point_symbol, r.point_unit⟩

/-- Recursion of `get_data_point_rows` with its `seen` set of point
names. -/
def dataPointGo (seen : List String) :
    List CsvRecord → List (Option String × DataPointRowData)
  | [] => []
  | r :: rest =>
    match truthyVal r.point_name with
    | some pn =>
      if seen.contains pn then dataPointGo seen rest
      else (r.data_point_id, mkDataPointRowData pn r) :: dataPointGo (setAdd seen pn) rest
    | none => dataPointGo seen rest

/-- Embedding of `complete_migration.py : get_data_point_rows`
(lines 317-354). -/
def get_data_point_rows (data : List CsvRecord) :
    List (Option String × DataPointRowData) :=
  dataPointGo [] data

/-- The `point_precedence` parse of the link-row extractors: `None`
unless the raw value and its strip are truthy and `int()` succeeds. -/
def precedenceOf (raw : Option String) : Option Int :=
  match truthyVal raw with
  | some s => if pyStrip s == "" then none else pyParseInt s
  | none => none

/-- Link row tuple built by `get_asset_point_rows` /
`get_asset_type_point_rows` (lines 394-402 and 445-453); `owner_id` is
the asset id resp. the asset-type id. -/
structure LinkRowData where
  expression : Option String
  precedence : Option Int
  status : String
  symbol : Option String
  unit : Option String
  owner_id : String
  point_id : String
deriving DecidableEq, Repr

/-- Recursion of `get_asset_point_rows` with its `seen` pair set. -/
def assetPointGo (csv_to_point_id_map : List (Option String × String))
    (seen : List (String × String)) : List CsvRecord → List LinkRowData
  | [] => []
  | r :: rest =>
    match truthyVal r.asset_id, truthyVal r.data_point_id with
    | some asset_id, some csv_dp =>
      (match alistGet csv_to_point_id_map (some csv_dp) with
       | some point_id =>
         if point_id == "" then assetPointGo csv_to_point_id_map seen rest
         else if seen.contains (asset_id, point_id) then
           assetPointGo csv_to_point_id_map seen rest
         else
           ⟨r.point_expression, precedenceOf r.point_precedence,
            orActive r.point_status, r.point_symbol, r.point_unit,
            asset_id, point_id⟩ ::
             assetPointGo csv_to_point_id_map (setAdd seen (asset_id, point_id)) rest
       | none => assetPointGo csv_to_point_id_map seen rest)
    | _, _ => assetPointGo csv_to_point_id_map seen rest

/-- Embedding of `complete_migration.py : get_asset_point_rows`
(lines 357-403). -/
def get_asset_point_rows (data : List CsvRecord)
    (csv_to_point_id_map : List (Option String × String)) : List LinkRowData :=
  assetPointGo csv_to_point_id_map [] data

/-- Recursion of `get_asset_type_point_rows` with its `seen` pair set. -/
def assetTypePointGo (asset_type_map : List (String × String))
    (csv_to_point_id_map : List (Option String × String))
    (seen : List (String × String)) : List CsvRecord → List LinkRowData
  | [] => []
  | r :: rest =>
    let asset_type_name := pyStrip (r.asset_type.getD "")
    let asset_type_id? :=
      match alistGet asset_type_map asset_type_name with
      | some t => if t == "" then none else some t
      | none => none
    match asset_type_id?, truthyVal r.data_point_id with
    | some asset_type_id, some csv_dp =>
      (match alistGet csv_to_point_id_map (some csv_dp) with
       | some point_id =>
         if point_id == "" then assetTypePointGo asset_type_map csv_to_point_id_map seen rest
         else if seen.contains (asset_type_id, point_id) then
           assetTypePointGo asset_type_map csv_to_point_id_map seen rest
         else
           ⟨r.point_expression, precedenceOf r.point_precedence,
            orActive r.point_status, r.point_symbol, r.point_unit,
            asset_type_id, point_id⟩ ::
             assetTypePointGo asset_type_map csv_to_point_id_map
               (setAdd seen (asset_type_id, point_id)) rest
       | none => assetTypePointGo asset_type_map csv_to_point_id_map seen rest)
    | _, _ => assetTypePointGo asset_type_map csv_to_point_id_map seen rest

/-- Embedding of `complete_migration.py : get_asset_type_point_rows`
(lines 406-454). -/
def get_asset_type_point_rows (data : List CsvRecord)
    (asset_type_map : List (String × String))
    (csv_to_point_id_map : List (Option String × String)) : List LinkRowData :=
  assetTypePointGo asset_type_map csv_to_point_id_map [] data

/-! ## Model of the target-store state and the loaders

Tables are lists of rows in insertion order.  `ON CONFLICT (key) DO
UPDATE` updates the row whose non-null key equals the incoming row's
key and inserts otherwise (a SQL `NULL` key never conflicts).
`uuid.uuid4()` is modelled by a deterministic fresh-name source
`genId` threaded as a counter; the source only relies on generated ids
being usable strings. -/

/-- Fresh identifier source standing for `str(uuid.uuid4())`. -/
def genId (n : Nat) : String :=
  "uuid-" ++ toString n

/-- A row of `public.data_point` (columns of the INSERT at lines
733-740). -/
structure DataPointTableRow where
  id : String
  access_type : Option String
  data_type : Option String
  display_name : Option String
  name : Option String
  point_id : Option String
  remote_data_type : Option String
  status : Option String
  symbol : Option String
  unit : Option String
deriving DecidableEq, Repr

/-- The row inserted for one staged data point: `point_id` is the same
generated value as `id`. -/
def mkDataPointTableRow (data_point_id : String) (d : DataPointRowData) :
    DataPointTableRow :=
  ⟨data_point_id, d.access_type, d.data_type, d.display_name, some d.name,
   some data_point_id, d.remote_data_type, some d.status, d.symbol, d.unit⟩

/-- One iteration of the data-point insert loop of `migrate_points`
(lines 708-758): generate an id, look the natural name up in the
table, reuse the existing id/point-id pair when found (a null or empty
stored point id falls back to the row id), insert otherwise.  The
accumulator is (uuid counter, table, `inserted_data_points`). -/
def insertDataPointStep
    (st : Nat × List DataPointTableRow × List (Option String × String × String))
    (entry : Option String × DataPointRowData) :
    Nat × List DataPointTableRow × List (Option String × String × String) :=
  let gen := st.1
  let table := st.2.1
  let inserted := st.2.2
  let data_point_id := genId gen
  let point_name := entry.2.name
  match table.find? (fun t => t.name == some point_name) with
  | some t =>
    let point_id :=
      match t.point_id with
      | some pid => if pid == "" then t.id else pid
      | none => t.id
    (gen + 1, table, inserted ++ [(entry.1, t.id, point_id)])
  | none =>
    (gen + 1, table ++ [mkDataPointTableRow data_point_id entry.2],
     inserted ++ [(entry.1, data_point_id, data_point_id)])

/-- A row of `public.asset_point` / `public.asset_type_point` (columns
of the INSERTs at lines 792-796 and 822-826); `owner_id` is the
`asset_id` resp. `asset_type_id` column. -/
structure LinkTableRow where
  id : String
  expression : Option String
  precedence : Option Int
  status : Option String
  symbol : Option String
  unit : Option String
  owner_id : Option String
  data_point_id : Option String
deriving DecidableEq, Repr

/-- One iteration of the link-row insert loops of `migrate_points`
(lines 779-797 and 809-827): generate an id, check for an existing
(owner id, point id) pair, insert only when absent. -/
def insertLinkRowStep (st : Nat × List LinkTableRow) (row : LinkRowData) :
    Nat × List LinkTableRow :=
  let gen := st.1
  let table := st.2
  let link_id := genId gen
  if (table.find? (fun t =>
      t.owner_id == some row.owner_id && t.data_point_id == some row.point_id)).isSome then
    (gen + 1, table)
  else
    (gen + 1, table ++
      [⟨link_id, row.expression, row.precedence, some row.status, row.symbol,
        row.unit, some row.owner_id, some row.point_id⟩])

/-- Specification of the id/point-id pair the data-point loop derives
from the first table row carrying a natural name: the existing pair
when found (a null or empty stored point id falling back to the row
id), meaningless otherwise. -/
def dpLookup (table : List DataPointTableRow) (n : String) : String × String :=
  match table.find? (fun t => t.name == some n) with
  | some t =>
    (t.id,
      match t.point_id with
      | some pid => if pid == "" then t.id else pid
      | none => t.id)
  | none => ("", "")

/-- The three tables written by `migrate_points`. -/
structure PointsDB where
  data_point : List DataPointTableRow
  asset_point : List LinkTableRow
  asset_type_point : List LinkTableRow
deriving DecidableEq, Repr

/-- Embedding of `complete_migration.py : migrate_points`
(lines 689-831), as a transition on the uuid counter and the three
point tables. -/
def migrate_points (gen : Nat) (db : PointsDB) (data : List CsvRecord)
    (asset_type_map : List (String × String)) : Nat × PointsDB :=
  let data_point_rows := get_data_point_rows data
  if data_point_rows.isEmpty then (gen, db)
  else
    let dpRes := data_point_rows.foldl insertDataPointStep (gen, db.data_point, [])
    let gen1 := dpRes.1
    let dpTable := dpRes.2.1
    let inserted := dpRes.2.2
    let csv_to_point_id_map :=
      inserted.foldl (fun m e => alistSet m e.1 e.2.2) []
    if csv_to_point_id_map.isEmpty then (gen1, { db with data_point := dpTable })
    else
      let asset_point_rows := get_asset_point_rows data csv_to_point_id_map
      let apRes := asset_point_rows.foldl insertLinkRowStep (gen1, db.asset_point)
      let asset_type_point_rows :=
        get_asset_type_point_rows data asset_type_map csv_to_point_id_map
      let atpRes := asset_type_point_rows.foldl insertLinkRowStep (apRes.1, db.asset_type_point)
      (atpRes.1, ⟨dpTable, apRes.2, atpRes.2⟩)

/-- Upsert of one client row, `ON CONFLICT (client_id) DO UPDATE`
(lines 185-211 of `client_migration.py`): a non-null conflicting key
updates in place, otherwise the row is appended. -/
def upsertClientRow (table : List ClientRow) (r : ClientRow) : List ClientRow :=
  match r.client_id with
  | some k =>
    if table.any (fun x => x.client_id == some k) then
      table.map (fun x => if x.client_id == some k then r else x)
    else table ++ [r]
  | none => table ++ [r]

/-- Embedding of the load phase of `client_migration.py :
migrate_clients` (lines 167-213): sort the mapped rows for the colony
foreign key, then batch upsert them into `public.clients`. -/
def migrate_clients_load (table : List ClientRow) (rows : List ClientRow) :
    List ClientRow :=
  if rows.isEmpty then table
  else (sort_rows_for_foreign_key rows).foldl upsertClientRow table

/-! ## Model of `complete_migration.py : migrate_subcommunities`
referential validation (lines 457-524) and the
`migrate_assets` asset-space validation (lines 646-686).

The client existence check issues one query over the distinct
community ids with `LOWER(client_id) = ANY(...)` and substitutes the
stored casing back; the space existence check issues one query with
`identifier IN (...)` (exact comparison) and filters in memory. -/

/-- Embedding of the community-id validation of
`migrate_subcommunities`: `storeClients` is the `client_id` column of
`public.clients`.  Returns the valid rows with the canonical stored
casing substituted at index 4. -/
def validate_subcommunities (storeClients : List String) (rows : List SubRow) :
    List SubRow :=
  let unique_community_ids :=
    dedupFirst (rows.filterMap (fun r => truthyVal r.community_id))
  let fetched :=
    dedupFirst (storeClients.filter (fun c =>
      unique_community_ids.any (fun u => u.pyLower == c.pyLower)))
  let valid_client_id_map :=
    fetched.foldl (fun m c => alistSet m c.pyLower c) []
  rows.filterMap (fun row =>
    match truthyVal row.community_id with
    | none => none
    | some community_id =>
      match alistGet valid_client_id_map community_id.pyLower with
      | some actual_client_id =>
        if actual_client_id == "" then none
        else some { row with community_id := some actual_client_id }
      | none => none)

/-- Embedding of the asset-space validation of `migrate_assets`:
`storeSpaces` is the `identifier` column of `public.space`; pairs whose
space id is not an exact member are dropped. -/
def validate_asset_spaces (storeSpaces : List String)
    (asset_space_rows : List (String × String)) : List (String × String) :=
  let unique_space_ids := dedupFirst (asset_space_rows.map Prod.snd)
  let valid_space_ids :=
    dedupFirst (storeSpaces.filter (fun s => unique_space_ids.contains s))
  asset_space_rows.filter (fun p => valid_space_ids.contains p.2)

/-! ## Model of `asset_type_migration.py : migrate_asset_types`
(lines 169-234) -/

/-- A record of `AssetTypeToMigrate.csv` after `read_asset_type_csv`. -/
structure AssetTypeRecord where
  parent_name : Option String := none
  child_name : Option String := none
  child_template_name : Option String := none
deriving DecidableEq, Repr

/-- Embedding of the `clean_value` closure of
`map_asset_types_to_rows` (lines 124-130). -/
def clean_value (value : Option String) : Option String :=
  match value with
  | none => none
  | some s =>
    let cs := stripWs (stripChar '\'' (stripChar '"' (stripWs s.toList)))
    if cs.isEmpty then none else some (String.mk cs)

/-- A row of `public.asset_type` (columns of the INSERT at lines
210-219). -/
structure AssetTypeRow where
  id : Int
  name : String
  parent_name : Option String
  status : String
  template_name : Option String
  client_id : String
deriving DecidableEq, Repr

/-- Recursion of `map_asset_types_to_rows` (lines 90-166) with the
sequential id counter: rows with a missing or empty (after cleaning)
`child_name` are skipped without consuming an id. -/
def mapAssetTypesGo (current_id : Int) : List AssetTypeRecord → List AssetTypeRow
  | [] => []
  | record :: rest =>
    if !(pyTruthy record.child_name) then mapAssetTypesGo current_id rest
    else
      let name := clean_value record.child_name
      let parent_name := clean_value record.parent_name
      let template_name := clean_value record.child_template_name
      match name with
      | none => mapAssetTypesGo current_id rest
      | some n =>
        ⟨current_id, n, parent_name, "ACTIVE", template_name, "emaar"⟩ ::
          mapAssetTypesGo (current_id + 1) rest

/-- Embedding of `asset_type_migration.py : map_asset_types_to_rows`. -/
def map_asset_types_to_rows (data : List AssetTypeRecord) (start_id : Int) :
    List AssetTypeRow :=
  mapAssetTypesGo start_id data

/-- Upsert of one asset-type row, `ON CONFLICT (id) DO UPDATE`. -/
def upsertAssetTypeRow (table : List AssetTypeRow) (r : AssetTypeRow) :
    List AssetTypeRow :=
  if table.any (fun x => x.id == r.id) then
    table.map (fun x => if x.id == r.id then r else x)
  else table ++ [r]

/-- Embedding of the load phase of `asset_type_migration.py :
migrate_asset_types` (lines 188-228): read the current maximum id
(`COALESCE(MAX(id), 0)`, falling back to a start id of 1 when falsy),
generate sequential ids from there, and batch upsert on the id. -/
def migrate_asset_types_load (table : List AssetTypeRow)
    (data : List AssetTypeRecord) : List AssetTypeRow :=
  let mx := ((table.map (fun r => r.id)).max?).getD 0
  let start_id := if mx == 0 then 1 else mx + 1
  let rows := map_asset_types_to_rows data start_id
  if rows.isEmpty then table
  else rows.foldl upsertAssetTypeRow table

/-! ## Model of `migrations/neo4j_export.py : export_neo4j_to_csv`
(lines 221-341)

The two store oracles are the counting query and the windowed fetch;
`Except.error` models a raised exception.  Writing a staging file is
the pure act of recording `(file number, partition id, records)`; disk
contents already written persist across later failures.  `α` is the
record type. -/

/-- Extraction progress: staging files written so far, the global file
counter, total records exported, partitions fully processed. -/
structure ExportState (α : Type) where
  files : List (Nat × String × List α)
  counter : Nat
  totalExported : Nat
  processed : Nat
deriving DecidableEq, Repr

/-- The inner window loop of `export_neo4j_to_csv` for one partition
(lines 294-321), over windows `batchNum, batchNum+1, ..., numBatches`.
The boolean result records whether a window fetch raised (aborting the
rest of this partition after the counter increment, files already
written kept). -/
def exportWindows {α : Type} (fetch : String → Nat → Nat → Except String (List α))
    (sub : String) (batchSize : Nat) :
    Nat → Nat → ExportState α → ExportState α × Bool
  | _, 0, st => (st, false)
  | batchNum, remaining + 1, st =>
    let skip := (batchNum - 1) * batchSize
    let counter' := st.counter + 1
    match fetch sub skip batchSize with
    | .error _ => ({ st with counter := counter' }, true)
    | .ok records =>
      if records.isEmpty then ({ st with counter := counter' }, false)
      else
        let st' : ExportState α :=
          { files := st.files ++ [(counter', sub, records)],
            counter := counter',
            totalExported := st.totalExported + records.length,
            processed := st.processed }
        exportWindows fetch sub batchSize (batchNum + 1) remaining st'

/-- Processing of one partition (lines 271-330): a failing counting
query logs and leaves the state unchanged (the next partition
continues); zero records skips the partition; otherwise the window
loop runs and `processed` is only incremented when no window failed. -/
def exportPartition {α : Type} (count : String → Except String Nat)
    (fetch : String → Nat → Nat → Except String (List α)) (batchSize : Nat)
    (st : ExportState α) (sub : String) : ExportState α :=
  match count sub with
  | .error _ => st
  | .ok total =>
    if total == 0 then st
    else
      let num_batches := (total + batchSize - 1) / batchSize
      let res := exportWindows fetch sub batchSize 1 num_batches st
      if res.2 then res.1
      else { res.1 with processed := res.1.processed + 1 }

/-- Embedding of `export_neo4j_to_csv`: fold the partitions of the
manifest through `exportPartition`. -/
def export_neo4j_to_csv {α : Type} (count : String → Except String Nat)
    (fetch : String → Nat → Nat → Except String (List α)) (batchSize : Nat)
    (subcommunity_ids : List String) : ExportState α :=
  subcommunity_ids.foldl (exportPartition count fetch batchSize) ⟨[], 0, 0, 0⟩

/-! ## Natural-key predicates of claim C2

`data.find? (bears... k)` is "the first record in the input sequence
bearing key `k`" of the claim; for spaces the validity conditions of
`get_space_rows` (key not the literal `"null"`, truthy building id)
are part of the amended predicate. -/

/-- A record bearing subcommunity key `k`. -/
def bearsSubKey (k : String) (rc : CsvRecord) : Bool :=
  truthyVal rc.sub_community_id == some k

/-- A record bearing building key `k`. -/
def bearsBuildingKey (k : String) (rc : CsvRecord) : Bool :=
  truthyVal rc.building_id == some k

/-- A record bearing space key `k` and passing the validity filter of
`get_space_rows`. -/
def bearsSpaceKeyValid (k : String) (rc : CsvRecord) : Bool :=
  truthyVal rc.spaces_id == some k &&
    (!(k == "null") && (truthyVal rc.building_id).isSome)

/-- A record bearing asset key `k`. -/
def bearsAssetKey (k : String) (rc : CsvRecord) : Bool :=
  truthyVal rc.asset_id == some k

/-- A record bearing data-point natural key `k`. -/
def bearsPointKey (k : String) (rc : CsvRecord) : Bool :=
  truthyVal rc.point_name == some k

/-! ## The foreign-key ordering property of claim C1 -/

/-- Decidable form of the claimed output ordering of
`sort_rows_for_foreign_key`: at every output position whose row carries
a truthy colony naming the client id of another row of the input, some
earlier output position carries that client id. -/
def colonyRefOrderedB (rows out : List ClientRow) : Bool :=
  (List.range out.length).all fun i =>
    let r := out.getD i ⟨none, none, 0⟩
    match truthyVal r.colony with
    | some p =>
      if r.client_id != some p && rows.any (fun x => x.client_id == some p) then
        (out.take i).any (fun x => x.client_id == some p)
      else true
    | none => true

/-- The string key of a row with a truthy client id. -/
def keyOf (r : ClientRow) : String := (truthyVal r.client_id).getD ""

/-- The colony fix applied by the validation pass of
`sort_rows_for_foreign_key`: a truthy colony outside the batch ids is
nulled, any other row is kept as is. -/
def fixRow (ids : List String) (r : ClientRow) : ClientRow :=
  match truthyVal r.colony with
  | some c => if ids.contains c then r else { r with colony := none }
  | none => r

/-- The dependency edge contributed by one row: its truthy colony when
it resolves in the batch and is not a self reference. -/
def edgePar (ids : List String) (r : ClientRow) : Option String :=
  match truthyVal r.colony with
  | some c => if ids.contains c && !(r.client_id == some c) then some c else none
  | none => none

/-- The map component of one `fixStep` iteration, in isolation. -/
def fixM (ids : List String) (m : List (String × ClientRow)) (r : ClientRow) :
    List (String × ClientRow) :=
  match truthyVal r.colony with
  | some c =>
    if ids.contains c then m
    else
      match rowKey r with
      | some k => dictSet m k { r with colony := none }
      | none => m
  | none => m

/-- The dependency component of one `fixStep` iteration, in isolation. -/
def fixD (ids : List String) (d : List (String × List (Option String)))
    (r : ClientRow) : List (String × List (Option String)) :=
  match edgePar ids r with
  | some c => depsAdd d c r.client_id
  | none => d

/-- The children stored for a parent key in the dependency alist (the
`dependents` lookup of the Kahn loop). -/
def depsCh (deps : List (String × List (Option String))) (k : String) :
    List (Option String) :=
  ((deps.find? (fun p => p.1 == k)).map Prod.snd).getD []

/-- The row emitted by the Kahn loop when popping key `k`. -/
def emitOf (m : List (String × ClientRow)) (k : String) : ClientRow :=
  (dictGet m k).getD ⟨none, none, 0⟩

/-- The edge relation of the dependency graph built by
`sort_rows_for_foreign_key`: some row with id `k` has colony `c`
resolving inside the batch, `c ≠ k`. -/
def Pedge (ids : List String) (rows : List ClientRow) (c k : String) : Prop :=
  ∃ r ∈ rows, edgePar ids r = some c ∧ r.client_id = some k

/-! ## Helper lemmas -/

theorem truthyVal_eq_some {v : Option String} {s : String}
    (h : truthyVal v = some s) : v = some s ∧ s ≠ "" := by
  cases v with
  | none => simp [truthyVal] at h
  | some t =>
    by_cases ht : t = ""
    · subst ht; simp [truthyVal] at h
    · constructor
      · simp [truthyVal, ht] at h
        simp [h]
      · simp [truthyVal, ht] at h
        subst h; exact ht

theorem pyTruthy_of_truthyVal {v : Option String} {s : String}
    (h : truthyVal v = some s) : pyTruthy v = true := by
  obtain ⟨hv, hs⟩ := truthyVal_eq_some h
  subst hv
  simp [pyTruthy, hs]

theorem truthyVal_of_pyTruthy {v : Option String}
    (h : pyTruthy v = true) : ∃ s, v = some s ∧ s ≠ "" := by
  cases v with
  | none => simp [pyTruthy] at h
  | some t =>
    refine ⟨t, rfl, ?_⟩
    simp [pyTruthy] at h
    exact h

theorem alistSet_mem {α β : Type} [BEq α] {m : List (α × β)} {k : α} {v : β}
    {x : α × β} (hx : x ∈ alistSet m k v) : x ∈ m ∨ x.2 = v := by
  unfold alistSet at hx
  split at hx
  · obtain ⟨p, hp, he⟩ := List.mem_map.1 hx
    by_cases h : (p.1 == k) = true
    · right; rw [← he]; simp [h]
    · left; rw [← he]; simp [h]; exact hp
  · rcases List.mem_append.1 hx with h | h
    · left; exact h
    · right
      simp only [List.mem_singleton] at h
      subst h; rfl

theorem alistSet_mem_eq {α β : Type} [BEq α] [LawfulBEq α] {m : List (α × β)}
    {k : α} {v : β} {x : α × β} (hx : x ∈ alistSet m k v) :
    x ∈ m ∨ x = (k, v) := by
  unfold alistSet at hx
  split at hx
  · obtain ⟨p, hp, he⟩ := List.mem_map.1 hx
    by_cases h : (p.1 == k) = true
    · right
      rw [← he]
      simp only [h, if_true]
      rw [eq_of_beq h]
    · left; rw [← he]; simp [h]; exact hp
  · rcases List.mem_append.1 hx with h | h
    · left; exact h
    · right
      simpa using h

theorem buildClientMap_fold_mem (rows : List ClientRow) :
    ∀ (m₀ : List (String × ClientRow)) (x : String × ClientRow),
      x ∈ rows.foldl
        (fun m row =>
          match rowKey row with
          | some k => dictSet m k row
          | none => m) m₀ →
      x ∈ m₀ ∨ (x.2 ∈ rows ∧ rowKey x.2 = some x.1) := by
  induction rows with
  | nil => intro m₀ x hx; exact Or.inl hx
  | cons r rest ih =>
    intro m₀ x hx
    rw [List.foldl_cons] at hx
    rcases ih _ x hx with h | h
    · cases hk : rowKey r with
      | none =>
        rw [hk] at h
        exact Or.inl h
      | some k =>
        rw [hk] at h
        rcases alistSet_mem_eq h with h' | h'
        · exact Or.inl h'
        · right
          rw [h']
          exact ⟨List.mem_cons_self _ _, hk⟩
    · exact Or.inr ⟨List.mem_cons_of_mem _ h.1, h.2⟩

theorem buildClientMap_mem {rows : List ClientRow} {x : String × ClientRow}
    (hx : x ∈ buildClientMap rows) :
    x.2 ∈ rows ∧ rowKey x.2 = some x.1 := by
  rcases buildClientMap_fold_mem rows [] x hx with h | h
  · simp at h
  · exact h

theorem fixStep_fst (ids : List String)
    (st : List (String × ClientRow) × List (String × List (Option String)))
    (row : ClientRow) :
    (fixStep ids st row).1 = st.1 ∨
    ∃ k, rowKey row = some k ∧
      (fixStep ids st row).1 = dictSet st.1 k { row with colony := none } := by
  unfold fixStep
  rcases hc : truthyVal row.colony with _ | c
  · left
    simp only [hc]
  · simp only [hc]
    by_cases hin : ids.contains c = true
    · left
      simp only [hin, if_true, hc]
      split <;> rfl
    · simp only [Bool.not_eq_true] at hin
      simp only [hin, Bool.false_eq_true, if_false]
      rcases hk : rowKey row with _ | k
      · left
        simp only [truthyVal]
      · right
        exact ⟨k, rfl, by simp only [truthyVal]⟩

theorem fixStep_map_mem {ids : List String}
    {st : List (String × ClientRow) × List (String × List (Option String))}
    {row : ClientRow} {x : String × ClientRow}
    (hx : x ∈ (fixStep ids st row).1) :
    x ∈ st.1 ∨ (rowKey row = some x.1 ∧ x.2 = { row with colony := none }) := by
  rcases fixStep_fst ids st row with h | ⟨k, hk, h⟩
  · rw [h] at hx
    exact Or.inl hx
  · rw [h] at hx
    rcases alistSet_mem_eq hx with h' | h'
    · exact Or.inl h'
    · right
      rw [h']
      exact ⟨hk, rfl⟩

theorem kahnLoop_sorted_mem (m : List (String × ClientRow))
    (deps : List (String × List (Option String))) :
    ∀ (fuel : Nat) (st : KahnState) (r : ClientRow),
      r ∈ (kahnLoop m deps fuel st).sorted →
      r ∈ st.sorted ∨ ∃ x ∈ m, x.2 = r := by
  intro fuel
  induction fuel with
  | zero =>
    intro st r h
    rw [kahnLoop] at h
    exact Or.inl h
  | succ n ih =>
    intro st r h
    rcases hq : st.queue with _ | ⟨c, rest⟩
    · simp only [kahnLoop, hq] at h
      exact Or.inl h
    · rcases c with _ | k
      · simp only [kahnLoop, hq] at h
        rcases ih _ r h with h' | h'
        · exact Or.inl h'
        · exact Or.inr h'
      · simp only [kahnLoop, hq] at h
        rcases hget : dictGet m k with _ | row
        · simp only [hget] at h
          rcases ih _ r h with h' | h'
          · exact Or.inl h'
          · exact Or.inr h'
        · simp only [hget] at h
          rcases ih _ r h with h' | h'
          · rcases List.mem_append.1 h' with h'' | h''
            · exact Or.inl h''
            · right
              simp only [List.mem_singleton] at h''
              subst h''
              unfold dictGet alistGet at hget
              rcases Option.map_eq_some'.1 hget with ⟨p, hp, hpr⟩
              exact ⟨p, List.mem_of_find?_eq_some hp, hpr⟩
          · exact Or.inr h'

theorem fixloop_map_truthy (ids : List String) (rows : List ClientRow) :
    ∀ st, (∀ x ∈ st.1, pyTruthy x.2.client_id = true) →
      ∀ x ∈ (rows.foldl (fixStep ids) st).1, pyTruthy x.2.client_id = true := by
  induction rows with
  | nil => intro st h x hx; exact h x hx
  | cons r rest ih =>
    intro st h x hx
    rw [List.foldl_cons] at hx
    refine ih _ ?_ x hx
    intro y hy
    rcases fixStep_map_mem hy with h' | ⟨hk, hv⟩
    · exact h y h'
    · rw [hv]
      exact pyTruthy_of_truthyVal hk

theorem buildClientMap_val_truthy {rows : List ClientRow} {x : String × ClientRow}
    (hx : x ∈ buildClientMap rows) : pyTruthy x.2.client_id = true :=
  pyTruthy_of_truthyVal (buildClientMap_mem hx).2

theorem alistSet_mem_cases {α β : Type} [BEq α] {m : List (α × β)} {k : α}
    {v : β} {x : α × β} (hx : x ∈ alistSet m k v) :
    (x ∈ m ∧ (x.1 == k) = false) ∨ x.2 = v := by
  unfold alistSet at hx
  split at hx
  · obtain ⟨p, hp, he⟩ := List.mem_map.1 hx
    by_cases h : (p.1 == k) = true
    · right; rw [← he]; simp [h]
    · left
      rw [← he]
      simp only [h, Bool.false_eq_true, if_false]
      exact ⟨hp, by simpa using h⟩
  · rename_i hnone
    rcases List.mem_append.1 hx with h | h
    · left
      refine ⟨h, ?_⟩
      by_contra hc
      simp only [Bool.not_eq_false] at hc
      exact hnone (List.any_eq_true.2 ⟨x, h, hc⟩)
    · right
      simp only [List.mem_singleton] at h
      rw [h]

theorem fixStep_fst_cases (ids : List String)
    (st : List (String × ClientRow) × List (String × List (Option String)))
    (row : ClientRow) :
    ((fixStep ids st row).1 = st.1 ∧
      ((∀ c, truthyVal row.colony = some c → ids.contains c = true) ∨
        rowKey row = none)) ∨
    (∃ k, rowKey row = some k ∧
      (fixStep ids st row).1 = dictSet st.1 k { row with colony := none }) := by
  unfold fixStep
  rcases hc : truthyVal row.colony with _ | c
  · left
    refine ⟨by simp only [hc], Or.inl ?_⟩
    intro c' hc'
    cases hc'
  · simp only [hc]
    by_cases hin : ids.contains c = true
    · left
      constructor
      · simp only [hin, if_true, hc]
        split <;> rfl
      · left
        intro c' hc'
        injection hc' with h
        rw [← h]
        exact hin
    · simp only [Bool.not_eq_true] at hin
      simp only [hin, Bool.false_eq_true, if_false]
      rcases hk : rowKey row with _ | k
      · left
        exact ⟨by simp only [truthyVal], Or.inr rfl⟩
      · right
        exact ⟨k, rfl, by simp only [truthyVal]⟩

theorem depsAdd_mem {deps : List (String × List (Option String))} {p : String}
    {ch : Option String} {e : String × List (Option String)}
    (he : e ∈ depsAdd deps p ch) : e ∈ deps ∨ e.1 = p := by
  unfold depsAdd at he
  split at he
  · obtain ⟨q, hq, hqe⟩ := List.mem_map.1 he
    by_cases h : (q.1 == p) = true
    · right
      rw [← hqe]
      simp only [h, if_true]
      exact eq_of_beq h
    · left; rw [← hqe]; simp [h]; exact hq
  · rcases List.mem_append.1 he with h | h
    · left; exact h
    · right
      simp only [List.mem_singleton] at h
      rw [h]

theorem fixStep_snd_cases (ids : List String)
    (st : List (String × ClientRow) × List (String × List (Option String)))
    (row : ClientRow) :
    (fixStep ids st row).2 = st.2 ∨
    ∃ c, ids.contains c = true ∧
      (fixStep ids st row).2 = depsAdd st.2 c row.client_id := by
  unfold fixStep
  rcases hc : truthyVal row.colony with _ | c
  · left
    simp only [hc]
  · simp only [hc]
    by_cases hin : ids.contains c = true
    · simp only [hin, if_true, hc, Bool.true_and]
      by_cases hself : (!(row.client_id == some c)) = true
      · right
        exact ⟨c, hin, by simp only [hself, if_true]⟩
      · left
        simp only [Bool.not_eq_true] at hself
        simp only [hself, Bool.false_eq_true, if_false]
    · simp only [Bool.not_eq_true] at hin
      simp only [hin, Bool.false_eq_true, if_false]
      rcases hk : rowKey row with _ | k
      · left
        simp only [truthyVal]
      · left
        simp only [truthyVal]

theorem fixloop_colony_valid (ids : List String) :
    ∀ (suf : List ClientRow)
      (st : List (String × ClientRow) × List (String × List (Option String))),
      (∀ x ∈ st.1,
        (∀ c, truthyVal x.2.colony = some c → ids.contains c = true) ∨
          (x.2 ∈ suf ∧ rowKey x.2 = some x.1)) →
      ∀ x ∈ (suf.foldl (fixStep ids) st).1, ∀ c,
        truthyVal x.2.colony = some c → ids.contains c = true := by
  intro suf
  induction suf with
  | nil =>
    intro st h x hx c hc
    rcases h x hx with h' | h'
    · exact h' c hc
    · exact absurd h'.1 (List.not_mem_nil _)
  | cons r tail ih =>
    intro st h x hx
    rw [List.foldl_cons] at hx
    refine ih _ ?_ x hx
    intro y hy
    rcases fixStep_fst_cases ids st r with ⟨heq, hcase⟩ | ⟨k, hk, heq⟩
    · rw [heq] at hy
      rcases h y hy with h' | ⟨hmem, hkey⟩
      · exact Or.inl h'
      · rcases List.mem_cons.1 hmem with h'' | h''
        · rcases hcase with hvalid | hnone
          · exact Or.inl (h'' ▸ hvalid)
          · rw [h''] at hkey
            rw [hkey] at hnone
            cases hnone
        · exact Or.inr ⟨h'', hkey⟩
    · rw [heq] at hy
      rcases alistSet_mem_cases hy with ⟨hym, hyk⟩ | hyv
      · rcases h y hym with h' | ⟨hmem, hkey⟩
        · exact Or.inl h'
        · rcases List.mem_cons.1 hmem with h'' | h''
          · exfalso
            rw [h''] at hkey
            rw [hk] at hkey
            injection hkey with hkk
            rw [hkk] at hyk
            simp at hyk
          · exact Or.inr ⟨h'', hkey⟩
      · left
        intro c hc
        rw [hyv] at hc
        simp [truthyVal] at hc

theorem fixloop_deps_parents (ids : List String) :
    ∀ (suf : List ClientRow)
      (st : List (String × ClientRow) × List (String × List (Option String))),
      (∀ e ∈ st.2, ids.contains e.1 = true) →
      ∀ e ∈ (suf.foldl (fixStep ids) st).2, ids.contains e.1 = true := by
  intro suf
  induction suf with
  | nil => intro st h e he; exact h e he
  | cons r tail ih =>
    intro st h e he
    rw [List.foldl_cons] at he
    refine ih _ ?_ e he
    intro y hy
    rcases fixStep_snd_cases ids st r with heq | ⟨c, hc, heq⟩
    · rw [heq] at hy
      exact h y hy
    · rw [heq] at hy
      rcases depsAdd_mem hy with h' | h'
      · exact h y h'
      · rw [h']
        exact hc

theorem ids_mem_rows {rows : List ClientRow} {c : String}
    (hc : ((buildClientMap rows).map Prod.fst).contains c = true) :
    ∃ r ∈ rows, r.client_id = some c := by
  rw [List.contains_iff_exists_mem_beq] at hc
  obtain ⟨a, ha, hab⟩ := hc
  obtain ⟨x, hx, hxa⟩ := List.mem_map.1 ha
  have hmem := buildClientMap_mem hx
  refine ⟨x.2, hmem.1, ?_⟩
  have : x.1 = c := by
    rw [hxa]
    exact (eq_of_beq hab).symm
  rw [← this]
  exact (truthyVal_eq_some hmem.2).1

theorem setAdd_contains {α : Type} [BEq α] [LawfulBEq α] (s : List α) (x y : α) :
    (setAdd s x).contains y = (s.contains y || y == x) := by
  unfold setAdd
  split
  · rename_i hmem
    by_cases hxy : y = x
    · subst hxy
      simp only [beq_self_eq_true, Bool.or_true]
      simpa using hmem
    · simp [hxy]
  · by_cases h1 : y ∈ s <;> by_cases h2 : y = x <;>
      simp [h1, h2, List.mem_append]

theorem alistGet_alistSet {α β : Type} [BEq α] [LawfulBEq α]
    (m : List (α × β)) (k x : α) (v : β) :
    alistGet (alistSet m k v) x = if x == k then some v else alistGet m x := by
  unfold alistGet alistSet
  split
  · rename_i hany
    rw [List.find?_map]
    have hpred : ((fun p : α × β => p.1 == x) ∘
        fun p : α × β => if p.1 == k then (p.1, v) else p) =
        fun p : α × β => p.1 == x := by
      funext p
      by_cases h : (p.1 == k) = true <;> simp [h]
    rw [hpred]
    by_cases hxk : (x == k) = true
    · rw [eq_of_beq hxk]
      obtain ⟨q, hq, hqk⟩ := List.any_eq_true.1 hany
      rcases hfind : List.find? (fun p : α × β => p.1 == k) m with _ | p
      · rw [List.find?_eq_none] at hfind
        exact absurd hqk (hfind q hq)
      · have hpk := List.find?_some hfind
        simp [hxk, hfind, Option.map_map, hpk]
    · simp only [Bool.not_eq_true] at hxk
      simp only [hxk, Bool.false_eq_true, if_false]
      rcases hfind : List.find? (fun p : α × β => p.1 == x) m with _ | p
      · simp [hfind]
      · have hpx := List.find?_some hfind
        have hpk : (p.1 == k) = false := by
          by_contra hc
          simp only [Bool.not_eq_false] at hc
          have hxkeq : x = k := (eq_of_beq hpx).symm.trans (eq_of_beq hc)
          rw [hxkeq] at hxk
          simp at hxk
        simp [hfind, hpk]
  · rename_i hany
    rw [List.find?_append]
    by_cases hxk : (x == k) = true
    · rw [eq_of_beq hxk]
      have hnone : List.find? (fun p : α × β => p.1 == k) m = none := by
        rw [List.find?_eq_none]
        intro q hq hqk
        exact hany (List.any_eq_true.2 ⟨q, hq, hqk⟩)
      simp [hxk, hnone]
    · simp only [Bool.not_eq_true] at hxk
      have : ((k, v).1 == x) = false := by
        by_contra hc
        simp only [Bool.not_eq_false] at hc
        rw [eq_of_beq hc] at hxk
        simp at hxk
      simp [hxk, List.find?_cons, this]

theorem setAdd_mem {α : Type} [BEq α] [LawfulBEq α] {s : List α} {x y : α} :
    y ∈ setAdd s x ↔ y ∈ s ∨ y = x := by
  unfold setAdd
  split
  · rename_i hmem
    constructor
    · exact fun h => Or.inl h
    · rintro (h | h)
      · exact h
      · subst h
        simpa using hmem
  · simp [List.mem_append]

theorem dedupFirst_mem {α : Type} [BEq α] [LawfulBEq α] {l : List α} {y : α} :
    y ∈ dedupFirst l ↔ y ∈ l := by
  unfold dedupFirst
  suffices h : ∀ (l : List α) (acc : List α), y ∈ l.foldl setAdd acc ↔ y ∈ acc ∨ y ∈ l by
    rw [h l []]
    simp
  intro l
  induction l with
  | nil => intro acc; simp
  | cons a tl ih =>
    intro acc
    rw [List.foldl_cons, ih]
    rw [setAdd_mem]
    constructor
    · rintro ((h | h) | h)
      · exact Or.inl h
      · exact Or.inr (h ▸ List.mem_cons_self a tl)
      · exact Or.inr (List.mem_cons_of_mem a h)
    · rintro (h | h)
      · exact Or.inl (Or.inl h)
      · rcases List.mem_cons.1 h with h' | h'
        · exact Or.inl (Or.inr h')
        · exact Or.inr h'

/-- First-wins specification of the `seen`-set scan pattern shared by
the `get_*_rows` extractors. -/
theorem scanGo_first_wins {β : Type}
    (key : CsvRecord → Option String) (valid : String → CsvRecord → Bool)
    (emit : String → CsvRecord → β) (keyOut : β → String)
    (go : List String → List CsvRecord → List β)
    (hnil : ∀ seen, go seen [] = [])
    (hcons : ∀ seen r rest, go seen (r :: rest) =
      match truthyVal (key r) with
      | some k =>
        if valid k r then
          if seen.contains k then go seen rest
          else emit k r :: go (setAdd seen k) rest
        else go seen rest
      | none => go seen rest)
    (hkey : ∀ k r, keyOut (emit k r) = k) :
    ∀ (data : List CsvRecord) (seen : List String) (b : β), b ∈ go seen data →
      seen.contains (keyOut b) = false ∧
      ∃ rec, data.find? (fun rc =>
          match truthyVal (key rc) with
          | some k0 => k0 == keyOut b && valid k0 rc
          | none => false) = some rec ∧ b = emit (keyOut b) rec := by
  intro data
  induction data with
  | nil =>
    intro seen b hb
    rw [hnil] at hb
    exact absurd hb (List.not_mem_nil _)
  | cons r rest ih =>
    intro seen b hb
    rw [hcons] at hb
    rcases hk : truthyVal (key r) with _ | k0
    · rw [hk] at hb
      obtain ⟨hseen, rec, hfind, hbe⟩ := ih seen b hb
      refine ⟨hseen, rec, ?_, hbe⟩
      rw [List.find?_cons_of_neg, hfind]
      simp [hk]
    · rw [hk] at hb
      by_cases hv : valid k0 r = true
      · simp only [hv, if_true] at hb
        by_cases hs : seen.contains k0 = true
        · simp only [hs, if_true] at hb
          obtain ⟨hseen, rec, hfind, hbe⟩ := ih seen b hb
          refine ⟨hseen, rec, ?_, hbe⟩
          rw [List.find?_cons_of_neg, hfind]
          have hneq : (k0 == keyOut b) = false := by
            by_contra hcon
            simp only [Bool.not_eq_false] at hcon
            rw [← eq_of_beq hcon] at hseen
            rw [hs] at hseen
            cases hseen
          simp [hk, hneq]
        · simp only [Bool.not_eq_true] at hs
          simp only [hs, Bool.false_eq_true, if_false] at hb
          rcases List.mem_cons.1 hb with hb' | hb'
          · subst hb'
            rw [hkey]
            refine ⟨hs, r, ?_, rfl⟩
            rw [List.find?_cons_of_pos]
            simp [hk, hkey, hv]
          · obtain ⟨hseen, rec, hfind, hbe⟩ := ih _ b hb'
            rw [setAdd_contains] at hseen
            have hs1 : seen.contains (keyOut b) = false := by
              rcases Bool.or_eq_false_iff.1 hseen with ⟨h1, _⟩
              exact h1
            have hs2 : (keyOut b == k0) = false := by
              rcases Bool.or_eq_false_iff.1 hseen with ⟨_, h2⟩
              exact h2
            refine ⟨hs1, rec, ?_, hbe⟩
            rw [List.find?_cons_of_neg, hfind]
            have : (k0 == keyOut b) = false := by
              by_contra hcon
              simp only [Bool.not_eq_false] at hcon
              rw [eq_of_beq hcon] at hs2
              simp at hs2
            simp [hk, this]
      · simp only [Bool.not_eq_true] at hv
        simp only [hv, Bool.false_eq_true, if_false] at hb
        obtain ⟨hseen, rec, hfind, hbe⟩ := ih seen b hb
        refine ⟨hseen, rec, ?_, hbe⟩
        rw [List.find?_cons_of_neg, hfind]
        simp only [hk]
        by_cases he : (k0 == keyOut b) = true
        · rw [eq_of_beq he] at hv
          rw [eq_of_beq he]
          simp [hv]
        · simp only [Bool.not_eq_true] at he
          simp [he]

/-- Key-uniqueness specification of the same scan pattern. -/
theorem scanGo_nodup_keys {β : Type}
    (key : CsvRecord → Option String) (valid : String → CsvRecord → Bool)
    (emit : String → CsvRecord → β) (keyOut : β → String)
    (go : List String → List CsvRecord → List β)
    (hnil : ∀ seen, go seen [] = [])
    (hcons : ∀ seen r rest, go seen (r :: rest) =
      match truthyVal (key r) with
      | some k =>
        if valid k r then
          if seen.contains k then go seen rest
          else emit k r :: go (setAdd seen k) rest
        else go seen rest
      | none => go seen rest)
    (hkey : ∀ k r, keyOut (emit k r) = k) :
    ∀ (data : List CsvRecord) (seen : List String),
      ((go seen data).map keyOut).Nodup ∧
      ∀ k ∈ (go seen data).map keyOut, seen.contains k = false := by
  intro data
  induction data with
  | nil =>
    intro seen
    rw [hnil]
    exact ⟨List.nodup_nil, by intro k hk; cases hk⟩
  | cons r rest ih =>
    intro seen
    rw [hcons]
    rcases hk : truthyVal (key r) with _ | k0
    · exact ih seen
    · by_cases hv : valid k0 r = true
      · simp only [hv, if_true]
        by_cases hs : seen.contains k0 = true
        · simp only [hs, if_true]
          exact ih seen
        · simp only [Bool.not_eq_true] at hs
          simp only [hs, Bool.false_eq_true, if_false]
          obtain ⟨htl, hall⟩ := ih (setAdd seen k0)
          constructor
          · rw [List.map_cons, List.nodup_cons]
            refine ⟨?_, htl⟩
            intro hmem
            have := hall _ hmem
            rw [hkey, setAdd_contains] at this
            simp at this
          · intro k hkm
            rw [List.map_cons] at hkm
            rcases List.mem_cons.1 hkm with h | h
            · rw [h, hkey]
              exact hs
            · have := hall _ h
              rw [setAdd_contains] at this
              exact (Bool.or_eq_false_iff.1 this).1
      · simp only [Bool.not_eq_true] at hv
        simp only [hv, Bool.false_eq_true, if_false]
        exact ih seen

theorem subRows_spec (data : List CsvRecord) :
    ((get_subcommunity_rows data).map (fun b => b.identifier)).Nodup ∧
    ∀ row ∈ get_subcommunity_rows data, ∃ rec,
      data.find? (bearsSubKey row.identifier) = some rec ∧
      row = mkSubRow row.identifier rec := by
  have hcons : ∀ (seen : List String) (r : CsvRecord) (rest : List CsvRecord),
      subcommunityGo seen (r :: rest) =
        match truthyVal r.sub_community_id with
        | some k =>
          if (fun (_ : String) (_ : CsvRecord) => true) k r then
            if seen.contains k then subcommunityGo seen rest
            else mkSubRow k r :: subcommunityGo (setAdd seen k) rest
          else subcommunityGo seen rest
        | none => subcommunityGo seen rest := by
    intro seen r rest
    rcases h : truthyVal r.sub_community_id with _ | k <;> simp [subcommunityGo, h]
  constructor
  · exact (scanGo_nodup_keys (fun rc => rc.sub_community_id) _ mkSubRow
      (fun b => b.identifier) subcommunityGo (fun _ => rfl) hcons
      (fun _ _ => rfl) data []).1
  · intro row hrow
    obtain ⟨_, rec, hfind, hb⟩ := scanGo_first_wins (fun rc => rc.sub_community_id) _
      mkSubRow (fun b => b.identifier) subcommunityGo (fun _ => rfl) hcons
      (fun _ _ => rfl) data [] row hrow
    refine ⟨rec, ?_, hb⟩
    rw [← hfind]
    congr 1
    funext rc
    unfold bearsSubKey
    rcases h : truthyVal rc.sub_community_id with _ | k0 <;> simp [h]

theorem buildingRows_spec (data : List CsvRecord) :
    ((get_building_rows data).map (fun b => b.identifier)).Nodup ∧
    ∀ row ∈ get_building_rows data, ∃ rec,
      data.find? (bearsBuildingKey row.identifier) = some rec ∧
      row = mkBuildingRow row.identifier rec := by
  have hcons : ∀ (seen : List String) (r : CsvRecord) (rest : List CsvRecord),
      buildingGo seen (r :: rest) =
        match truthyVal r.building_id with
        | some k =>
          if (fun (_ : String) (_ : CsvRecord) => true) k r then
            if seen.contains k then buildingGo seen rest
            else mkBuildingRow k r :: buildingGo (setAdd seen k) rest
          else buildingGo seen rest
        | none => buildingGo seen rest := by
    intro seen r rest
    rcases h : truthyVal r.building_id with _ | k <;> simp [buildingGo, h]
  constructor
  · exact (scanGo_nodup_keys (fun rc => rc.building_id) _ mkBuildingRow
      (fun b => b.identifier) buildingGo (fun _ => rfl) hcons
      (fun _ _ => rfl) data []).1
  · intro row hrow
    obtain ⟨_, rec, hfind, hb⟩ := scanGo_first_wins (fun rc => rc.building_id) _
      mkBuildingRow (fun b => b.identifier) buildingGo (fun _ => rfl) hcons
      (fun _ _ => rfl) data [] row hrow
    refine ⟨rec, ?_, hb⟩
    rw [← hfind]
    congr 1
    funext rc
    unfold bearsBuildingKey
    rcases h : truthyVal rc.building_id with _ | k0 <;> simp [h]

theorem spaceRows_spec (data : List CsvRecord) :
    ((get_space_rows data).map (fun b => b.identifier)).Nodup ∧
    ∀ row ∈ get_space_rows data, ∃ rec,
      data.find? (bearsSpaceKeyValid row.identifier) = some rec ∧
      ∃ b, truthyVal rec.building_id = some b ∧
        row = mkSpaceRow row.identifier b rec := by
  have hcons : ∀ (seen : List String) (r : CsvRecord) (rest : List CsvRecord),
      spaceGo seen (r :: rest) =
        match truthyVal r.spaces_id with
        | some k =>
          if (fun (k : String) (rc : CsvRecord) =>
              !(k == "null") && (truthyVal rc.building_id).isSome) k r then
            if seen.contains k then spaceGo seen rest
            else mkSpaceRow k ((truthyVal r.building_id).getD "") r ::
              spaceGo (setAdd seen k) rest
          else spaceGo seen rest
        | none => spaceGo seen rest := by
    intro seen r rest
    rcases h : truthyVal r.spaces_id with _ | k
    · simp [spaceGo, h]
    · by_cases hn : (k == "null") = true
      · simp [spaceGo, h, hn]
      · by_cases hc : seen.contains k = true
        · rcases hb : truthyVal r.building_id with _ | b <;>
            simp [spaceGo, h, hn, hc, hb]
        · rcases hb : truthyVal r.building_id with _ | b <;>
            simp [spaceGo, h, hn, hc, hb]
  constructor
  · exact (scanGo_nodup_keys (fun rc => rc.spaces_id) _
      (fun k r => mkSpaceRow k ((truthyVal r.building_id).getD "") r)
      (fun b => b.identifier) spaceGo (fun _ => rfl) hcons
      (fun _ _ => rfl) data []).1
  · intro row hrow
    obtain ⟨_, rec, hfind, hb⟩ := scanGo_first_wins (fun rc => rc.spaces_id) _
      (fun k r => mkSpaceRow k ((truthyVal r.building_id).getD "") r)
      (fun b => b.identifier) spaceGo (fun _ => rfl) hcons
      (fun _ _ => rfl) data [] row hrow
    have hpred := List.find?_some hfind
    rcases hsp : truthyVal rec.spaces_id with _ | k0
    · simp [hsp] at hpred
    · simp only [hsp, Bool.and_eq_true] at hpred
      obtain ⟨hid, hnn, hiso⟩ := hpred
      obtain ⟨b, hbval⟩ := Option.isSome_iff_exists.1 hiso
      refine ⟨rec, ?_, b, hbval, ?_⟩
      · rw [← hfind]
        congr 1
        funext rc
        unfold bearsSpaceKeyValid
        rcases h : truthyVal rc.spaces_id with _ | k1
        · simp [h]
        · simp only [h]
          by_cases he : (k1 == row.identifier) = true
          · rw [eq_of_beq he]
            simp
          · simp only [Bool.not_eq_true] at he
            simp [he]
      · rw [hbval] at hb
        simpa using hb

theorem assetRows_spec (data : List CsvRecord) (atm : List (String × String)) :
    ((get_asset_rows data atm).map (fun b => b.identifier)).Nodup ∧
    ∀ row ∈ get_asset_rows data atm, ∃ rec,
      data.find? (bearsAssetKey row.identifier) = some rec ∧
      row = mkAssetRow row.identifier atm rec := by
  have hcons : ∀ (seen : List String) (r : CsvRecord) (rest : List CsvRecord),
      assetGo atm seen (r :: rest) =
        match truthyVal r.asset_id with
        | some k =>
          if (fun (_ : String) (_ : CsvRecord) => true) k r then
            if seen.contains k then assetGo atm seen rest
            else mkAssetRow k atm r :: assetGo atm (setAdd seen k) rest
          else assetGo atm seen rest
        | none => assetGo atm seen rest := by
    intro seen r rest
    rcases h : truthyVal r.asset_id with _ | k <;> simp [assetGo, h]
  constructor
  · exact (scanGo_nodup_keys (fun rc => rc.asset_id) _ (fun k r => mkAssetRow k atm r)
      (fun b => b.identifier) (assetGo atm) (fun _ => rfl) hcons
      (fun _ _ => rfl) data []).1
  · intro row hrow
    obtain ⟨_, rec, hfind, hb⟩ := scanGo_first_wins (fun rc => rc.asset_id) _
      (fun k r => mkAssetRow k atm r) (fun b => b.identifier) (assetGo atm)
      (fun _ => rfl) hcons (fun _ _ => rfl) data [] row hrow
    refine ⟨rec, ?_, hb⟩
    rw [← hfind]
    congr 1
    funext rc
    unfold bearsAssetKey
    rcases h : truthyVal rc.asset_id with _ | k0 <;> simp [h]

theorem dataPointRows_spec (data : List CsvRecord) :
    ((get_data_point_rows data).map (fun e => e.2.name)).Nodup ∧
    ∀ e ∈ get_data_point_rows data, ∃ rec,
      data.find? (bearsPointKey e.2.name) = some rec ∧
      e = (rec.data_point_id, mkDataPointRowData e.2.name rec) := by
  have hcons : ∀ (seen : List String) (r : CsvRecord) (rest : List CsvRecord),
      dataPointGo seen (r :: rest) =
        match truthyVal r.point_name with
        | some k =>
          if (fun (_ : String) (_ : CsvRecord) => true) k r then
            if seen.contains k then dataPointGo seen rest
            else (r.data_point_id, mkDataPointRowData k r) :: dataPointGo (setAdd seen k) rest
          else dataPointGo seen rest
        | none => dataPointGo seen rest := by
    intro seen r rest
    rcases h : truthyVal r.point_name with _ | k <;> simp [dataPointGo, h]
  constructor
  · exact (scanGo_nodup_keys (fun rc => rc.point_name) _
      (fun k r => (r.data_point_id, mkDataPointRowData k r))
      (fun e => e.2.name) dataPointGo (fun _ => rfl) hcons
      (fun _ _ => rfl) data []).1
  · intro e he
    obtain ⟨_, rec, hfind, hb⟩ := scanGo_first_wins (fun rc => rc.point_name) _
      (fun k r => (r.data_point_id, mkDataPointRowData k r))
      (fun e => e.2.name) dataPointGo (fun _ => rfl) hcons
      (fun _ _ => rfl) data [] e he
    refine ⟨rec, ?_, hb⟩
    rw [← hfind]
    congr 1
    funext rc
    unfold bearsPointKey
    rcases h : truthyVal rc.point_name with _ | k0 <;> simp [h]

theorem contains_iff_mem {α : Type} [BEq α] [LawfulBEq α] {l : List α} {y : α} :
    l.contains y = true ↔ y ∈ l := by
  rw [List.contains_iff_exists_mem_beq]
  constructor
  · rintro ⟨b, hb, he⟩
    rw [eq_of_beq he]
    exact hb
  · intro h
    exact ⟨y, h, by simp⟩

theorem alistGet_mem {α β : Type} [BEq α] [LawfulBEq α] {m : List (α × β)}
    {k : α} {v : β} (h : alistGet m k = some v) : (k, v) ∈ m := by
  unfold alistGet at h
  rcases Option.map_eq_some'.1 h with ⟨p, hp, hpv⟩
  have hpk := List.find?_some hp
  have hmem := List.mem_of_find?_eq_some hp
  have : p = (k, v) := by
    rcases p with ⟨a, b⟩
    simp only at hpv
    rw [Prod.mk.injEq]
    exact ⟨eq_of_beq hpk, hpv⟩
  rw [← this]
  exact hmem

theorem lowerMap_entries_aux :
    ∀ (l : List String) (acc : List (String × String)),
      ∀ e ∈ l.foldl (fun m c => alistSet m c.pyLower c) acc,
        e ∈ acc ∨ ∃ c ∈ l, e = (c.pyLower, c) := by
  intro l
  induction l with
  | nil => intro acc e he; exact Or.inl he
  | cons c tl ih =>
    intro acc e he
    rw [List.foldl_cons] at he
    rcases ih _ e he with h' | ⟨d, hd, hde⟩
    · rcases alistSet_mem_eq h' with h'' | h''
      · exact Or.inl h''
      · exact Or.inr ⟨c, List.mem_cons_self _ _, h''⟩
    · exact Or.inr ⟨d, List.mem_cons_of_mem _ hd, hde⟩

theorem lowerMap_entries {fetched : List String} {e : String × String}
    (he : e ∈ fetched.foldl (fun m c => alistSet m c.pyLower c) []) :
    ∃ c ∈ fetched, e = (c.pyLower, c) := by
  rcases lowerMap_entries_aux fetched [] e he with h | h
  · cases h
  · exact h

theorem lowerMap_get_isSome :
    ∀ (l : List String) (acc : List (String × String)) (K : String),
      ((∃ c ∈ l, c.pyLower = K) ∨ (alistGet acc K).isSome = true) →
      (alistGet (l.foldl (fun m c => alistSet m c.pyLower c) acc) K).isSome = true := by
  intro l
  induction l with
  | nil =>
    intro acc K h
    rcases h with ⟨c, hc, _⟩ | h
    · cases hc
    · exact h
  | cons c tl ih =>
    intro acc K h
    rw [List.foldl_cons]
    apply ih
    by_cases hck : c.pyLower = K
    · right
      rw [alistGet_alistSet]
      subst hck
      simp
    · rcases h with ⟨d, hd, hdk⟩ | h
      · rcases List.mem_cons.1 hd with h' | h'
        · subst h'
          exact absurd hdk hck
        · exact Or.inl ⟨d, h', hdk⟩
      · right
        rw [alistGet_alistSet]
        have hne : (K == c.pyLower) = false := by
          by_contra hcon
          simp only [Bool.not_eq_false] at hcon
          exact hck (eq_of_beq hcon).symm
        simp [hne, h]

theorem exportWindows_fail {α : Type}
    (fetch : String → Nat → Nat → Except String (List α)) (sub : String)
    (bs : Nat) :
    ∀ (good remaining batchNum : Nat) (st : ExportState α)
      (recs : Nat → List α) (e : String),
      1 ≤ batchNum → good < remaining →
      (∀ i, i < good →
        fetch sub ((batchNum - 1 + i) * bs) bs = .ok (recs i) ∧ recs i ≠ []) →
      fetch sub ((batchNum - 1 + good) * bs) bs = .error e →
      (exportWindows fetch sub bs batchNum remaining st).2 = true ∧
      (exportWindows fetch sub bs batchNum remaining st).1.files =
        st.files ++ (List.range good).map
          (fun i => (st.counter + i + 1, sub, recs i)) ∧
      (exportWindows fetch sub bs batchNum remaining st).1.processed =
        st.processed := by
  intro good
  induction good with
  | zero =>
    intro remaining batchNum st recs e hbn hrem hok hfail
    rcases remaining with _ | r
    · cases hrem
    · rw [Nat.add_zero] at hfail
      simp only [exportWindows, hfail]
      simp
  | succ g ih =>
    intro remaining batchNum st recs e hbn hrem hok hfail
    rcases remaining with _ | r
    · cases hrem
    · obtain ⟨hfet0, hne0⟩ := hok 0 (Nat.succ_pos g)
      rw [Nat.add_zero] at hfet0
      have hne0' : (recs 0).isEmpty = false := by
        rcases h : recs 0 with _ | ⟨a, l⟩
        · exact absurd h hne0
        · rfl
      simp only [exportWindows, hfet0, hne0', Bool.false_eq_true, if_false]
      set st' : ExportState α :=
        { files := st.files ++ [(st.counter + 1, sub, recs 0)],
          counter := st.counter + 1,
          totalExported := st.totalExported + (recs 0).length,
          processed := st.processed } with hst'
      have harith : ∀ i : Nat, batchNum + 1 - 1 + i = batchNum - 1 + (i + 1) := by
        intro i; omega
      have hok' : ∀ i, i < g →
          fetch sub ((batchNum + 1 - 1 + i) * bs) bs = .ok (recs (i + 1)) ∧
          recs (i + 1) ≠ [] := by
        intro i hi
        rw [harith i]
        exact hok (i + 1) (Nat.succ_lt_succ hi)
      have hfail' : fetch sub ((batchNum + 1 - 1 + g) * bs) bs = .error e := by
        rw [harith g]
        exact hfail
      obtain ⟨h2, hfiles, hproc⟩ := ih r (batchNum + 1) st'
        (fun i => recs (i + 1)) e (by omega) (by omega) hok' hfail'
      refine ⟨h2, ?_, hproc⟩
      rw [hfiles]
      rw [List.range_succ_eq_map, List.map_cons, List.map_map]
      simp only [hst']
      rw [List.append_assoc, List.singleton_append]
      have hmap : List.map
          (fun i => (st.counter + 1 + i + 1, sub, recs (i + 1))) (List.range g) =
          List.map ((fun i => (st.counter + i + 1, sub, recs i)) ∘ Nat.succ)
            (List.range g) := by
        apply List.map_congr_left
        intro a _
        simp only [Function.comp_apply, Nat.succ_eq_add_one]
        have harith2 : st.counter + 1 + a + 1 = st.counter + (a + 1) + 1 := by
          omega
        rw [harith2]
      rw [hmap]

theorem genId_ne_empty (n : Nat) : genId n ≠ "" := by
  intro h
  have hd := congrArg String.data h
  rw [genId] at hd
  rw [String.data_append] at hd
  cases hd

theorem insertDataPointStep_found
    {st : Nat × List DataPointTableRow × List (Option String × String × String)}
    {entry : Option String × DataPointRowData} {t : DataPointTableRow}
    (h : st.2.1.find? (fun t => t.name == some entry.2.name) = some t) :
    insertDataPointStep st entry =
      (st.1 + 1, st.2.1,
        st.2.2 ++ [(entry.1, t.id,
          match t.point_id with
          | some pid => if pid == "" then t.id else pid
          | none => t.id)]) := by
  unfold insertDataPointStep
  simp only [h]

theorem insertDataPointStep_fresh
    {st : Nat × List DataPointTableRow × List (Option String × String × String)}
    {entry : Option String × DataPointRowData}
    (h : st.2.1.find? (fun t => t.name == some entry.2.name) = none) :
    insertDataPointStep st entry =
      (st.1 + 1, st.2.1 ++ [mkDataPointTableRow (genId st.1) entry.2],
        st.2.2 ++ [(entry.1, genId st.1, genId st.1)]) := by
  unfold insertDataPointStep
  simp only [h]

theorem dpFold_table_mono :
    ∀ (rows : List (Option String × DataPointRowData))
      (st : Nat × List DataPointTableRow × List (Option String × String × String)),
      ∃ news, (rows.foldl insertDataPointStep st).2.1 = st.2.1 ++ news ∧
        ∀ t ∈ news, ∃ e ∈ rows, t.name = some e.2.name := by
  intro rows
  induction rows with
  | nil =>
    intro st
    exact ⟨[], by simp, by intro t ht; cases ht⟩
  | cons e tail ih =>
    intro st
    rw [List.foldl_cons]
    rcases hfind : st.2.1.find? (fun t => t.name == some e.2.name) with _ | t
    · rw [insertDataPointStep_fresh hfind]
      obtain ⟨news, htab, hnames⟩ := ih (st.1 + 1,
        st.2.1 ++ [mkDataPointTableRow (genId st.1) e.2],
        st.2.2 ++ [(e.1, genId st.1, genId st.1)])
      refine ⟨[mkDataPointTableRow (genId st.1) e.2] ++ news, ?_, ?_⟩
      · rw [htab]
        simp
      · intro t ht
        rcases List.mem_append.1 ht with h | h
        · simp only [List.mem_singleton] at h
          subst h
          exact ⟨e, List.mem_cons_self _ _, rfl⟩
        · obtain ⟨e', he', hn⟩ := hnames t h
          exact ⟨e', List.mem_cons_of_mem _ he', hn⟩
    · rw [insertDataPointStep_found hfind]
      obtain ⟨news, htab, hnames⟩ := ih (st.1 + 1, st.2.1,
        st.2.2 ++ [(e.1, t.id,
          match t.point_id with
          | some pid => if pid == "" then t.id else pid
          | none => t.id)])
      refine ⟨news, htab, ?_⟩
      intro t' ht'
      obtain ⟨e', he', hn⟩ := hnames t' ht'
      exact ⟨e', List.mem_cons_of_mem _ he', hn⟩

theorem dpFold_name_present :
    ∀ (rows : List (Option String × DataPointRowData))
      (st : Nat × List DataPointTableRow × List (Option String × String × String)),
      ∀ e ∈ rows,
        ∃ t ∈ (rows.foldl insertDataPointStep st).2.1, t.name = some e.2.name := by
  intro rows
  induction rows with
  | nil =>
    intro st e he
    cases he
  | cons e' tail ih =>
    intro st e he
    rw [List.foldl_cons]
    rcases List.mem_cons.1 he with heq | htail
    · subst heq
      rcases hfind : st.2.1.find? (fun t => t.name == some e.2.name) with _ | t
      · rw [insertDataPointStep_fresh hfind]
        obtain ⟨news, htab, _⟩ := dpFold_table_mono tail (st.1 + 1,
          st.2.1 ++ [mkDataPointTableRow (genId st.1) e.2],
          st.2.2 ++ [(e.1, genId st.1, genId st.1)])
        refine ⟨mkDataPointTableRow (genId st.1) e.2, ?_, rfl⟩
        rw [htab]
        apply List.mem_append_left
        apply List.mem_append_right
        exact List.mem_singleton.2 rfl
      · rw [insertDataPointStep_found hfind]
        obtain ⟨news, htab, _⟩ := dpFold_table_mono tail (st.1 + 1, st.2.1,
          st.2.2 ++ [(e.1, t.id,
            match t.point_id with
            | some pid => if pid == "" then t.id else pid
            | none => t.id)])
        refine ⟨t, ?_, ?_⟩
        · rw [htab]
          exact List.mem_append_left _ (List.mem_of_find?_eq_some hfind)
        · have hp := List.find?_some hfind
          simp only at hp
          exact eq_of_beq hp
    · exact ih _ e htail

theorem some_or_eq {α : Type} (a : α) (x : Option α) : (some a).or x = some a := rfl

theorem none_or_eq {α : Type} (x : Option α) : (Option.none).or x = x := by
  cases x <;> rfl

theorem dpFold_inserted_eq_lookup :
    ∀ (rows : List (Option String × DataPointRowData))
      (st : Nat × List DataPointTableRow × List (Option String × String × String)),
      (rows.map (fun e => e.2.name)).Nodup →
      (rows.foldl insertDataPointStep st).2.2 =
        st.2.2 ++ rows.map (fun e =>
          (e.1, dpLookup (rows.foldl insertDataPointStep st).2.1 e.2.name)) := by
  intro rows
  induction rows with
  | nil =>
    intro st _
    simp
  | cons e tail ih =>
    intro st hnd
    rw [List.map_cons, List.nodup_cons] at hnd
    obtain ⟨hnotin, hndtail⟩ := hnd
    rw [List.foldl_cons]
    rcases hfind : st.2.1.find? (fun t => t.name == some e.2.name) with _ | t
    · rw [insertDataPointStep_fresh hfind]
      obtain ⟨news, htab, hnames⟩ := dpFold_table_mono tail (st.1 + 1,
        st.2.1 ++ [mkDataPointTableRow (genId st.1) e.2],
        st.2.2 ++ [(e.1, genId st.1, genId st.1)])
      have hlk : dpLookup
          ((tail.foldl insertDataPointStep (st.1 + 1,
            st.2.1 ++ [mkDataPointTableRow (genId st.1) e.2],
            st.2.2 ++ [(e.1, genId st.1, genId st.1)])).2.1) e.2.name =
          (genId st.1, genId st.1) := by
        unfold dpLookup
        rw [htab]
        simp only [List.find?_append, hfind, none_or_eq]
        have hR : ((mkDataPointTableRow (genId st.1) e.2).name ==
            some e.2.name) = true := by
          simp [mkDataPointTableRow]
        have hfR : List.find? (fun t => t.name == some e.2.name)
            [mkDataPointTableRow (genId st.1) e.2] =
            some (mkDataPointTableRow (genId st.1) e.2) :=
          List.find?_cons_of_pos _ hR
        rw [hfR, some_or_eq]
        have hpid : ((genId st.1) == "") = false := by
          by_contra hcon
          simp only [Bool.not_eq_false] at hcon
          exact genId_ne_empty st.1 (eq_of_beq hcon)
        simp [mkDataPointTableRow, hpid]
      rw [ih _ hndtail]
      rw [List.map_cons]
      simp only
      rw [hlk]
      simp [List.append_assoc]
    · rw [insertDataPointStep_found hfind]
      obtain ⟨news, htab, hnames⟩ := dpFold_table_mono tail (st.1 + 1, st.2.1,
        st.2.2 ++ [(e.1, t.id,
          match t.point_id with
          | some pid => if pid == "" then t.id else pid
          | none => t.id)])
      have hlk : dpLookup
          ((tail.foldl insertDataPointStep (st.1 + 1, st.2.1,
            st.2.2 ++ [(e.1, t.id,
              match t.point_id with
              | some pid => if pid == "" then t.id else pid
              | none => t.id)])).2.1) e.2.name =
          (t.id,
            match t.point_id with
            | some pid => if pid == "" then t.id else pid
            | none => t.id) := by
        unfold dpLookup
        rw [htab]
        simp only [List.find?_append, hfind, some_or_eq]
      rw [ih _ hndtail]
      rw [List.map_cons]
      simp only
      rw [hlk]
      simp [List.append_assoc]

theorem dpFold_all_found :
    ∀ (rows : List (Option String × DataPointRowData))
      (st : Nat × List DataPointTableRow × List (Option String × String × String)),
      (∀ e ∈ rows, ∃ t ∈ st.2.1, t.name = some e.2.name) →
      rows.foldl insertDataPointStep st =
        (st.1 + rows.length, st.2.1,
          st.2.2 ++ rows.map (fun e => (e.1, dpLookup st.2.1 e.2.name))) := by
  intro rows
  induction rows with
  | nil =>
    intro st _
    simp
  | cons e tail ih =>
    intro st hall
    obtain ⟨t, htmem, htname⟩ := hall e (List.mem_cons_self _ _)
    rcases hfind : st.2.1.find? (fun x => x.name == some e.2.name) with _ | t'
    · exfalso
      rw [List.find?_eq_none] at hfind
      refine hfind t htmem ?_
      simp [htname]
    · rw [List.foldl_cons, insertDataPointStep_found hfind]
      rw [ih _ (by intro e' he'; exact hall e' (List.mem_cons_of_mem _ he'))]
      have hlk : dpLookup st.2.1 e.2.name =
          (t'.id,
            match t'.point_id with
            | some pid => if pid == "" then t'.id else pid
            | none => t'.id) := by
        unfold dpLookup
        rw [hfind]
      rw [List.map_cons]
      simp only
      rw [hlk]
      refine congrArg₂ Prod.mk (by simp only [List.length_cons]; omega)
        (congrArg _ ?_)
      simp [List.append_assoc]

theorem insertLinkRowStep_found {st : Nat × List LinkTableRow} {row : LinkRowData}
    (h : (st.2.find? (fun t =>
      t.owner_id == some row.owner_id &&
      t.data_point_id == some row.point_id)).isSome = true) :
    insertLinkRowStep st row = (st.1 + 1, st.2) := by
  unfold insertLinkRowStep
  simp only [h, if_true]

theorem insertLinkRowStep_fresh {st : Nat × List LinkTableRow} {row : LinkRowData}
    (h : (st.2.find? (fun t =>
      t.owner_id == some row.owner_id &&
      t.data_point_id == some row.point_id)).isSome = false) :
    insertLinkRowStep st row = (st.1 + 1, st.2 ++
      [⟨genId st.1, row.expression, row.precedence, some row.status, row.symbol,
        row.unit, some row.owner_id, some row.point_id⟩]) := by
  unfold insertLinkRowStep
  simp only [h, Bool.false_eq_true, if_false]

theorem linkFold_news :
    ∀ (rows : List LinkRowData) (st : Nat × List LinkTableRow),
      ∃ news, (rows.foldl insertLinkRowStep st).2 = st.2 ++ news ∧
        ∀ t' ∈ news, st.2.find? (fun t =>
          t.owner_id == t'.owner_id && t.data_point_id == t'.data_point_id) = none := by
  intro rows
  induction rows with
  | nil =>
    intro st
    exact ⟨[], by simp, by intro t ht; cases ht⟩
  | cons r tail ih =>
    intro st
    rw [List.foldl_cons]
    rcases hs : (st.2.find? (fun t =>
        t.owner_id == some r.owner_id &&
        t.data_point_id == some r.point_id)).isSome with _ | _
    · rw [insertLinkRowStep_fresh hs]
      obtain ⟨news, htab, habs⟩ := ih (st.1 + 1, st.2 ++
        [⟨genId st.1, r.expression, r.precedence, some r.status, r.symbol,
          r.unit, some r.owner_id, some r.point_id⟩])
      refine ⟨⟨genId st.1, r.expression, r.precedence, some r.status, r.symbol,
          r.unit, some r.owner_id, some r.point_id⟩ :: news, ?_, ?_⟩
      · rw [htab]
        simp
      · intro t' ht'
        rcases List.mem_cons.1 ht' with h' | h'
        · subst h'
          simp only
          rw [← Option.not_isSome_iff_eq_none]
          intro hcon
          rw [hs] at hcon
          cases hcon
        · have := habs t' h'
          simp only at this
          rw [List.find?_append] at this
          rcases hfa : st.2.find? (fun t =>
              t.owner_id == t'.owner_id &&
              t.data_point_id == t'.data_point_id) with _ | x
          · exact hfa
          · rw [hfa] at this
            rw [some_or_eq] at this
            cases this
    · rw [insertLinkRowStep_found hs]
      obtain ⟨news, htab, habs⟩ := ih (st.1 + 1, st.2)
      exact ⟨news, htab, habs⟩

theorem linkFold_pair_present :
    ∀ (rows : List LinkRowData) (st : Nat × List LinkTableRow),
      ∀ r ∈ rows, ∃ t ∈ (rows.foldl insertLinkRowStep st).2,
        t.owner_id = some r.owner_id ∧ t.data_point_id = some r.point_id := by
  intro rows
  induction rows with
  | nil =>
    intro st r hr
    cases hr
  | cons r' tail ih =>
    intro st r hr
    rw [List.foldl_cons]
    rcases List.mem_cons.1 hr with heq | htail
    · subst heq
      rcases hs : (st.2.find? (fun t =>
          t.owner_id == some r.owner_id &&
          t.data_point_id == some r.point_id)).isSome with _ | _
      · rw [insertLinkRowStep_fresh hs]
        obtain ⟨news, htab, _⟩ := linkFold_news tail (st.1 + 1, st.2 ++
          [⟨genId st.1, r.expression, r.precedence, some r.status, r.symbol,
            r.unit, some r.owner_id, some r.point_id⟩])
        refine ⟨⟨genId st.1, r.expression, r.precedence, some r.status, r.symbol,
            r.unit, some r.owner_id, some r.point_id⟩, ?_, rfl, rfl⟩
        rw [htab]
        apply List.mem_append_left
        apply List.mem_append_right
        exact List.mem_singleton.2 rfl
      · obtain ⟨t, hfind⟩ := Option.isSome_iff_exists.1 hs
        rw [insertLinkRowStep_found hs]
        obtain ⟨news, htab, _⟩ := linkFold_news tail (st.1 + 1, st.2)
        have hp := List.find?_some hfind
        simp only [Bool.and_eq_true] at hp
        refine ⟨t, ?_, eq_of_beq hp.1, eq_of_beq hp.2⟩
        rw [htab]
        exact List.mem_append_left _ (List.mem_of_find?_eq_some hfind)
    · exact ih _ r htail

theorem linkFold_all_present :
    ∀ (rows : List LinkRowData) (g : Nat) (T : List LinkTableRow),
      (∀ r ∈ rows, ∃ t ∈ T,
        t.owner_id = some r.owner_id ∧ t.data_point_id = some r.point_id) →
      rows.foldl insertLinkRowStep (g, T) = (g + rows.length, T) := by
  intro rows
  induction rows with
  | nil =>
    intro g T _
    simp
  | cons r tail ih =>
    intro g T hall
    obtain ⟨t, htmem, ho, hd⟩ := hall r (List.mem_cons_self _ _)
    have hs : (T.find? (fun t =>
        t.owner_id == some r.owner_id &&
        t.data_point_id == some r.point_id)).isSome = true := by
      rcases hfa : T.find? (fun t =>
          t.owner_id == some r.owner_id &&
          t.data_point_id == some r.point_id) with _ | x
      · exfalso
        rw [List.find?_eq_none] at hfa
        refine hfa t htmem ?_
        simp [ho, hd]
      · rw [hfa]
        rfl
    rw [List.foldl_cons, @insertLinkRowStep_found (g, T) _ hs]
    rw [ih _ _ (by intro r' hr'; exact hall r' (List.mem_cons_of_mem _ hr'))]
    refine congrArg₂ Prod.mk ?_ rfl
    simp only [List.length_cons]
    omega

theorem migrate_points_idempotent (g1 g2 : Nat) (db : PointsDB)
    (data : List CsvRecord) (atm : List (String × String)) :
    (migrate_points g2 (migrate_points g1 db data atm).2 data atm).2 =
      (migrate_points g1 db data atm).2 := by
  by_cases hemp : (get_data_point_rows data).isEmpty = true
  · simp only [migrate_points, hemp, if_true]
  · simp only [Bool.not_eq_true] at hemp
    have hnd : ((get_data_point_rows data).map (fun e => e.2.name)).Nodup :=
      (dataPointRows_spec data).1
    have hpres : ∀ e ∈ get_data_point_rows data,
        ∃ t ∈ ((get_data_point_rows data).foldl insertDataPointStep
          (g1, db.data_point, [])).2.1, t.name = some e.2.name :=
      fun e he => dpFold_name_present _ _ e he
    have hins1 : ((get_data_point_rows data).foldl insertDataPointStep
        (g1, db.data_point, [])).2.2 =
        [] ++ (get_data_point_rows data).map (fun e =>
          (e.1, dpLookup ((get_data_point_rows data).foldl insertDataPointStep
            (g1, db.data_point, [])).2.1 e.2.name)) :=
      dpFold_inserted_eq_lookup _ _ hnd
    have hrun2 : (get_data_point_rows data).foldl insertDataPointStep
        (g2, ((get_data_point_rows data).foldl insertDataPointStep
          (g1, db.data_point, [])).2.1, []) =
        (g2 + (get_data_point_rows data).length,
          ((get_data_point_rows data).foldl insertDataPointStep
            (g1, db.data_point, [])).2.1,
          [] ++ (get_data_point_rows data).map (fun e =>
            (e.1, dpLookup ((get_data_point_rows data).foldl insertDataPointStep
              (g1, db.data_point, [])).2.1 e.2.name))) :=
      dpFold_all_found _ _ hpres
    simp only [migrate_points, hemp, Bool.false_eq_true, if_false]
    by_cases hm : (((get_data_point_rows data).foldl insertDataPointStep
        (g1, db.data_point, [])).2.2.foldl
          (fun m e => alistSet m e.1 e.2.2) []).isEmpty = true
    · simp only [hm, if_true]
      simp only [hrun2]
      rw [← hins1]
      simp only [hm, if_true]
    · simp only [Bool.not_eq_true] at hm
      simp only [hm, Bool.false_eq_true, if_false]
      simp only [hrun2]
      rw [← hins1]
      simp only [hm, Bool.false_eq_true, if_false]
      have hap : ∀ r ∈ get_asset_point_rows data
          (((get_data_point_rows data).foldl insertDataPointStep
            (g1, db.data_point, [])).2.2.foldl
              (fun m e => alistSet m e.1 e.2.2) []),
          ∃ t ∈ ((get_asset_point_rows data
            (((get_data_point_rows data).foldl insertDataPointStep
              (g1, db.data_point, [])).2.2.foldl
                (fun m e => alistSet m e.1 e.2.2) [])).foldl insertLinkRowStep
            (((get_data_point_rows data).foldl insertDataPointStep
              (g1, db.data_point, [])).1, db.asset_point)).2,
            t.owner_id = some r.owner_id ∧ t.data_point_id = some r.point_id :=
        fun r hr => linkFold_pair_present _ _ r hr
      rw [linkFold_all_present _ _ _ hap]
      have hatp : ∀ r ∈ get_asset_type_point_rows data atm
          (((get_data_point_rows data).foldl insertDataPointStep
            (g1, db.data_point, [])).2.2.foldl
              (fun m e => alistSet m e.1 e.2.2) []),
          ∃ t ∈ ((get_asset_type_point_rows data atm
            (((get_data_point_rows data).foldl insertDataPointStep
              (g1, db.data_point, [])).2.2.foldl
                (fun m e => alistSet m e.1 e.2.2) [])).foldl insertLinkRowStep
            (((get_asset_point_rows data
              (((get_data_point_rows data).foldl insertDataPointStep
                (g1, db.data_point, [])).2.2.foldl
                  (fun m e => alistSet m e.1 e.2.2) [])).foldl insertLinkRowStep
              (((get_data_point_rows data).foldl insertDataPointStep
                (g1, db.data_point, [])).1, db.asset_point)).1,
              db.asset_type_point)).2,
            t.owner_id = some r.owner_id ∧ t.data_point_id = some r.point_id :=
        fun r hr => linkFold_pair_present _ _ r hr
      rw [linkFold_all_present _ _ _ hatp]

/-- Upserting any client row preserves the presence of any existing
client id in the table. -/
theorem upsert_preserves_presence (table : List ClientRow) (r : ClientRow)
    (v : Option String) (h : table.any (fun x => x.client_id == v) = true) :
    (upsertClientRow table r).any (fun x => x.client_id == v) = true := by
  rcases List.any_eq_true.1 h with ⟨x, hx, hxv⟩
  rcases hk : r.client_id with _ | k
  · simp only [upsertClientRow, hk]
    exact List.any_eq_true.2 ⟨x, List.mem_append_left _ hx, hxv⟩
  · simp only [upsertClientRow, hk]
    by_cases hp : (table.any fun y => y.client_id == some k) = true
    · rw [if_pos hp]
      refine List.any_eq_true.2
        ⟨_, List.mem_map_of_mem (fun y => if y.client_id == some k then r else y) hx, ?_⟩
      by_cases hxk : (x.client_id == some k) = true
      · rw [if_pos hxk]
        have h2 : x.client_id = v := eq_of_beq hxv
        rw [hk, ← h2, eq_of_beq hxk]
        exact beq_self_eq_true _
      · rw [if_neg hxk]
        exact hxv
    · rw [if_neg hp]
      exact List.any_eq_true.2 ⟨x, List.mem_append_left _ hx, hxv⟩

/-- After upserting a client row, a row with its client id is present. -/
theorem upsert_self_present (table : List ClientRow) (r : ClientRow) :
    (upsertClientRow table r).any (fun x => x.client_id == r.client_id) = true := by
  rcases hk : r.client_id with _ | k
  · simp only [upsertClientRow, hk]
    refine List.any_eq_true.2 ⟨r, List.mem_append_right _ (by simp), ?_⟩
    rw [hk]
    rfl
  · simp only [upsertClientRow, hk]
    by_cases hp : (table.any fun y => y.client_id == some k) = true
    · rw [if_pos hp]
      rcases List.any_eq_true.1 hp with ⟨x, hx, hxk⟩
      refine List.any_eq_true.2
        ⟨_, List.mem_map_of_mem (fun y => if y.client_id == some k then r else y) hx, ?_⟩
      rw [if_pos hxk, hk]
      exact beq_self_eq_true _
    · rw [if_neg hp]
      refine List.any_eq_true.2 ⟨r, List.mem_append_right _ (by simp), ?_⟩
      rw [hk]
      exact beq_self_eq_true _

/-- Upserting a row whose client id is already present is an in-place
update: the table length is unchanged. -/
theorem upsert_found_length (table : List ClientRow) (r : ClientRow) (k : String)
    (hk : r.client_id = some k)
    (hp : table.any (fun x => x.client_id == some k) = true) :
    (upsertClientRow table r).length = table.length := by
  simp only [upsertClientRow, hk]
  rw [if_pos hp, List.length_map]

/-- A client-id presence fact survives a whole fold of upserts. -/
theorem fold_preserves_presence :
    ∀ (srows table : List ClientRow) (v : Option String),
      table.any (fun x => x.client_id == v) = true →
      (srows.foldl upsertClientRow table).any (fun x => x.client_id == v) = true := by
  intro srows
  induction srows with
  | nil => intro table v h; exact h
  | cons r tail ih =>
    intro table v h
    exact ih _ _ (upsert_preserves_presence _ _ _ h)

/-- After a fold of upserts, every folded row's client id is present in
the resulting table. -/
theorem fold_self_present :
    ∀ (srows table : List ClientRow), ∀ r ∈ srows,
      ((srows.foldl upsertClientRow table).any
        (fun x => x.client_id == r.client_id)) = true := by
  intro srows
  induction srows with
  | nil => intro table r hr; cases hr
  | cons r0 tail ih =>
    intro table r hr
    rw [List.foldl_cons]
    rcases List.mem_cons.1 hr with heq | hmem
    · rw [heq]
      exact fold_preserves_presence tail _ _ (upsert_self_present table r0)
    · exact ih _ r hmem

/-- A fold of upserts over rows with non-null client ids that are all
already present leaves the table length unchanged. -/
theorem fold_found_length :
    ∀ (srows table : List ClientRow),
      (∀ r ∈ srows, ∃ k, r.client_id = some k) →
      (∀ r ∈ srows, table.any (fun x => x.client_id == r.client_id) = true) →
      (srows.foldl upsertClientRow table).length = table.length := by
  intro srows
  induction srows with
  | nil => intro table _ _; rfl
  | cons r0 tail ih =>
    intro table hkeys hpres
    rw [List.foldl_cons]
    obtain ⟨k, hk⟩ := hkeys r0 (List.mem_cons_self _ _)
    have hp0 := hpres r0 (List.mem_cons_self _ _)
    rw [hk] at hp0
    rw [ih _ (fun r hr => hkeys r (List.mem_cons_of_mem _ hr))
          (fun r hr => upsert_preserves_presence _ _ _ (hpres r (List.mem_cons_of_mem _ hr)))]
    exact upsert_found_length _ _ _ hk hp0

/-- Every row emitted by `sort_rows_for_foreign_key` has a truthy
client id: the topological phase emits only values of the id-keyed row
map and the leftover pass filters on id truthiness. -/
theorem sorted_rows_truthy (rows : List ClientRow) :
    ∀ r ∈ sort_rows_for_foreign_key rows, pyTruthy r.client_id = true := by
  intro r hr
  rcases rows with _ | ⟨r0, rest⟩
  · simp [sort_rows_for_foreign_key] at hr
  · simp only [sort_rows_for_foreign_key, List.isEmpty_cons, if_false,
      Bool.false_eq_true] at hr
    rcases List.mem_append.1 hr with h | h
    · rcases kahnLoop_sorted_mem _ _ _ _ r h with h' | ⟨x, hx, hxr⟩
      · simp at h'
      · rw [← hxr]
        refine fixloop_map_truthy _ _ _ ?_ x hx
        intro y hy
        exact buildClientMap_val_truthy hy
    · have hp := (List.mem_filter.1 h).2
      rcases hk : rowKey r with _ | k
      · rw [hk] at hp
        simp at hp
      · exact pyTruthy_of_truthyVal hk

/-- Rerunning the client load phase against its own result leaves the
stored row count unchanged. -/
theorem migrate_clients_load_idem (table rows : List ClientRow) :
    (migrate_clients_load (migrate_clients_load table rows) rows).length =
      (migrate_clients_load table rows).length := by
  by_cases he : rows.isEmpty = true
  · simp [migrate_clients_load, he]
  · simp only [Bool.not_eq_true] at he
    simp only [migrate_clients_load, he, Bool.false_eq_true, if_false]
    refine fold_found_length _ _ ?_ ?_
    · intro r hr
      obtain ⟨s, hs, _⟩ := truthyVal_of_pyTruthy (sorted_rows_truthy rows r hr)
      exact ⟨s, hs⟩
    · intro r hr
      exact fold_self_present _ _ r hr

/-! ## Characterization of the client sort pipeline under truthy,
distinct client ids -/

theorem rowKey_eq_keyOf {r : ClientRow} (h : pyTruthy r.client_id = true) :
    rowKey r = some (keyOf r) ∧ r.client_id = some (keyOf r) := by
  obtain ⟨s, hs, hne⟩ := truthyVal_of_pyTruthy h
  have hk : keyOf r = s := by
    simp [keyOf, hs, truthyVal, hne]
  rw [hk]
  constructor
  · simp [rowKey, hs, truthyVal, hne]
  · exact hs

theorem map_nodup_inj {α β : Type} {f : α → β} :
    ∀ {l : List α}, (l.map f).Nodup →
      ∀ x ∈ l, ∀ y ∈ l, f x = f y → x = y := by
  intro l
  induction l with
  | nil => intro _ x hx; cases hx
  | cons a tail ih =>
    intro hnd x hx y hy hxy
    rw [List.map_cons, List.nodup_cons] at hnd
    rcases List.mem_cons.1 hx with hx' | hx' <;>
      rcases List.mem_cons.1 hy with hy' | hy'
    · rw [hx', hy']
    · exfalso
      refine hnd.1 ?_
      rw [← hx', hxy]
      exact List.mem_map_of_mem f hy'
    · exfalso
      refine hnd.1 ?_
      rw [← hy', ← hxy]
      exact List.mem_map_of_mem f hx'
    · exact ih hnd.2 x hx' y hy' hxy

theorem keyOf_nodup {rows : List ClientRow}
    (h1 : ∀ r ∈ rows, pyTruthy r.client_id = true)
    (h2 : (rows.map (fun r => r.client_id)).Nodup) :
    (rows.map keyOf).Nodup := by
  induction rows with
  | nil => exact List.nodup_nil
  | cons r tail ih =>
    rw [List.map_cons, List.nodup_cons]
    rw [List.map_cons, List.nodup_cons] at h2
    constructor
    · intro hmem
      obtain ⟨r', hr', hkey⟩ := List.mem_map.1 hmem
      refine h2.1 ?_
      have e1 := (rowKey_eq_keyOf (h1 r (List.mem_cons_self _ _))).2
      have e2 := (rowKey_eq_keyOf (h1 r' (List.mem_cons_of_mem _ hr'))).2
      have : r'.client_id = r.client_id := by
        rw [e1, e2, hkey]
      rw [← this]
      exact List.mem_map_of_mem _ hr'
    · exact ih (fun x hx => h1 x (List.mem_cons_of_mem _ hx)) h2.2

theorem buildMap_fold_eq :
    ∀ (todo : List ClientRow) (m0 : List (String × ClientRow)),
      (∀ r ∈ todo, pyTruthy r.client_id = true) →
      ((m0.map Prod.fst ++ todo.map keyOf).Nodup) →
      todo.foldl
        (fun m row =>
          match rowKey row with
          | some k => dictSet m k row
          | none => m) m0 =
        m0 ++ todo.map (fun r => (keyOf r, r)) := by
  intro todo
  induction todo with
  | nil =>
    intro m0 _ _
    simp
  | cons r tail ih =>
    intro m0 h1 hnd
    have hkey := (rowKey_eq_keyOf (h1 r (List.mem_cons_self _ _))).1
    rw [List.foldl_cons]
    have hnotin : keyOf r ∉ m0.map Prod.fst := by
      rw [List.map_cons] at hnd
      have hdisj := (List.nodup_append.1 hnd).2.2
      intro hc
      exact hdisj hc (List.mem_cons_self _ _)
    have hany : (m0.any fun p => p.1 == keyOf r) = false := by
      by_contra hc
      simp only [Bool.not_eq_false] at hc
      obtain ⟨p, hp, hpk⟩ := List.any_eq_true.1 hc
      refine hnotin ?_
      rw [← eq_of_beq hpk]
      exact List.mem_map_of_mem _ hp
    have hset : dictSet m0 (keyOf r) r = m0 ++ [(keyOf r, r)] := by
      unfold dictSet alistSet
      rw [hany]
      simp
    rw [hkey]
    simp only [hset]
    rw [ih (m0 ++ [(keyOf r, r)])
      (fun x hx => h1 x (List.mem_cons_of_mem _ hx)) ?hnd']
    · rw [List.append_assoc]
      rfl
    case hnd' =>
      rw [List.map_append, List.append_assoc]
      simpa using hnd

theorem buildClientMap_eq {rows : List ClientRow}
    (h1 : ∀ r ∈ rows, pyTruthy r.client_id = true)
    (h2 : (rows.map (fun r => r.client_id)).Nodup) :
    buildClientMap rows = rows.map (fun r => (keyOf r, r)) := by
  unfold buildClientMap
  have := buildMap_fold_eq rows [] h1 (by simpa using keyOf_nodup h1 h2)
  simpa using this

theorem buildClientMap_ids_eq {rows : List ClientRow}
    (h1 : ∀ r ∈ rows, pyTruthy r.client_id = true)
    (h2 : (rows.map (fun r => r.client_id)).Nodup) :
    (buildClientMap rows).map Prod.fst = rows.map keyOf := by
  rw [buildClientMap_eq h1 h2, List.map_map]
  rfl

theorem fixStep_eq_pair (ids : List String)
    (st : List (String × ClientRow) × List (String × List (Option String)))
    (row : ClientRow) :
    fixStep ids st row = (fixM ids st.1 row, fixD ids st.2 row) := by
  unfold fixStep fixM fixD edgePar
  rcases hc : truthyVal row.colony with _ | c
  · simp only [hc]
  · simp only [hc]
    by_cases hin : ids.contains c = true
    · simp only [hin, if_true, hc, Bool.true_and]
      by_cases hself : (!(row.client_id == some c)) = true
      · simp only [hself, if_true]
      · simp only [Bool.not_eq_true] at hself
        simp only [hself, Bool.false_eq_true, if_false]
    · simp only [Bool.not_eq_true] at hin
      simp only [hin, Bool.false_eq_true, if_false, Bool.false_and]
      rcases hk : rowKey row with _ | k
      · simp only [hk, truthyVal]
      · simp only [hk, truthyVal]

theorem fixfold_pair (ids : List String) :
    ∀ (todo : List ClientRow) (m : List (String × ClientRow))
      (d : List (String × List (Option String))),
      todo.foldl (fixStep ids) (m, d) =
        (todo.foldl (fixM ids) m, todo.foldl (fixD ids) d) := by
  intro todo
  induction todo with
  | nil => intro m d; rfl
  | cons r tail ih =>
    intro m d
    rw [List.foldl_cons, List.foldl_cons, List.foldl_cons, fixStep_eq_pair]
    exact ih _ _

theorem alistSet_replace {β : Type} :
    ∀ (A B : List (String × β)) (k : String) (v v' : β),
      (∀ p ∈ A, (p.1 == k) = false) →
      (∀ p ∈ B, (p.1 == k) = false) →
      alistSet (A ++ (k, v) :: B) k v' = A ++ (k, v') :: B := by
  intro A B k v v' hA hB
  have hany : ((A ++ (k, v) :: B).any fun p => p.1 == k) = true :=
    List.any_eq_true.2 ⟨(k, v), by simp, beq_self_eq_true k⟩
  unfold alistSet
  rw [hany]
  simp only [if_true, List.map_append, List.map_cons, beq_self_eq_true, if_true]
  have hAmap : A.map (fun p => if (p.1 == k) = true then (p.1, v') else p) = A := by
    refine List.map_congr_left ?_ |>.trans (List.map_id A)
    intro p hp
    simp [hA p hp]
  have hBmap : B.map (fun p => if (p.1 == k) = true then (p.1, v') else p) = B := by
    refine List.map_congr_left ?_ |>.trans (List.map_id B)
    intro p hp
    simp [hB p hp]
  rw [hAmap, hBmap]

theorem alistGet_of_mem_nodup {α β : Type} [BEq α] [LawfulBEq α] :
    ∀ {m : List (α × β)}, (m.map Prod.fst).Nodup →
      ∀ {k : α} {v : β}, (k, v) ∈ m → alistGet m k = some v := by
  intro m
  induction m with
  | nil => intro _ _ _ hmem; cases hmem
  | cons p tail ih =>
    intro hnd k v hmem
    rw [List.map_cons, List.nodup_cons] at hnd
    rcases List.mem_cons.1 hmem with heq | htail
    · rw [← heq]
      simp [alistGet]
    · have hne : (p.1 == k) = false := by
        by_contra hc
        simp only [Bool.not_eq_false] at hc
        refine hnd.1 ?_
        rw [eq_of_beq hc]
        exact List.mem_map_of_mem _ htail
      unfold alistGet
      rw [List.find?_cons_of_neg _ (by simp [hne])]
      exact ih hnd.2 htail

theorem fixM_fold_eq (ids : List String) :
    ∀ (todo done : List ClientRow),
      (∀ r ∈ done ++ todo, pyTruthy r.client_id = true) →
      (((done ++ todo).map keyOf).Nodup) →
      todo.foldl (fixM ids)
        (done.map (fun x => (keyOf x, fixRow ids x)) ++
          todo.map (fun x => (keyOf x, x))) =
        (done ++ todo).map (fun x => (keyOf x, fixRow ids x)) := by
  intro todo
  induction todo with
  | nil =>
    intro done _ _
    simp
  | cons r tail ih =>
    intro done h1 hnd
    have hkey := rowKey_eq_keyOf (h1 r (by simp))
    have hndsplit : ((done.map keyOf).Nodup ∧ ((r :: tail).map keyOf).Nodup) ∧
        ∀ a ∈ done.map keyOf, a ∉ (r :: tail).map keyOf := by
      rw [List.map_append, List.nodup_append] at hnd
      exact ⟨⟨hnd.1, hnd.2.1⟩, hnd.2.2⟩
    have hA : ∀ p ∈ done.map (fun x => (keyOf x, fixRow ids x)),
        (p.1 == keyOf r) = false := by
      intro p hp
      obtain ⟨x, hx, hxe⟩ := List.mem_map.1 hp
      by_contra hcon
      simp only [Bool.not_eq_false] at hcon
      have : keyOf x = keyOf r := by
        rw [← hxe] at hcon
        exact eq_of_beq hcon
      refine hndsplit.2 (keyOf x) (List.mem_map_of_mem _ hx) ?_
      rw [this, List.map_cons]
      exact List.mem_cons_self _ _
    have hB : ∀ p ∈ tail.map (fun x => (keyOf x, x)),
        (p.1 == keyOf r) = false := by
      intro p hp
      obtain ⟨x, hx, hxe⟩ := List.mem_map.1 hp
      by_contra hcon
      simp only [Bool.not_eq_false] at hcon
      have hxx : keyOf x = keyOf r := by
        rw [← hxe] at hcon
        exact eq_of_beq hcon
      have hnd2 := hndsplit.1.2
      rw [List.map_cons, List.nodup_cons] at hnd2
      refine hnd2.1 ?_
      rw [← hxx]
      exact List.mem_map_of_mem _ hx
    have hstep : fixM ids
        (done.map (fun x => (keyOf x, fixRow ids x)) ++
          (r :: tail).map (fun x => (keyOf x, x))) r =
        done.map (fun x => (keyOf x, fixRow ids x)) ++
          (keyOf r, fixRow ids r) :: tail.map (fun x => (keyOf x, x)) := by
      rcases hc : truthyVal r.colony with _ | c
      · have hfr : fixRow ids r = r := by
          simp only [fixRow, hc]
        simp only [fixM, hc, hfr, List.map_cons]
      · by_cases hin : ids.contains c = true
        · have hfr : fixRow ids r = r := by
            simp only [fixRow, hc, hin, if_true]
          simp only [fixM, hc, hin, if_true, hfr, List.map_cons]
        · simp only [Bool.not_eq_true] at hin
          have hfr : fixRow ids r = { r with colony := none } := by
            simp only [fixRow, hc, hin, Bool.false_eq_true, if_false]
          simp only [fixM, hc, hin, Bool.false_eq_true, if_false, hkey.1,
            List.map_cons, hfr]
          exact alistSet_replace _ _ _ _ _ hA hB
    rw [List.foldl_cons, hstep]
    have hshape : done.map (fun x => (keyOf x, fixRow ids x)) ++
        (keyOf r, fixRow ids r) :: tail.map (fun x => (keyOf x, x)) =
        (done ++ [r]).map (fun x => (keyOf x, fixRow ids x)) ++
          tail.map (fun x => (keyOf x, x)) := by
      rw [List.map_append, List.append_assoc]
      rfl
    have happ : (done ++ [r]) ++ tail = done ++ r :: tail := by
      rw [List.append_assoc]
      rfl
    rw [hshape, ih (done ++ [r]) (by rw [happ]; exact h1) (by rw [happ]; exact hnd),
      happ]

theorem setAdd_nodup {α : Type} [BEq α] [LawfulBEq α] {s : List α} {x : α}
    (h : s.Nodup) : (setAdd s x).Nodup := by
  unfold setAdd
  split
  · exact h
  · rename_i hc
    have hx : x ∉ s := by
      intro hmem
      exact hc (contains_iff_mem.2 hmem)

    rw [List.nodup_append]
    exact ⟨h, List.nodup_singleton x, by
      intro a ha hax
      rw [List.mem_singleton] at hax
      rw [hax] at ha
      exact hx ha⟩

theorem depsCh_depsAdd (d : List (String × List (Option String))) (c0 : String)
    (ch0 : Option String) (c : String) :
    depsCh (depsAdd d c0 ch0) c =
      if c == c0 then setAdd (depsCh d c0) ch0 else depsCh d c := by
  unfold depsAdd
  split
  · rename_i hany
    unfold depsCh
    rw [List.find?_map]
    have hpred : ((fun p : String × List (Option String) => p.1 == c) ∘
        fun p => if p.1 == c0 then
          (p.1, if p.2.contains ch0 then p.2 else p.2 ++ [ch0]) else p) =
        fun p : String × List (Option String) => p.1 == c := by
      funext p
      by_cases h : (p.1 == c0) = true
      · simp [eq_of_beq h]
      · rw [Bool.not_eq_true] at h
        simp [beq_eq_false_iff_ne.1 h]
    rw [hpred]
    by_cases hc : (c == c0) = true
    · rw [if_pos hc]
      have hceq : c = c0 := eq_of_beq hc
      subst hceq
      obtain ⟨q, hq, hqc⟩ := List.any_eq_true.1 hany
      rcases hfind : d.find? (fun p => p.1 == c) with _ | p
      · rw [List.find?_eq_none] at hfind
        exact absurd hqc (hfind q hq)
      · have hpk := List.find?_some hfind
        simp only at hpk
        simp [hfind, eq_of_beq hpk, depsCh, setAdd]
    · rw [if_neg hc]
      rcases hfind : d.find? (fun p => p.1 == c) with _ | p
      · simp [hfind, depsCh]
      · have hpk := List.find?_some hfind
        simp only at hpk
        have hpc0 : (p.1 == c0) = false := by
          by_contra hcc
          simp only [Bool.not_eq_false] at hcc
          have : c = c0 := (eq_of_beq hpk).symm.trans (eq_of_beq hcc)
          rw [this] at hc
          simp at hc
        simp [hfind, depsCh, beq_eq_false_iff_ne.1 hpc0]
  · rename_i hany
    unfold depsCh
    rw [List.find?_append]
    by_cases hc : (c == c0) = true
    · have hceq : c = c0 := eq_of_beq hc
      subst hceq
      have hnone : d.find? (fun p : String × List (Option String) => p.1 == c) =
          none := by
        rw [List.find?_eq_none]
        intro q hq hqc
        exact hany (List.any_eq_true.2 ⟨q, hq, hqc⟩)
      rw [if_pos hc]
      simp [hnone, depsCh, setAdd]
    · rw [if_neg hc]
      have hne : ((c0, [ch0]).1 == c) = false := by
        by_contra hcc
        simp only [Bool.not_eq_false] at hcc
        have hcc' : c0 = c := eq_of_beq hcc
        rw [← hcc'] at hc
        simp at hc
      rcases hfind : d.find? (fun p : String × List (Option String) => p.1 == c)
        with _ | p
      · simp [hfind, depsCh, hne]
      · simp [hfind, depsCh]

theorem fixD_fold_mem (ids : List String) :
    ∀ (todo : List ClientRow) (d : List (String × List (Option String)))
      (c : String) (ch : Option String),
      ch ∈ depsCh (todo.foldl (fixD ids) d) c →
      ch ∈ depsCh d c ∨ ∃ r ∈ todo, edgePar ids r = some c ∧ r.client_id = ch := by
  intro todo
  induction todo with
  | nil =>
    intro d c ch h
    exact Or.inl h
  | cons r tail ih =>
    intro d c ch h
    rw [List.foldl_cons] at h
    rcases ih _ c ch h with h' | ⟨r', hr', he⟩
    · unfold fixD at h'
      rcases hp : edgePar ids r with _ | c0
      · rw [hp] at h'
        exact Or.inl h'
      · rw [hp] at h'
        rw [depsCh_depsAdd] at h'
        by_cases hc : (c == c0) = true
        · rw [if_pos hc] at h'
          rcases setAdd_mem.1 h' with h'' | h''
          · rw [eq_of_beq hc]
            exact Or.inl h''
          · right
            refine ⟨r, List.mem_cons_self _ _, ?_, h''.symm⟩
            rw [hp, eq_of_beq hc]
        · rw [if_neg hc] at h'
          exact Or.inl h'
    · exact Or.inr ⟨r', List.mem_cons_of_mem _ hr', he⟩

theorem fixD_fold_mono (ids : List String) :
    ∀ (todo : List ClientRow) (d : List (String × List (Option String)))
      (c : String) (ch : Option String),
      ch ∈ depsCh d c → ch ∈ depsCh (todo.foldl (fixD ids) d) c := by
  intro todo
  induction todo with
  | nil =>
    intro d c ch h
    exact h
  | cons r tail ih =>
    intro d c ch h
    rw [List.foldl_cons]
    refine ih _ c ch ?_
    unfold fixD
    rcases hp : edgePar ids r with _ | c0
    · exact h
    · rw [depsCh_depsAdd]
      by_cases hc : (c == c0) = true
      · rw [if_pos hc]
        rw [eq_of_beq hc] at h
        exact setAdd_mem.2 (Or.inl h)
      · rw [if_neg hc]
        exact h

theorem fixD_fold_complete (ids : List String) :
    ∀ (todo : List ClientRow) (d : List (String × List (Option String)))
      (r : ClientRow) (c : String),
      r ∈ todo → edgePar ids r = some c →
      r.client_id ∈ depsCh (todo.foldl (fixD ids) d) c := by
  intro todo
  induction todo with
  | nil =>
    intro d r c hr
    cases hr
  | cons r0 tail ih =>
    intro d r c hr hp
    rw [List.foldl_cons]
    rcases List.mem_cons.1 hr with heq | htail
    · subst heq
      refine fixD_fold_mono ids tail _ c _ ?_
      unfold fixD
      rw [hp, depsCh_depsAdd, if_pos (beq_self_eq_true c)]
      exact setAdd_mem.2 (Or.inr rfl)
    · exact ih _ r c htail hp

theorem fixD_fold_nodup (ids : List String) :
    ∀ (todo : List ClientRow) (d : List (String × List (Option String))),
      (∀ c, (depsCh d c).Nodup) →
      ∀ c, (depsCh (todo.foldl (fixD ids) d) c).Nodup := by
  intro todo
  induction todo with
  | nil =>
    intro d h c
    exact h c
  | cons r tail ih =>
    intro d h c
    rw [List.foldl_cons]
    refine ih _ ?_ c
    intro c'
    unfold fixD
    rcases hp : edgePar ids r with _ | c0
    · exact h c'
    · rw [depsCh_depsAdd]
      by_cases hc : (c' == c0) = true
      · rw [if_pos hc]
        exact setAdd_nodup (h c0)
      · rw [if_neg hc]
        exact h c'

theorem edgePar_some {ids : List String} {r : ClientRow} {c : String}
    (h : edgePar ids r = some c) :
    truthyVal r.colony = some c ∧ ids.contains c = true ∧
      (r.client_id == some c) = false := by
  unfold edgePar at h
  rcases hc : truthyVal r.colony with _ | c'
  · rw [hc] at h
    cases h
  · simp only [hc] at h
    by_cases hcond : (ids.contains c' && !(r.client_id == some c')) = true
    · rw [if_pos hcond] at h
      injection h with h'
      subst h'
      rw [Bool.and_eq_true] at hcond
      refine ⟨rfl, hcond.1, ?_⟩
      have := hcond.2
      simp only [Bool.not_eq_true'] at this
      exact this
    · rw [if_neg hcond] at h
      cases h

theorem Pedge_unique {ids : List String} {rows : List ClientRow} {c c' k : String}
    (h2 : (rows.map (fun r => r.client_id)).Nodup)
    (he : Pedge ids rows c k) (he' : Pedge ids rows c' k) : c = c' := by
  obtain ⟨r, hr, hpar, hid⟩ := he
  obtain ⟨r', hr', hpar', hid'⟩ := he'
  have hrr : r = r' := map_nodup_inj h2 r hr r' hr' (hid.trans hid'.symm)
  rw [← hrr] at hpar'
  have hcc := hpar.symm.trans hpar'
  injection hcc

theorem Pedge_facts {rows : List ClientRow} {c k : String}
    (h1 : ∀ r ∈ rows, pyTruthy r.client_id = true)
    (he : Pedge (rows.map keyOf) rows c k) :
    c ∈ rows.map keyOf ∧ k ∈ rows.map keyOf ∧ c ≠ k := by
  obtain ⟨r, hr, hpar, hid⟩ := he
  obtain ⟨hcol, hcont, hne⟩ := edgePar_some hpar
  refine ⟨contains_iff_mem.1 hcont, ?_, ?_⟩
  · have hk := (rowKey_eq_keyOf (h1 r hr)).2
    have : k = keyOf r := by
      rw [hid] at hk
      injection hk with h'
    rw [this]
    exact List.mem_map_of_mem _ hr
  · intro hck
    rw [hid] at hne
    rw [hck] at hne
    simp at hne

theorem shape_get :
    ∀ (l : List String) (v : String → Int) (k : String), k ∈ l →
      alistGet (l.map (fun x => ((some x : Option String), v x))) (some k) =
        some (v k) := by
  intro l
  induction l with
  | nil =>
    intro v k hk
    cases hk
  | cons a tail ih =>
    intro v k hk
    by_cases hak : a = k
    · subst hak
      unfold alistGet
      rw [List.map_cons, List.find?_cons_of_pos _ (by simp)]
      rfl
    · have hk' : k ∈ tail := by
        rcases List.mem_cons.1 hk with h | h
        · exact absurd h.symm hak
        · exact h
      unfold alistGet
      rw [List.map_cons, List.find?_cons_of_neg _ (by simp [hak])]
      exact ih v k hk'

theorem shape_set :
    ∀ (l : List String) (v : String → Int) (k0 : String) (w : Int), k0 ∈ l →
      alistSet (l.map (fun x => ((some x : Option String), v x))) (some k0) w =
        l.map (fun x => ((some x : Option String), if x == k0 then w else v x)) := by
  intro l v k0 w hk0
  have hany : ((l.map (fun x => ((some x : Option String), v x))).any
      fun p => p.1 == some k0) = true :=
    List.any_eq_true.2 ⟨(some k0, v k0), List.mem_map_of_mem _ hk0, by simp⟩
  unfold alistSet
  rw [hany]
  simp only [if_true, List.map_map]
  refine List.map_congr_left ?_
  intro x _
  by_cases hx : (x == k0) = true
  · have : x = k0 := eq_of_beq hx
    subst this
    simp
  · rw [Bool.not_eq_true] at hx
    have hxne : x ≠ k0 := beq_eq_false_iff_ne.1 hx
    simp [Function.comp, hxne, hx]

theorem degGet_shape (l : List String) (v : String → Int) (k : String)
    (hk : k ∈ l) :
    degGet (l.map (fun x => ((some x : Option String), v x))) (some k) = v k := by
  unfold degGet
  rw [shape_get l v k hk]
  rfl

theorem degSet_shape (l : List String) (v : String → Int) (k0 : String) (w : Int)
    (hk0 : k0 ∈ l) :
    degSet (l.map (fun x => ((some x : Option String), v x))) (some k0) w =
      l.map (fun x => ((some x : Option String), if x == k0 then w else v x)) := by
  unfold degSet
  exact shape_set l v k0 w hk0

theorem foldl_add_toNat :
    ∀ (L : List (Option String × Int)) (a : Nat),
      L.foldl (fun a p => a + p.2.toNat) a = a + (L.map (fun p => p.2.toNat)).sum := by
  intro L
  induction L with
  | nil =>
    intro a
    simp
  | cons p tail ih =>
    intro a
    rw [List.foldl_cons, ih, List.map_cons, List.sum_cons]
    omega

theorem sum_indicator :
    ∀ (l : List String) (v : String → Int) (p : String → Bool),
      (∀ x ∈ l, (v x).toNat = if p x then 1 else 0) →
      (l.map (fun x => (v x).toNat)).sum = (l.filter p).length := by
  intro l
  induction l with
  | nil =>
    intro v p _
    rfl
  | cons a tail ih =>
    intro v p h
    rw [List.map_cons, List.sum_cons, List.filter_cons,
      ih v p (fun x hx => h x (List.mem_cons_of_mem _ hx)),
      h a (List.mem_cons_self _ _)]
    by_cases hpa : p a = true
    · simp only [hpa, if_true, List.length_cons]
      omega
    · rw [Bool.not_eq_true] at hpa
      simp [hpa]

theorem kahnFuel_shape (q : List (Option String)) (l : List String)
    (v : String → Int) :
    kahnFuel q (l.map (fun x => ((some x : Option String), v x))) =
      q.length + (l.map (fun x => (v x).toNat)).sum := by
  unfold kahnFuel
  rw [foldl_add_toNat, List.map_map]
  have hco : ((fun p : Option String × Int => p.2.toNat) ∘
      fun x => ((some x : Option String), v x)) = fun x => (v x).toNat := by
    funext x
    rfl
  rw [hco]
  omega

theorem filter_length_ge :
    ∀ (l : List String) (p p' : String → Bool) (S : List String),
      S.Nodup →
      (∀ x ∈ S, x ∈ l ∧ p x = true ∧ p' x = false) →
      (∀ x ∈ l, p' x = true → p x = true) →
      (l.filter p').length + S.length ≤ (l.filter p).length := by
  intro l
  induction l with
  | nil =>
    intro p p' S _ hS _
    rcases S with _ | ⟨a, S'⟩
    · simp
    · exact absurd (hS a (List.mem_cons_self _ _)).1 (List.not_mem_nil _)
  | cons a tail ih =>
    intro p p' S hSnd hS himp
    by_cases haS : a ∈ S
    · have hpa := (hS a haS).2
      have hlen : 0 < S.length := List.length_pos.2 (by
        intro hemp
        rw [hemp] at haS
        cases haS)
      have ihx := ih p p' (S.erase a) (hSnd.erase a) ?_ ?_
      · rw [List.filter_cons, List.filter_cons, hpa.1, hpa.2]
        simp only [if_true, Bool.false_eq_true, if_false, List.length_cons]
        rw [List.length_erase_of_mem haS] at ihx
        omega
      · intro x hx
        have hxS := (hSnd.mem_erase_iff.1 hx)
        have h0 := hS x hxS.2
        refine ⟨?_, h0.2.1, h0.2.2⟩
        rcases List.mem_cons.1 h0.1 with h | h
        · exact absurd h hxS.1
        · exact h
      · intro x hx
        exact himp x (List.mem_cons_of_mem _ hx)
    · have ihx := ih p p' S hSnd ?_ ?_
      · rw [List.filter_cons, List.filter_cons]
        by_cases hpa' : p' a = true
        · rw [hpa', himp a (List.mem_cons_self _ _) hpa']
          simp only [if_true, List.length_cons]
          omega
        · rw [Bool.not_eq_true] at hpa'
          rw [hpa']
          simp only [Bool.false_eq_true, if_false]
          by_cases hpa : p a = true
          · rw [hpa]
            simp only [if_true, List.length_cons]
            omega
          · rw [Bool.not_eq_true] at hpa
            rw [hpa]
            simp only [Bool.false_eq_true, if_false]
            omega
      · intro x hx
        have h0 := hS x hx
        refine ⟨?_, h0.2.1, h0.2.2⟩
        rcases List.mem_cons.1 h0.1 with h | h
        · rw [h] at hx
          exact absurd hx haS
        · exact h
      · intro x hx
        exact himp x (List.mem_cons_of_mem _ hx)

theorem contains_eq_false_iff {α : Type} [BEq α] [LawfulBEq α]
    (l : List α) (a : α) : l.contains a = false ↔ a ∉ l := by
  constructor
  · intro h hmem
    rw [contains_iff_mem.2 hmem] at h
    cases h
  · intro h
    by_contra hc
    simp only [Bool.not_eq_false] at hc
    exact h (contains_iff_mem.1 hc)

theorem wait_true_iff (d : List String) (q : List (Option String)) (k : String) :
    (!(d.contains k) && !(q.contains (some k))) = true ↔
      k ∉ d ∧ (some k : Option String) ∉ q := by
  rw [Bool.and_eq_true, Bool.not_eq_true', Bool.not_eq_true',
    contains_eq_false_iff, contains_eq_false_iff]

theorem length_filterMap_some :
    ∀ (l : List (Option String)),
      (∀ ch ∈ l, ∃ k, ch = some k) →
      (l.filterMap (fun x => x)).length = l.length := by
  intro l
  induction l with
  | nil =>
    intro _
    rfl
  | cons ch tail ih =>
    intro h
    obtain ⟨k, hk⟩ := h ch (List.mem_cons_self _ _)
    subst hk
    simp only [List.filterMap_cons, List.length_cons]
    rw [ih (fun x hx => h x (List.mem_cons_of_mem _ hx))]

theorem decfold (ids : List String) :
    ∀ (children : List (Option String)) (v : String → Int)
      (q : List (Option String)),
      children.Nodup →
      (∀ ch ∈ children, ∃ kj, ch = some kj ∧ kj ∈ ids ∧ v kj = 1) →
      children.foldl
        (fun (acc : List (Option String × Int) × List (Option String)) child =>
          let d := degGet acc.1 child - 1
          (degSet acc.1 child d, if d == 0 then acc.2 ++ [child] else acc.2))
        (ids.map (fun x => ((some x : Option String), v x)), q) =
        (ids.map (fun x => ((some x : Option String),
            if children.contains (some x) then 0 else v x)), q ++ children) := by
  intro children
  induction children with
  | nil =>
    intro v q _ _
    rw [List.foldl_nil, List.append_nil]
    refine congrArg₂ Prod.mk ?_ rfl
    refine (List.map_congr_left ?_).symm
    intro x _
    simp
  | cons ch tail ih =>
    intro v q hnd hall
    obtain ⟨k0, hch, hk0, hv0⟩ := hall ch (List.mem_cons_self _ _)
    subst hch
    rw [List.nodup_cons] at hnd
    rw [List.foldl_cons]
    have hdg : degGet (ids.map (fun x => ((some x : Option String), v x)))
        (some k0) = v k0 := degGet_shape ids v k0 hk0
    have h10 : v k0 - 1 = 0 := by
      rw [hv0]
      decide
    have h00 : ((0 : Int) == 0) = true := by decide
    simp only [hdg, h10, h00, if_true]
    rw [degSet_shape ids v k0 0 hk0]
    have htail : ∀ ch' ∈ tail, ∃ kj, ch' = some kj ∧ kj ∈ ids ∧
        (if kj == k0 then (0 : Int) else v kj) = 1 := by
      intro ch' hch'
      obtain ⟨kj, hkj, hkjids, hvj⟩ := hall ch' (List.mem_cons_of_mem _ hch')
      refine ⟨kj, hkj, hkjids, ?_⟩
      have hne : (kj == k0) = false := by
        by_contra hc
        simp only [Bool.not_eq_false] at hc
        rw [eq_of_beq hc] at hkj
        rw [hkj] at hch'
        exact hnd.1 hch'
      rw [hne]
      · exact hvj
    rw [ih (fun x => if x == k0 then (0 : Int) else v x) (q ++ [some k0])
      hnd.2 htail]
    refine congrArg₂ Prod.mk ?_ ?_
    · refine List.map_congr_left ?_
      intro x _
      by_cases hx : x = k0
      · subst hx
        cases hct : tail.contains (some x) <;>
          simp [List.contains_cons, hct]
      · have hbx : (x == k0) = false := beq_eq_false_iff_ne.2 hx
        have hbs : ((some x : Option String) == some k0) = false := by
          rw [beq_eq_false_iff_ne]
          intro hcc
          exact hx (Option.some.inj hcc)
        cases hct : tail.contains (some x)
        · have hmem : (some x : Option String) ∉ tail :=
            (contains_eq_false_iff _ _).1 hct
          simp [List.contains_cons, hct, hbx, hbs, hx, hmem]
        · have hmem : (some x : Option String) ∈ tail := contains_iff_mem.1 hct
          simp [List.contains_cons, hct, hbx, hbs, hmem]
    · rw [List.append_assoc]
      rfl

theorem kahn_main
    (m : List (String × ClientRow)) (deps : List (String × List (Option String)))
    (ids : List String) (E : String → String → Prop)
    (HmSome : ∀ k ∈ ids, (dictGet m k).isSome = true)
    (HN1 : ∀ c ch, ch ∈ depsCh deps c → ∃ k, ch = some k ∧ E c k)
    (HN2 : ∀ c k, E c k → some k ∈ depsCh deps c)
    (HN3 : ∀ c, (depsCh deps c).Nodup)
    (HU : ∀ c c' k, E c k → E c' k → c = c')
    (HE : ∀ c k, E c k → c ∈ ids ∧ k ∈ ids ∧ c ≠ k) :
    ∀ (fuel : Nat) (st : KahnState) (done : List String) (v : String → Int),
      st.sorted = done.map (emitOf m) →
      (∀ q ∈ st.queue, ∃ k, q = some k ∧ k ∈ ids) →
      ((done.map (fun x => (some x : Option String)) ++ st.queue).Nodup) →
      (∀ k ∈ done, k ∈ ids) →
      (∀ k c, (some k : Option String) ∈ st.queue → E c k → c ∈ done) →
      (∀ (i : Nat) (h : i < done.length), ∀ c, E c done[i] → c ∈ done.take i) →
      st.deg = ids.map (fun x => ((some x : Option String), v x)) →
      (∀ k ∈ ids, (∃ c, E c k ∧ c ∉ done) → v k = 1) →
      (∀ k ∈ ids, (∀ c, E c k → c ∈ done) → v k = 0) →
      (∀ k ∈ ids, k ∉ done → (some k : Option String) ∉ st.queue →
        ∃ c, E c k ∧ c ∉ done) →
      st.queue.length + (ids.filter (fun x =>
        !(done.contains x) && !(st.queue.contains (some x)))).length ≤ fuel →
      ∃ done' : List String,
        (kahnLoop m deps fuel st).sorted = done'.map (emitOf m) ∧
        done'.Nodup ∧
        (∀ k ∈ done', k ∈ ids) ∧
        (∀ (i : Nat) (h : i < done'.length), ∀ c, E c done'[i] → c ∈ done'.take i) ∧
        (∀ k ∈ ids, k ∉ done' → ∃ c, E c k ∧ c ∉ done') := by
  intro fuel
  induction fuel with
  | zero =>
    intro st done v hI1 hI2a hI2b hI2c hI3 hI3' hI4 hI4a hI4b hI5 hfuel
    have hq : st.queue = [] := by
      rcases hqe : st.queue with _ | ⟨q0, rest⟩
      · rfl
      · rw [hqe, List.length_cons] at hfuel
        omega
    refine ⟨done, ?_, ?_, hI2c, hI3', ?_⟩
    · rw [kahnLoop]
      exact hI1
    · have hnd := hI2b
      rw [hq, List.append_nil] at hnd
      exact hnd.of_map
    · intro k hk hkd
      exact hI5 k hk hkd (by rw [hq]; exact List.not_mem_nil _)
  | succ n ih =>
    intro st done v hI1 hI2a hI2b hI2c hI3 hI3' hI4 hI4a hI4b hI5 hfuel
    rcases hqe : st.queue with _ | ⟨cur, rest⟩
    · refine ⟨done, ?_, ?_, hI2c, hI3', ?_⟩
      · simp only [kahnLoop, hqe]
        exact hI1
      · have hnd := hI2b
        rw [hqe, List.append_nil] at hnd
        exact hnd.of_map
      · intro k hk hkd
        exact hI5 k hk hkd (by rw [hqe]; exact List.not_mem_nil _)
    · obtain ⟨k, hcur, hkids⟩ := hI2a cur (by rw [hqe]; exact List.mem_cons_self _ _)
      subst hcur
      have hrowS := HmSome k hkids
      rcases hrow : dictGet m k with _ | row
      · rw [hrow] at hrowS
        cases hrowS
      · have hrowe : row = emitOf m k := by
          unfold emitOf
          rw [hrow]
          rfl
        have hkdone : k ∉ done := by
          intro hkd
          have hmm : (some k : Option String) ∈
              done.map (fun x => (some x : Option String)) :=
            List.mem_map_of_mem _ hkd
          have hnd := hI2b
          rw [hqe, List.nodup_append] at hnd
          exact hnd.2.2 hmm (by rw [hqe] at hqe ⊢; exact List.mem_cons_self _ _)
        have hkrest : (some k : Option String) ∉ rest := by
          have hnd := hI2b
          rw [hqe, List.nodup_append, List.nodup_cons] at hnd
          exact hnd.2.1.1
        have hchnd : (depsCh deps k).Nodup := HN3 k
        have hchprops : ∀ ch ∈ depsCh deps k, ∃ kj, ch = some kj ∧ kj ∈ ids ∧
            kj ∉ done ∧ (some kj : Option String) ∉ st.queue ∧ kj ≠ k ∧
            v kj = 1 := by
          intro ch hch
          obtain ⟨kj, hkj, hEkj⟩ := HN1 k ch hch
          have hf := HE k kj hEkj
          have hkjdone : kj ∉ done := by
            intro hkjd
            obtain ⟨i, hilt, hig⟩ := List.getElem_of_mem hkjd
            have hcc := hI3' i hilt k (by rw [hig]; exact hEkj)
            exact hkdone (List.take_subset i done hcc)
          have hkjq : (some kj : Option String) ∉ st.queue := by
            intro hq
            exact hkdone (hI3 kj k hq hEkj)
          exact ⟨kj, hkj, hf.2.1, hkjdone, hkjq, Ne.symm hf.2.2,
            hI4a kj hf.2.1 ⟨k, hEkj, hkdone⟩⟩
        have hdecprops : ∀ ch ∈ depsCh deps k, ∃ kj, ch = some kj ∧ kj ∈ ids ∧
            v kj = 1 := by
          intro ch hch
          obtain ⟨kj, h1', h2', _, _, _, h6'⟩ := hchprops ch hch
          exact ⟨kj, h1', h2', h6'⟩
        simp only [kahnLoop, hqe, hrow]
        rw [hI4]
        rw [decfold ids
          (((deps.find? (fun p : String × List (Option String) =>
            p.1 == k)).map Prod.snd).getD [])
          v rest hchnd hdecprops]
        refine ih ⟨rest ++ depsCh deps k,
          ids.map (fun x => ((some x : Option String),
            if (depsCh deps k).contains (some x) then 0 else v x)),
          st.sorted ++ [row]⟩ (done ++ [k])
          (fun x => if (depsCh deps k).contains (some x) then 0 else v x)
          ?_ ?_ ?_ ?_ ?_ ?_ rfl ?_ ?_ ?_ ?_
        · rw [hI1, hrowe, List.map_append]
          rfl
        · intro q hq
          rcases List.mem_append.1 hq with h | h
          · exact hI2a q (by rw [hqe]; exact List.mem_cons_of_mem _ h)
          · obtain ⟨kj, h1', h2', _, _, _, _⟩ := hchprops q h
            exact ⟨kj, h1', h2'⟩
        · have heq1 : (done ++ [k]).map (fun x => (some x : Option String)) ++
              (rest ++ depsCh deps k) =
              (done.map (fun x => (some x : Option String)) ++ some k :: rest) ++
                depsCh deps k := by
            rw [List.map_append, List.append_assoc, List.append_assoc]
            rfl
          rw [heq1, List.nodup_append]
          have hnd := hI2b
          rw [hqe] at hnd
          refine ⟨hnd, hchnd, ?_⟩
          intro a ha hach
          obtain ⟨kj, h1', _, hjd, hjq, hjk, _⟩ := hchprops a hach
          subst h1'
          rcases List.mem_append.1 ha with h | h
          · obtain ⟨x, hx, hxe⟩ := List.mem_map.1 h
            exact hjd (Option.some.inj hxe ▸ hx)
          · rcases List.mem_cons.1 h with h' | h'
            · exact hjk (Option.some.inj h')
            · exact hjq (by rw [hqe]; exact List.mem_cons_of_mem _ h')
        · intro k' hk'
          rcases List.mem_append.1 hk' with h | h
          · exact hI2c k' h
          · rw [List.mem_singleton] at h
            rw [h]
            exact hkids
        · intro k' c hk' hEc
          rcases List.mem_append.1 hk' with h | h
          · exact List.mem_append_left _ (hI3 k' c (by rw [hqe]; exact List.mem_cons_of_mem _ h) hEc)
          · obtain ⟨kj, h1', hEk⟩ := HN1 k _ h
            have hkj : kj = k' := Option.some.inj h1'.symm
            subst hkj
            have : c = k := HU c k kj hEc hEk
            rw [this]
            exact List.mem_append_right _ (List.mem_singleton_self k)
        · intro i hlt c hEc
          rw [List.length_append, List.length_singleton] at hlt
          by_cases hi : i < done.length
          · have hget : (done ++ [k])[i] = done[i] := List.getElem_append_left hi
            rw [hget] at hEc
            have := hI3' i hi c hEc
            rw [List.take_append_of_le_length (le_of_lt hi)]
            exact this
          · have hieq : i = done.length := by omega
            subst hieq
            have hget : (done ++ [k])[done.length] = k := by
              simp
            rw [hget] at hEc
            have hcdone : c ∈ done :=
              hI3 k c (by rw [hqe]; exact List.mem_cons_self _ _) hEc
            rw [List.take_left]
            exact hcdone
        · intro k' hk'ids hex
          obtain ⟨c, hEc, hcd⟩ := hex
          have hck : c ≠ k := by
            intro hceq
            exact hcd (by rw [hceq]; exact List.mem_append_right _ (List.mem_singleton_self k))
          have hncont : (depsCh deps k).contains (some k') = false := by
            rw [contains_eq_false_iff]
            intro hmem
            obtain ⟨kj, h1', hEk⟩ := HN1 k _ hmem
            have hkj : kj = k' := Option.some.inj h1'.symm
            subst hkj
            exact hck (HU c k kj hEc hEk)
          simp only []
          rw [hncont]
          simp only [Bool.false_eq_true, if_false]
          exact hI4a k' hk'ids ⟨c, hEc, fun hmem => hcd (List.mem_append_left _ hmem)⟩
        · intro k' hk'ids hall
          simp only []
          cases hcont : (depsCh deps k).contains (some k') with
          | true =>
            simp
          | false =>
            simp only [Bool.false_eq_true, if_false]
            refine hI4b k' hk'ids ?_
            intro c hEc
            have := hall c hEc
            rcases List.mem_append.1 this with h | h
            · exact h
            · exfalso
              rw [List.mem_singleton] at h
              subst h
              have := HN2 c k' hEc
              rw [contains_eq_false_iff] at hcont
              exact hcont this
        · intro k' hk'ids hk'd hk'q
          have hk'k : k' ≠ k := by
            intro he
            exact hk'd (by rw [he]; exact List.mem_append_right _ (List.mem_singleton_self k))
          have hk'done : k' ∉ done := fun h => hk'd (List.mem_append_left _ h)
          have hk'rest : (some k' : Option String) ∉ rest :=
            fun h => hk'q (List.mem_append_left _ h)
          have hk'ch : (some k' : Option String) ∉ depsCh deps k :=
            fun h => hk'q (List.mem_append_right _ h)
          have hk'queue : (some k' : Option String) ∉ st.queue := by
            rw [hqe]
            intro h
            rcases List.mem_cons.1 h with h' | h'
            · exact hk'k (Option.some.inj h')
            · exact hk'rest h'
          obtain ⟨c, hEc, hcd⟩ := hI5 k' hk'ids hk'done hk'queue
          refine ⟨c, hEc, ?_⟩
          intro hmem
          rcases List.mem_append.1 hmem with h | h
          · exact hcd h
          · rw [List.mem_singleton] at h
            subst h
            exact hk'ch (HN2 c k' hEc)
        · have hS : ∀ x ∈ (depsCh deps k).filterMap (fun y => y),
              x ∈ ids ∧
                (!(done.contains x) && !(st.queue.contains (some x))) = true ∧
                (!((done ++ [k]).contains x) &&
                  !((rest ++ depsCh deps k).contains (some x))) = false := by
            intro x hx
            obtain ⟨a, ha, hae⟩ := List.mem_filterMap.1 hx
            rw [hae] at ha
            obtain ⟨kj, h1', h2', h3', h4', _, _⟩ := hchprops (some x) ha
            have hkj : kj = x := Option.some.inj h1'.symm
            rw [hkj] at h2' h3' h4'
            refine ⟨h2', (wait_true_iff _ _ _).2 ⟨h3', h4'⟩, ?_⟩
            have hcont : (rest ++ depsCh deps k).contains (some x) = true :=
              contains_iff_mem.2 (List.mem_append_right _ ha)
            rw [hcont]
            simp
          have hSnd : ((depsCh deps k).filterMap (fun y => y)).Nodup := by
            refine hchnd.filterMap ?_
            intro a a' b hb hb'
            cases a with
            | none => cases hb
            | some av =>
              cases a' with
              | none => cases hb'
              | some av' =>
                simp only [Option.mem_def, Option.some.injEq] at hb hb'
                rw [hb, hb']
          have hSlen : ((depsCh deps k).filterMap (fun y => y)).length =
              (depsCh deps k).length := by
            refine length_filterMap_some _ ?_
            intro ch hch
            obtain ⟨kj, h1', _⟩ := HN1 k ch hch
            exact ⟨kj, h1'⟩
          have himp : ∀ x ∈ ids,
              (!((done ++ [k]).contains x) &&
                !((rest ++ depsCh deps k).contains (some x))) = true →
              (!(done.contains x) && !(st.queue.contains (some x))) = true := by
            intro x _ h
            rw [wait_true_iff] at h
            refine (wait_true_iff _ _ _).2 ⟨?_, ?_⟩
            · intro hmem
              exact h.1 (List.mem_append_left _ hmem)
            · rw [hqe]
              intro hmem
              rcases List.mem_cons.1 hmem with h' | h'
              · refine h.1 ?_
                rw [Option.some.inj h']
                exact List.mem_append_right _ (List.mem_singleton_self k)
              · exact h.2 (List.mem_append_left _ h')
          have hcount := filter_length_ge ids
            (fun x => !(done.contains x) && !(st.queue.contains (some x)))
            (fun x => !((done ++ [k]).contains x) &&
              !((rest ++ depsCh deps k).contains (some x)))
            ((depsCh deps k).filterMap (fun y => y)) hSnd
            (fun x hx => ⟨(hS x hx).1, (hS x hx).2.1, (hS x hx).2.2⟩) himp
          rw [hqe] at hcount
          rw [hqe, List.length_cons] at hfuel
          simp only []
          rw [List.length_append]
          rw [hSlen] at hcount
          omega

theorem fixRow_client_id (ids : List String) (r : ClientRow) :
    (fixRow ids r).client_id = r.client_id := by
  unfold fixRow
  split
  · split <;> rfl
  · rfl

theorem rowKey_fixRow (ids : List String) (r : ClientRow) :
    rowKey (fixRow ids r) = rowKey r := by
  unfold rowKey
  rw [fixRow_client_id]

theorem fixRow_colony_cases {ids : List String} {r : ClientRow} {p : String}
    (h : truthyVal (fixRow ids r).colony = some p) :
    truthyVal r.colony = some p ∧ ids.contains p = true := by
  unfold fixRow at h
  rcases hc : truthyVal r.colony with _ | c
  · simp only [hc] at h
    cases h
  · simp only [hc] at h
    by_cases hin : ids.contains c = true
    · rw [if_pos hin] at h
      rw [hc] at h
      injection h with h'
      subst h'
      exact ⟨rfl, hin⟩
    · have hneg : ¬(ids.contains c = true) := hin
      rw [if_neg hneg] at h
      simp [truthyVal] at h

theorem incfold_shape :
    ∀ (cs : List (Option String)) (l : List String) (w : String → Int),
      (∀ ch ∈ cs, ∃ kj, ch = some kj ∧ kj ∈ l) →
      cs.foldl (fun d child => degSet d child (degGet d child + 1))
        (l.map (fun x => ((some x : Option String), w x))) =
        l.map (fun x => ((some x : Option String),
          w x + (cs.count (some x) : Int))) := by
  intro cs
  induction cs with
  | nil =>
    intro l w _
    rw [List.foldl_nil]
    refine (List.map_congr_left ?_).symm
    intro x _
    simp
  | cons ch tail ih =>
    intro l w hall
    obtain ⟨k0, hch, hk0⟩ := hall ch (List.mem_cons_self _ _)
    subst hch
    rw [List.foldl_cons, degGet_shape l w k0 hk0, degSet_shape l w k0 _ hk0]
    rw [ih l (fun x => if x == k0 then w k0 + 1 else w x)
      (fun c hc => hall c (List.mem_cons_of_mem _ hc))]
    refine List.map_congr_left ?_
    intro x _
    by_cases hxe : x = k0
    · subst hxe
      simp only [beq_self_eq_true, if_true, List.count_cons, beq_self_eq_true]
      refine congrArg _ ?_
      push_cast
      ring
    · have hbx : (x == k0) = false := beq_eq_false_iff_ne.2 hxe
      have hbs : ((some x : Option String) == some k0) = false := by
        rw [beq_eq_false_iff_ne]
        intro hcc
        exact hxe (Option.some.inj hcc)
      have hbs2 : ((some k0 : Option String) == some x) = false := by
        rw [beq_eq_false_iff_ne]
        intro hcc
        exact hxe (Option.some.inj hcc).symm
      simp only [hbx, Bool.false_eq_true, if_false, List.count_cons, hbs, hbs2]
      refine congrArg _ ?_
      push_cast
      ring

theorem buildDeg_fold_shape :
    ∀ (E : List (String × List (Option String))) (l : List String)
      (w : String → Int),
      (∀ p ∈ E, ∀ ch ∈ p.2, ∃ kj, ch = some kj ∧ kj ∈ l) →
      E.foldl (fun deg p =>
          p.2.foldl (fun d child => degSet d child (degGet d child + 1)) deg)
        (l.map (fun x => ((some x : Option String), w x))) =
        l.map (fun x => ((some x : Option String),
          w x + ((E.map (fun p => p.2.count (some x))).sum : Int))) := by
  intro E
  induction E with
  | nil =>
    intro l w _
    rw [List.foldl_nil]
    refine (List.map_congr_left ?_).symm
    intro x _
    simp
  | cons p tail ih =>
    intro l w hall
    rw [List.foldl_cons, incfold_shape p.2 l w (hall p (List.mem_cons_self _ _))]
    rw [ih l (fun x => w x + (p.2.count (some x) : Int))
      (fun q hq => hall q (List.mem_cons_of_mem _ hq))]
    refine List.map_congr_left ?_
    intro x _
    refine congrArg _ ?_
    rw [List.map_cons, List.sum_cons]
    ring

theorem buildDeg_eq (l : List String) (E : List (String × List (Option String)))
    (h : ∀ p ∈ E, ∀ ch ∈ p.2, ∃ kj, ch = some kj ∧ kj ∈ l) :
    buildDeg l E = l.map (fun x => ((some x : Option String),
      ((E.map (fun p => p.2.count (some x))).sum : Int))) := by
  unfold buildDeg
  refine (buildDeg_fold_shape E l (fun _ => 0) h).trans ?_
  refine List.map_congr_left ?_
  intro x _
  refine congrArg _ ?_
  ring

theorem depsAdd_keys_nodup {d : List (String × List (Option String))}
    {c0 : String} {ch0 : Option String} (h : (d.map Prod.fst).Nodup) :
    ((depsAdd d c0 ch0).map Prod.fst).Nodup := by
  unfold depsAdd
  split
  · have heq : (d.map (fun p =>
        if p.1 == c0 then (p.1, if p.2.contains ch0 then p.2 else p.2 ++ [ch0])
        else p)).map Prod.fst = d.map Prod.fst := by
      rw [List.map_map]
      refine List.map_congr_left ?_
      intro p _
      by_cases hp : (p.1 == c0) = true
      · simp [eq_of_beq hp]
      · rw [Bool.not_eq_true] at hp
        simp [beq_eq_false_iff_ne.1 hp]
    rw [heq]
    exact h
  · rename_i hany
    rw [List.map_append, List.nodup_append]
    refine ⟨h, by simp, ?_⟩
    intro a ha hmem
    simp only [List.map_cons, List.map_nil, List.mem_singleton] at hmem
    subst hmem
    obtain ⟨p, hp, hpe⟩ := List.mem_map.1 ha
    refine hany ?_
    refine List.any_eq_true.2 ⟨p, hp, ?_⟩
    rw [hpe]
    exact beq_self_eq_true _

theorem fixD_fold_keys_nodup (ids : List String) :
    ∀ (todo : List ClientRow) (d : List (String × List (Option String))),
      (d.map Prod.fst).Nodup →
      (((todo.foldl (fixD ids) d)).map Prod.fst).Nodup := by
  intro todo
  induction todo with
  | nil =>
    intro d h
    exact h
  | cons r tail ih =>
    intro d h
    rw [List.foldl_cons]
    refine ih _ ?_
    unfold fixD
    rcases edgePar ids r with _ | c0
    · exact h
    · exact depsAdd_keys_nodup h

theorem depsCh_of_mem {D : List (String × List (Option String))}
    (hnd : (D.map Prod.fst).Nodup) {p : String × List (Option String)}
    (hp : p ∈ D) : depsCh D p.1 = p.2 := by
  have hg : alistGet D p.1 = some p.2 := alistGet_of_mem_nodup hnd hp
  unfold alistGet at hg
  unfold depsCh
  rw [hg]
  rfl

theorem sum_counts_zero {D : List (String × List (Option String))}
    {k : Option String} (hnone : ∀ p ∈ D, k ∉ p.2) :
    (D.map (fun p => p.2.count k)).sum = 0 := by
  refine List.sum_eq_zero ?_
  intro x hx
  obtain ⟨p, hp, hpe⟩ := List.mem_map.1 hx
  rw [← hpe, List.count_eq_zero]
  exact hnone p hp

theorem count_eq_one_of_mem' {α : Type} [BEq α] [LawfulBEq α] :
    ∀ {l : List α}, l.Nodup → ∀ {a : α}, a ∈ l → l.count a = 1 := by
  intro l
  induction l with
  | nil =>
    intro _ a ha
    cases ha
  | cons b tail ih =>
    intro hnd a ha
    rw [List.nodup_cons] at hnd
    rw [List.count_cons]
    rcases List.mem_cons.1 ha with heq | hmem
    · subst heq
      have hz : tail.count a = 0 := List.count_eq_zero.2 hnd.1
      rw [hz, beq_self_eq_true]
      rfl
    · have hne : (b == a) = false := by
        rw [beq_eq_false_iff_ne]
        intro he
        rw [he] at hnd
        exact hnd.1 hmem
      rw [ih hnd.2 hmem, hne]
      rfl

theorem sum_counts_one {D : List (String × List (Option String))}
    {c : String} {k : Option String}
    (hnd : (D.map Prod.fst).Nodup)
    (hchnd : ∀ p ∈ D, p.2.Nodup)
    (hq : ∃ q ∈ D, q.1 = c ∧ k ∈ q.2)
    (honly : ∀ p ∈ D, k ∈ p.2 → p.1 = c) :
    (D.map (fun p => p.2.count k)).sum = 1 := by
  obtain ⟨q, hqmem, hqc, hqk⟩ := hq
  obtain ⟨A, B, hAB⟩ := List.append_of_mem hqmem
  subst hAB
  rw [List.map_append, List.map_cons, List.sum_append, List.sum_cons]
  have hkeynd := hnd
  rw [List.map_append, List.map_cons, List.nodup_append] at hkeynd
  have hcountq : q.2.count k = 1 :=
    count_eq_one_of_mem' (hchnd q hqmem) hqk
  have hside : ∀ p ∈ A ++ B, k ∉ p.2 := by
    intro p hp hkp
    have hpc : p.1 = c := honly p (by
      rcases List.mem_append.1 hp with h | h
      · exact List.mem_append_left _ h
      · exact List.mem_append_right _ (List.mem_cons_of_mem _ h)) hkp
    rcases List.mem_append.1 hp with h | h
    · refine hkeynd.2.2 (List.mem_map_of_mem Prod.fst h) ?_
      rw [hpc, ← hqc]
      exact List.mem_cons_self _ _
    · have hnd2 := hkeynd.2.1
      rw [List.nodup_cons] at hnd2
      refine hnd2.1 ?_
      rw [hqc, ← hpc]
      exact List.mem_map_of_mem Prod.fst h
  have hA : (A.map (fun p => p.2.count k)).sum = 0 :=
    sum_counts_zero (fun p hp => hside p (List.mem_append_left _ hp))
  have hB : (B.map (fun p => p.2.count k)).sum = 0 :=
    sum_counts_zero (fun p hp => hside p (List.mem_append_right _ hp))
  rw [hA, hB, hcountq]
  omega

theorem map_cast_sum (D : List (String × List (Option String)))
    (k : Option String) :
    (D.map (fun p => ((p.2.count k : Int)))).sum =
      ((((D.map (fun p => p.2.count k)).sum : Nat)) : Int) := by
  induction D with
  | nil => rfl
  | cons p tail ih =>
    rw [List.map_cons, List.sum_cons, ih, List.map_cons, List.sum_cons]
    push_cast
    ring

theorem fuel_eq (l : List String) (v : String → Int) (Q : List (Option String))
    (hvq : ∀ x ∈ l, (v x).toNat = if !(Q.contains (some x)) then 1 else 0) :
    kahnFuel Q (l.map (fun x => ((some x : Option String), v x))) =
      Q.length + (l.filter (fun x =>
        !(([] : List String).contains x) && !(Q.contains (some x)))).length := by
  rw [kahnFuel_shape]
  refine congrArg _ ?_
  refine sum_indicator l v _ ?_
  intro x hx
  rw [hvq x hx]
  rfl

theorem sort_rows_ordered (rows : List ClientRow) (rank : String → Nat)
    (h1 : ∀ r ∈ rows, pyTruthy r.client_id = true)
    (h2 : (rows.map (fun r => r.client_id)).Nodup)
    (h3 : ∀ r ∈ rows, ∀ c k, truthyVal r.colony = some c →
      r.client_id = some k → (∃ p ∈ rows, p.client_id = some c) → c ≠ k →
      rank c < rank k) :
    colonyRefOrderedB rows (sort_rows_for_foreign_key rows) = true ∧
    (sort_rows_for_foreign_key rows).length = rows.length := by
  by_cases hemp : rows.isEmpty = true
  · have hnil : rows = [] := by
      cases rows
      · rfl
      · simp at hemp
    subst hnil
    exact ⟨by decide, rfl⟩
  · rw [Bool.not_eq_true] at hemp
    have hIDSnd : (rows.map keyOf).Nodup := keyOf_nodup h1 h2
    have hbm := buildClientMap_eq h1 h2
    have hids := buildClientMap_ids_eq h1 h2
    have hfix : rows.foldl (fixStep (rows.map keyOf))
        (rows.map (fun r => (keyOf r, r)), []) =
        (rows.map (fun r => (keyOf r, fixRow (rows.map keyOf) r)),
         rows.foldl (fixD (rows.map keyOf)) []) := by
      rw [fixfold_pair]
      refine congrArg₂ Prod.mk ?_ rfl
      have hres := fixM_fold_eq (rows.map keyOf) rows [] (by simpa using h1)
        (by simpa using hIDSnd)
      simpa using hres
    have hMkeysnd : ((rows.map (fun r => (keyOf r, fixRow (rows.map keyOf) r))).map
        Prod.fst).Nodup := by
      rw [List.map_map]
      exact hIDSnd
    have hemit : ∀ k ∈ rows.map keyOf, ∃ rk ∈ rows, keyOf rk = k ∧
        dictGet (rows.map (fun r => (keyOf r, fixRow (rows.map keyOf) r))) k =
          some (fixRow (rows.map keyOf) rk) := by
      intro k hk
      obtain ⟨rk, hrk, hkeq⟩ := List.mem_map.1 hk
      refine ⟨rk, hrk, hkeq, ?_⟩
      have hmem : (k, fixRow (rows.map keyOf) rk) ∈
          rows.map (fun r => (keyOf r, fixRow (rows.map keyOf) r)) := by
        rw [← hkeq]
        exact List.mem_map_of_mem _ hrk
      exact alistGet_of_mem_nodup hMkeysnd hmem
    have HmSome : ∀ k ∈ rows.map keyOf, (dictGet
        (rows.map (fun r => (keyOf r, fixRow (rows.map keyOf) r))) k).isSome =
          true := by
      intro k hk
      obtain ⟨rk, _, _, hdget⟩ := hemit k hk
      rw [hdget]
      rfl
    have hDkeys : ((rows.foldl (fixD (rows.map keyOf)) []).map Prod.fst).Nodup :=
      fixD_fold_keys_nodup _ rows [] (by simp)
    have hN3 : ∀ c, (depsCh (rows.foldl (fixD (rows.map keyOf)) []) c).Nodup :=
      fixD_fold_nodup _ rows [] (fun c => List.nodup_nil)
    have hN1 : ∀ c ch, ch ∈ depsCh (rows.foldl (fixD (rows.map keyOf)) []) c →
        ∃ kk, ch = some kk ∧ Pedge (rows.map keyOf) rows c kk := by
      intro c ch hch
      rcases fixD_fold_mem _ rows [] c ch hch with h | ⟨r, hr, hpar, hid⟩
      · cases h
      · refine ⟨keyOf r, ?_, ⟨r, hr, hpar, (rowKey_eq_keyOf (h1 r hr)).2⟩⟩
        rw [← hid]
        exact (rowKey_eq_keyOf (h1 r hr)).2
    have hN2 : ∀ c kk, Pedge (rows.map keyOf) rows c kk →
        (some kk : Option String) ∈
          depsCh (rows.foldl (fixD (rows.map keyOf)) []) c := by
      intro c kk he
      obtain ⟨r, hr, hpar, hid⟩ := he
      have hc := fixD_fold_complete _ rows [] r c hr hpar
      rw [hid] at hc
      exact hc
    have hchclosed : ∀ p ∈ rows.foldl (fixD (rows.map keyOf)) [],
        ∀ ch ∈ p.2, ∃ kj, ch = some kj ∧ kj ∈ rows.map keyOf := by
      intro p hp ch hch
      rw [← depsCh_of_mem hDkeys hp] at hch
      obtain ⟨kk, hke, hE⟩ := hN1 p.1 ch hch
      exact ⟨kk, hke, (Pedge_facts h1 hE).2.1⟩
    have hdeg0 := buildDeg_eq (rows.map keyOf)
      (rows.foldl (fixD (rows.map keyOf)) []) hchclosed
    have hchnd' : ∀ p ∈ rows.foldl (fixD (rows.map keyOf)) [], p.2.Nodup := by
      intro p hp
      rw [← depsCh_of_mem hDkeys hp]
      exact hN3 p.1
    have hv1 : ∀ k ∈ rows.map keyOf,
        (∃ c, Pedge (rows.map keyOf) rows c k ∧ c ∉ ([] : List String)) →
        ((((rows.foldl (fixD (rows.map keyOf)) []).map
          (fun p => p.2.count (some k))).sum : Int)) = 1 := by
      intro k hk hex
      obtain ⟨c, hE, _⟩ := hex
      have hmemk := hN2 c k hE
      have hentry : ∃ q ∈ rows.foldl (fixD (rows.map keyOf)) [],
          q.1 = c ∧ (some k : Option String) ∈ q.2 := by
        unfold depsCh at hmemk
        rcases hfind : (rows.foldl (fixD (rows.map keyOf)) []).find?
            (fun p => p.1 == c) with _ | q
        · rw [hfind] at hmemk
          simp at hmemk
        · rw [hfind] at hmemk
          refine ⟨q, List.mem_of_find?_eq_some hfind, ?_, by simpa using hmemk⟩
          have hpq := List.find?_some hfind
          simp only at hpq
          exact eq_of_beq hpq
      have honly' : ∀ p ∈ rows.foldl (fixD (rows.map keyOf)) [],
          (some k : Option String) ∈ p.2 → p.1 = c := by
        intro p hp hkp
        rw [← depsCh_of_mem hDkeys hp] at hkp
        obtain ⟨kk, hke, hE'⟩ := hN1 p.1 _ hkp
        have hkk : kk = k := Option.some.inj hke.symm
        subst hkk
        exact Pedge_unique h2 hE' hE
      rw [map_cast_sum, sum_counts_one hDkeys hchnd' hentry honly']
      rfl
    have hv0' : ∀ k ∈ rows.map keyOf,
        (∀ c, Pedge (rows.map keyOf) rows c k → c ∈ ([] : List String)) →
        ((((rows.foldl (fixD (rows.map keyOf)) []).map
          (fun p => p.2.count (some k))).sum : Int)) = 0 := by
      intro k _ hall
      have hnone : ∀ p ∈ rows.foldl (fixD (rows.map keyOf)) [],
          (some k : Option String) ∉ p.2 := by
        intro p hp hkp
        rw [← depsCh_of_mem hDkeys hp] at hkp
        obtain ⟨kk, hke, hE'⟩ := hN1 p.1 _ hkp
        have hkk : kk = k := Option.some.inj hke.symm
        subst hkk
        exact absurd (hall p.1 hE') (List.not_mem_nil _)
      rw [map_cast_sum, sum_counts_zero hnone]
      rfl
    have hv01 : ∀ k ∈ rows.map keyOf,
        ((((rows.foldl (fixD (rows.map keyOf)) []).map
          (fun p => p.2.count (some k))).sum : Int)) = 0 ∨
        ((((rows.foldl (fixD (rows.map keyOf)) []).map
          (fun p => p.2.count (some k))).sum : Int)) = 1 := by
      intro k hk
      by_cases hpar : ∃ c, Pedge (rows.map keyOf) rows c k
      · right
        obtain ⟨c, hc⟩ := hpar
        exact hv1 k hk ⟨c, hc, List.not_mem_nil _⟩
      · left
        refine hv0' k hk ?_
        intro c hc
        exact absurd ⟨c, hc⟩ hpar
    have hQmem : ∀ x, ((some x : Option String) ∈
        ((rows.map keyOf).filter (fun i => degGet
          (buildDeg (rows.map keyOf) (rows.foldl (fixD (rows.map keyOf)) []))
          (some i) == 0)).map some ↔
        x ∈ rows.map keyOf ∧
        ((((rows.foldl (fixD (rows.map keyOf)) []).map
          (fun p => p.2.count (some x))).sum : Int)) = 0) := by
      intro x
      constructor
      · intro hx
        obtain ⟨i, hif, hie⟩ := List.mem_map.1 hx
        have hix : i = x := Option.some.inj hie
        subst hix
        have hmf := List.mem_filter.1 hif
        refine ⟨hmf.1, ?_⟩
        have hpred := hmf.2
        rw [hdeg0, degGet_shape _ _ _ hmf.1] at hpred
        exact eq_of_beq hpred
      · intro hx
        refine List.mem_map_of_mem _ ?_
        refine List.mem_filter.2 ⟨hx.1, ?_⟩
        rw [hdeg0, degGet_shape _ _ _ hx.1]
        rw [hx.2]
        exact beq_self_eq_true _
    have hQnd : (((rows.map keyOf).filter (fun i => degGet
        (buildDeg (rows.map keyOf) (rows.foldl (fixD (rows.map keyOf)) []))
        (some i) == 0)).map some).Nodup :=
      List.Nodup.map (Option.some_injective String) (hIDSnd.filter _)
    have hI3q : ∀ k c, (some k : Option String) ∈
        ((rows.map keyOf).filter (fun i => degGet
          (buildDeg (rows.map keyOf) (rows.foldl (fixD (rows.map keyOf)) []))
          (some i) == 0)).map some →
        Pedge (rows.map keyOf) rows c k → c ∈ ([] : List String) := by
      intro k c hkq hE
      have h0 := ((hQmem k).1 hkq).2
      have h1' := hv1 k ((hQmem k).1 hkq).1 ⟨c, hE, List.not_mem_nil _⟩
      rw [h0] at h1'
      exact absurd h1' (by decide)
    have hI5q : ∀ k ∈ rows.map keyOf, k ∉ ([] : List String) →
        (some k : Option String) ∉
          ((rows.map keyOf).filter (fun i => degGet
            (buildDeg (rows.map keyOf) (rows.foldl (fixD (rows.map keyOf)) []))
            (some i) == 0)).map some →
        ∃ c, Pedge (rows.map keyOf) rows c k ∧ c ∉ ([] : List String) := by
      intro k hk _ hkq
      by_cases hpar : ∃ c, Pedge (rows.map keyOf) rows c k
      · obtain ⟨c, hc⟩ := hpar
        exact ⟨c, hc, List.not_mem_nil _⟩
      · exfalso
        refine hkq ((hQmem k).2 ⟨hk, ?_⟩)
        refine hv0' k hk ?_
        intro c hc
        exact absurd ⟨c, hc⟩ hpar
    have hvq : ∀ x ∈ rows.map keyOf,
        (((((rows.foldl (fixD (rows.map keyOf)) []).map
          (fun p => p.2.count (some x))).sum : Int))).toNat =
        if !((((rows.map keyOf).filter (fun i => degGet
          (buildDeg (rows.map keyOf) (rows.foldl (fixD (rows.map keyOf)) []))
          (some i) == 0)).map some).contains (some x)) then 1 else 0 := by
      intro x hx
      cases hcq : ((((rows.map keyOf).filter (fun i => degGet
          (buildDeg (rows.map keyOf) (rows.foldl (fixD (rows.map keyOf)) []))
          (some i) == 0)).map some).contains
          (some x)) with
      | true =>
        have hmem := contains_iff_mem.1 hcq
        have hv := ((hQmem x).1 hmem).2
        rw [hv]
        rfl
      | false =>
        have hnmem : (some x : Option String) ∉ _ :=
          (contains_eq_false_iff _ _).1 hcq
        have hvne : ¬ ((((rows.foldl (fixD (rows.map keyOf)) []).map
            (fun p => p.2.count (some x))).sum : Int)) = 0 :=
          fun h0 => hnmem ((hQmem x).2 ⟨hx, h0⟩)
        have hv : ((((rows.foldl (fixD (rows.map keyOf)) []).map
            (fun p => p.2.count (some x))).sum : Int)) = 1 := by
          rcases hv01 x hx with h | h
          · exact absurd h hvne
          · exact h
        rw [hv]
        rfl
    have hfuel := fuel_eq (rows.map keyOf)
      (fun x => ((((rows.foldl (fixD (rows.map keyOf)) []).map
        (fun p => p.2.count (some x))).sum : Int)))
      ((((rows.map keyOf).filter (fun i => degGet
        (buildDeg (rows.map keyOf) (rows.foldl (fixD (rows.map keyOf)) []))
        (some i) == 0)).map some)) hvq
    rw [← hdeg0] at hfuel
    obtain ⟨done', hsorted, hnd', hsub', hord', hfinal5⟩ :=
      kahn_main (rows.map (fun r => (keyOf r, fixRow (rows.map keyOf) r)))
        (rows.foldl (fixD (rows.map keyOf)) [])
        (rows.map keyOf) (Pedge (rows.map keyOf) rows)
        HmSome hN1 hN2 hN3
        (fun c c' kk he he' => Pedge_unique h2 he he')
        (fun c kk he => Pedge_facts h1 he)
        (kahnFuel
          (((rows.map keyOf).filter (fun i => degGet
            (buildDeg (rows.map keyOf) (rows.foldl (fixD (rows.map keyOf)) []))
            (some i) == 0)).map some)
          (buildDeg (rows.map keyOf) (rows.foldl (fixD (rows.map keyOf)) [])))
        ⟨(((rows.map keyOf).filter (fun i => degGet
            (buildDeg (rows.map keyOf) (rows.foldl (fixD (rows.map keyOf)) []))
            (some i) == 0)).map some),
          buildDeg (rows.map keyOf) (rows.foldl (fixD (rows.map keyOf)) []), []⟩
        [] (fun x => ((((rows.foldl (fixD (rows.map keyOf)) []).map
          (fun p => p.2.count (some x))).sum : Int)))
        rfl
        (by
          intro q hq
          obtain ⟨i, hif, hie⟩ := List.mem_map.1 hq
          exact ⟨i, hie.symm, List.mem_of_mem_filter hif⟩)
        (by simpa using hQnd)
        (fun k hk => absurd hk (List.not_mem_nil _))
        hI3q
        (fun i hi => absurd hi (Nat.not_lt_zero i))
        hdeg0 hv1 hv0' hI5q
        (le_of_eq hfuel.symm)
    have hcomp : ∀ k ∈ rows.map keyOf, k ∈ done' := by
      have haux : ∀ n, ∀ k ∈ rows.map keyOf, rank k ≤ n → k ∈ done' := by
        intro n
        induction n using Nat.strong_induction_on with
        | _ n ihn =>
          intro k hk hle
          by_contra hkd
          obtain ⟨c, hE, hcd⟩ := hfinal5 k hk hkd
          obtain ⟨r, hr, hpar, hid⟩ := hE
          obtain ⟨hcol, hcont, hne⟩ := edgePar_some hpar
          have hcids : c ∈ rows.map keyOf := contains_iff_mem.1 hcont
          obtain ⟨rc, hrc, hrce⟩ := List.mem_map.1 hcids
          have hrcid : rc.client_id = some c := by
            rw [← hrce]
            exact (rowKey_eq_keyOf (h1 rc hrc)).2
          have hck : c ≠ k := by
            intro he
            rw [hid, he] at hne
            simp at hne
          have hrank : rank c < rank k := h3 r hr c k hcol hid ⟨rc, hrc, hrcid⟩ hck
          exact hcd (ihn (rank c) (by omega) c hcids (le_refl _))
      exact fun k hk => haux (rank k) k hk (le_refl _)
    have hadded : ∀ k ∈ rows.map keyOf,
        (((done'.map (emitOf (rows.map
          (fun r => (keyOf r, fixRow (rows.map keyOf) r))))).filterMap
          rowKey).contains k) = true := by
      intro k hk
      have hkdone : k ∈ done' := hcomp k hk
      obtain ⟨rk, hrk, hke, hdget⟩ := hemit k hk
      refine contains_iff_mem.2 ?_
      refine List.mem_filterMap.2
        ⟨emitOf (rows.map (fun r => (keyOf r, fixRow (rows.map keyOf) r))) k,
          List.mem_map_of_mem _ hkdone, ?_⟩
      have hee : emitOf (rows.map (fun r => (keyOf r, fixRow (rows.map keyOf) r)))
          k = fixRow (rows.map keyOf) rk := by
        unfold emitOf
        rw [hdget]
        rfl
      rw [hee, rowKey_fixRow, ← hke]
      exact (rowKey_eq_keyOf (h1 rk hrk)).1
    have hlen : done'.length = rows.length := by
      have hsubset1 : done' ⊆ rows.map keyOf := fun a ha => hsub' a ha
      have hsubset2 : rows.map keyOf ⊆ done' := fun a ha => hcomp a ha
      have hle1 := (hnd'.subperm hsubset1).length_le
      have hle2 := (hIDSnd.subperm hsubset2).length_le
      have hml : (rows.map keyOf).length = rows.length := List.length_map _ _
      omega
    simp only [sort_rows_for_foreign_key, hemp, Bool.false_eq_true, if_false]
    rw [hids, hbm, hfix]
    simp only []
    rw [hsorted]
    have hleft : rows.filter (fun r =>
        match rowKey r with
        | some k => !(((done'.map (emitOf (rows.map
            (fun r => (keyOf r, fixRow (rows.map keyOf) r))))).filterMap
            rowKey).contains k)
        | none => false) = [] := by
      refine List.filter_eq_nil_iff.2 ?_
      intro r hr
      have hkey := (rowKey_eq_keyOf (h1 r hr)).1
      simp only [hkey]
      rw [hadded (keyOf r) (List.mem_map_of_mem _ hr)]
      simp
    rw [hleft, List.append_nil]
    constructor
    · unfold colonyRefOrderedB
      refine List.all_eq_true.2 ?_
      intro i hi
      rw [List.mem_range] at hi
      have hi' : i < done'.length := by
        rw [List.length_map] at hi
        exact hi
      simp only []
      have higet : (done'.map (emitOf (rows.map
          (fun r => (keyOf r, fixRow (rows.map keyOf) r))))).getD i
          ⟨none, none, 0⟩ =
          emitOf (rows.map (fun r => (keyOf r, fixRow (rows.map keyOf) r)))
            done'[i] := by
        rw [List.getD_eq_getElem _ _ hi, List.getElem_map]
      rw [higet]
      rcases hcol : truthyVal (emitOf (rows.map
          (fun r => (keyOf r, fixRow (rows.map keyOf) r)))
          done'[i]).colony with _ | p
      · rfl
      · simp only []
        by_cases hcond : ((emitOf (rows.map
            (fun r => (keyOf r, fixRow (rows.map keyOf) r)))
            done'[i]).client_id != some p &&
            rows.any (fun x => x.client_id == some p)) = true
        · rw [if_pos hcond]
          have hkin : done'[i] ∈ rows.map keyOf :=
            hsub' _ (List.getElem_mem hi')
          obtain ⟨ri, hri, hrie, hdget⟩ := hemit done'[i] hkin
          have hemiteq : emitOf (rows.map
              (fun r => (keyOf r, fixRow (rows.map keyOf) r))) done'[i] =
              fixRow (rows.map keyOf) ri := by
            unfold emitOf
            rw [hdget]
            rfl
          rw [hemiteq] at hcol
          obtain ⟨hcolr, hcontp⟩ := fixRow_colony_cases hcol
          rw [Bool.and_eq_true] at hcond
          have hbne := hcond.1
          rw [hemiteq, fixRow_client_id] at hbne
          have hne : (ri.client_id == some p) = false := by
            rw [bne_iff_ne] at hbne
            exact beq_eq_false_iff_ne.2 hbne
          have hEip : edgePar (rows.map keyOf) ri = some p := by
            unfold edgePar
            simp only [hcolr, hcontp, hne, Bool.true_and, Bool.not_false,
              if_true]
          have hidr : ri.client_id = some done'[i] := by
            rw [← hrie]
            exact (rowKey_eq_keyOf (h1 ri hri)).2
          have hped : Pedge (rows.map keyOf) rows p done'[i] :=
            ⟨ri, hri, hEip, hidr⟩
          have htake := hord' i hi' p hped
          have hptake : emitOf (rows.map
              (fun r => (keyOf r, fixRow (rows.map keyOf) r))) p ∈
              (done'.map (emitOf (rows.map
                (fun r => (keyOf r, fixRow (rows.map keyOf) r))))).take i := by
            rw [← List.map_take]
            exact List.mem_map_of_mem _ htake
          refine List.any_eq_true.2
            ⟨emitOf (rows.map (fun r => (keyOf r, fixRow (rows.map keyOf) r))) p,
              hptake, ?_⟩
          have hpin : p ∈ rows.map keyOf := (Pedge_facts h1 hped).1
          obtain ⟨rp, hrp, hrpe, hpdget⟩ := hemit p hpin
          have hpe : emitOf (rows.map
              (fun r => (keyOf r, fixRow (rows.map keyOf) r))) p =
              fixRow (rows.map keyOf) rp := by
            unfold emitOf
            rw [hpdget]
            rfl
          rw [hpe, fixRow_client_id]
          have hrpid : rp.client_id = some p := by
            rw [← hrpe]
            exact (rowKey_eq_keyOf (h1 rp hrp)).2
          rw [hrpid]
          exact beq_self_eq_true _
        · rw [if_neg hcond]
    · rw [List.length_map]
      exact hlen

/-! ## Claim theorems -/

/-- C10: `sort_rows_for_foreign_key` silently drops every row whose
client id (tuple index 0) is null or empty: every row of the output has
a truthy client id, so rows with a falsy id appear neither in the
topological output nor in the trailing leftover pass, and the output
can only be a permutation of the input when every input row has a
non-empty client id. -/
theorem claim_C10_sort_drops_falsy_ids (rows : List ClientRow) :
    ∀ r ∈ sort_rows_for_foreign_key rows, pyTruthy r.client_id = true :=
  sorted_rows_truthy rows

/-- C10 witness: at a concrete singleton input the output row has a
truthy client id. -/
theorem claim_C10_sort_drops_falsy_ids_witness :
    (⟨some "A", none, 1⟩ : ClientRow) ∈ sort_rows_for_foreign_key [⟨some "A", none, 1⟩] ∧
    pyTruthy (some "A") = true :=
  ⟨by decide,
   claim_C10_sort_drops_falsy_ids [⟨some "A", none, 1⟩] ⟨some "A", none, 1⟩ (by decide)⟩

/-- C2 counterexample: `get_space_rows` does not always emit the row
built from the first record bearing a key.  With a first record bearing
key `"S"` but lacking a building id and a second record bearing `"S"`
with one, the single emitted row carries the second record's name
`"Y"`, while any row built from the first record would carry its name
`"X"`. -/
theorem claim_C2_counterexample :
    List.find? (fun rc : CsvRecord => truthyVal rc.spaces_id == some "S")
      ([{ spaces_id := some "S", spaces_name := some "X" },
        { spaces_id := some "S", building_id := some "B", spaces_name := some "Y" }] :
        List CsvRecord) =
      some { spaces_id := some "S", spaces_name := some "X" } ∧
    (get_space_rows
      [{ spaces_id := some "S", spaces_name := some "X" },
       { spaces_id := some "S", building_id := some "B", spaces_name := some "Y" }]).map
      (fun r => r.name) = [some "Y"] ∧
    (some "Y" : Option String) ≠ some "X" ∧
    CsvRecord.spaces_name { spaces_id := some "S", spaces_name := some "X" } = some "X" := by
  refine ⟨by decide, ?_, by decide, by decide⟩
  decide

/-- C2 (amended): each per-entity extraction function emits at most one
row per distinct natural key; for subcommunities, buildings, assets and
data points the emitted row is built from the first record of the input
sequence bearing that key, while for spaces it is built from the first
record bearing that key that also passes the validity filter of
`get_space_rows` (key not the literal `"null"` and a truthy building
id) — an invalid first duplicate is skipped without marking the key
seen. -/
theorem claim_C2_dedup_first_valid_wins (data : List CsvRecord)
    (atm : List (String × String)) :
    (((get_subcommunity_rows data).map (fun b => b.identifier)).Nodup ∧
      ∀ row ∈ get_subcommunity_rows data, ∃ rec,
        data.find? (bearsSubKey row.identifier) = some rec ∧
        row = mkSubRow row.identifier rec) ∧
    (((get_building_rows data).map (fun b => b.identifier)).Nodup ∧
      ∀ row ∈ get_building_rows data, ∃ rec,
        data.find? (bearsBuildingKey row.identifier) = some rec ∧
        row = mkBuildingRow row.identifier rec) ∧
    (((get_space_rows data).map (fun b => b.identifier)).Nodup ∧
      ∀ row ∈ get_space_rows data, ∃ rec,
        data.find? (bearsSpaceKeyValid row.identifier) = some rec ∧
        ∃ b, truthyVal rec.building_id = some b ∧
          row = mkSpaceRow row.identifier b rec) ∧
    (((get_asset_rows data atm).map (fun b => b.identifier)).Nodup ∧
      ∀ row ∈ get_asset_rows data atm, ∃ rec,
        data.find? (bearsAssetKey row.identifier) = some rec ∧
        row = mkAssetRow row.identifier atm rec) ∧
    (((get_data_point_rows data).map (fun e => e.2.name)).Nodup ∧
      ∀ e ∈ get_data_point_rows data, ∃ rec,
        data.find? (bearsPointKey e.2.name) = some rec ∧
        e = (rec.data_point_id, mkDataPointRowData e.2.name rec)) :=
  ⟨subRows_spec data, buildingRows_spec data, spaceRows_spec data,
   assetRows_spec data atm, dataPointRows_spec data⟩

/-- C2 witness: at the two-record space input, the emitted space row is
built from the first record bearing key `"S"` that passes the validity
filter. -/
theorem claim_C2_dedup_first_valid_wins_witness :
    (mkSpaceRow "S" "B"
        { spaces_id := some "S", building_id := some "B", spaces_name := some "Y" } ∈
      get_space_rows
        [{ spaces_id := some "S", spaces_name := some "X" },
         { spaces_id := some "S", building_id := some "B", spaces_name := some "Y" }]) ∧
    ∃ rec,
      List.find? (bearsSpaceKeyValid
          (mkSpaceRow "S" "B"
            { spaces_id := some "S", building_id := some "B",
              spaces_name := some "Y" }).identifier)
        [{ spaces_id := some "S", spaces_name := some "X" },
         { spaces_id := some "S", building_id := some "B", spaces_name := some "Y" }] =
        some rec ∧
      ∃ b, truthyVal rec.building_id = some b ∧
        mkSpaceRow "S" "B"
          { spaces_id := some "S", building_id := some "B", spaces_name := some "Y" } =
        mkSpaceRow
          (mkSpaceRow "S" "B"
            { spaces_id := some "S", building_id := some "B",
              spaces_name := some "Y" }).identifier b rec :=
  ⟨by decide,
   ((claim_C2_dedup_first_valid_wins
      [{ spaces_id := some "S", spaces_name := some "X" },
       { spaces_id := some "S", building_id := some "B", spaces_name := some "Y" }]
      []).2.2.1).2
     (mkSpaceRow "S" "B"
       { spaces_id := some "S", building_id := some "B", spaces_name := some "Y" })
     (by decide)⟩

/-- C7: in `migrate_assets`, an asset-space pair is loaded exactly when
its space id is an identifier present in the target store's space
table; pairs with an absent space id are excluded from the load
entirely (dropped in memory and logged, no insert attempted and no
error raised). -/
theorem claim_C7_asset_space_referential_filter (storeSpaces : List String)
    (data : List CsvRecord) (p : String × String) :
    p ∈ validate_asset_spaces storeSpaces (get_asset_space_rows data) ↔
    p ∈ get_asset_space_rows data ∧ p.2 ∈ storeSpaces := by
  unfold validate_asset_spaces
  rw [List.mem_filter]
  constructor
  · rintro ⟨hmem, hcont⟩
    refine ⟨hmem, ?_⟩
    have hv := contains_iff_mem.1 hcont
    rw [dedupFirst_mem] at hv
    exact (List.mem_filter.1 hv).1
  · rintro ⟨hmem, hstore⟩
    refine ⟨hmem, ?_⟩
    apply contains_iff_mem.2
    rw [dedupFirst_mem]
    rw [List.mem_filter]
    refine ⟨hstore, ?_⟩
    apply contains_iff_mem.2
    rw [dedupFirst_mem]
    exact List.mem_map_of_mem Prod.snd hmem

/-- C7 witness: a pair whose space id is stored is kept at a concrete
input. -/
theorem claim_C7_asset_space_referential_filter_witness :
    ((("a1", "SP1") ∈
        get_asset_space_rows [{ asset_id := some "a1", spaces_id := some "SP1" }]) ∧
      "SP1" ∈ ["SP1"]) ∧
    ("a1", "SP1") ∈ validate_asset_spaces ["SP1"]
      (get_asset_space_rows [{ asset_id := some "a1", spaces_id := some "SP1" }]) :=
  ⟨⟨by decide, by decide⟩,
   (claim_C7_asset_space_referential_filter ["SP1"]
      [{ asset_id := some "a1", spaces_id := some "SP1" }] ("a1", "SP1")).2
     ⟨by decide, by decide⟩⟩

/-- C5 counterexample: the asset-space existence check is not
case-insensitive and substitutes nothing back: with the space stored as
`"SP1"`, a pair referencing `"sp1"` is dropped entirely, while the
subcommunity check at the analogous input is case-insensitive and
substitutes the stored casing. -/
theorem claim_C5_counterexample :
    validate_asset_spaces ["SP1"] [("a1", "sp1")] = [] ∧
    validate_subcommunities ["EMAAR"]
      [⟨"s1", none, none, "ACTIVE", some "emaar", none, none⟩] =
      [⟨"s1", none, none, "ACTIVE", some "EMAAR", none, none⟩] := by
  constructor
  · decide
  · decide

/-- C5 (amended): both pre-load referential checks are evaluated in
memory from one batched query over the distinct referenced keys, but
they differ: the subcommunity-to-client check is case-insensitive and
substitutes the canonical stored casing back into the row (with a
stored empty-string client id never reused), while the asset-space
check is an exact, case-sensitive membership filter that leaves the
pairs unchanged. -/
theorem claim_C5_referential_validation (storeClients : List String)
    (rows : List SubRow) (storeSpaces : List String)
    (pairs : List (String × String)) :
    (∀ row' ∈ validate_subcommunities storeClients rows,
      ∃ row ∈ rows, ∃ cid actual,
        truthyVal row.community_id = some cid ∧
        actual ∈ storeClients ∧ actual.pyLower = cid.pyLower ∧
        row' = { row with community_id := some actual }) ∧
    ("" ∉ storeClients →
      ∀ row ∈ rows, ∀ cid, truthyVal row.community_id = some cid →
      ∀ c ∈ storeClients, c.pyLower = cid.pyLower →
      ∃ actual, actual ∈ storeClients ∧ actual.pyLower = cid.pyLower ∧
        { row with community_id := some actual } ∈
          validate_subcommunities storeClients rows) ∧
    validate_asset_spaces storeSpaces pairs =
      pairs.filter (fun p => storeSpaces.contains p.2) := by
  refine ⟨?_, ?_, ?_⟩
  · intro row' hrow'
    simp only [validate_subcommunities] at hrow'
    obtain ⟨row, hrow, hf⟩ := List.mem_filterMap.1 hrow'
    rcases hcid : truthyVal row.community_id with _ | cid
    · simp only [hcid] at hf
      exact Option.noConfusion hf
    · simp only [hcid] at hf
      rcases hget : alistGet (List.foldl (fun m c => alistSet m c.pyLower c)
          []
          (dedupFirst (List.filter (fun c =>
            (dedupFirst (List.filterMap (fun r => truthyVal r.community_id) rows)).any
              (fun u => u.pyLower == c.pyLower)) storeClients)))
          cid.pyLower with _ | actual
      · simp only [hget] at hf
        exact Option.noConfusion hf
      · simp only [hget] at hf
        by_cases ha : (actual == "") = true
        · simp only [ha, if_true] at hf
          exact Option.noConfusion hf
        · simp only [Bool.not_eq_true] at ha
          simp only [ha, Bool.false_eq_true, if_false, Option.some.injEq] at hf
          obtain ⟨c, hc, hce⟩ := lowerMap_entries (alistGet_mem hget)
          have hcs : c ∈ storeClients := by
            rw [dedupFirst_mem] at hc
            exact (List.mem_filter.1 hc).1
          rw [Prod.mk.injEq] at hce
          refine ⟨row, hrow, cid, actual, hcid, ?_, ?_, hf.symm⟩
          · rw [hce.2]
            exact hcs
          · rw [hce.2, ← hce.1]
  · intro hnoempty row hrow cid hcid c hc hlow
    simp only [validate_subcommunities]
    have hcu : cid ∈ dedupFirst (List.filterMap
        (fun r => truthyVal r.community_id) rows) := by
      rw [dedupFirst_mem]
      exact List.mem_filterMap.2 ⟨row, hrow, hcid⟩
    have hcf : c ∈ dedupFirst (List.filter (fun c =>
        (dedupFirst (List.filterMap (fun r => truthyVal r.community_id) rows)).any
          (fun u => u.pyLower == c.pyLower)) storeClients) := by
      rw [dedupFirst_mem, List.mem_filter]
      refine ⟨hc, List.any_eq_true.2 ⟨cid, hcu, ?_⟩⟩
      rw [hlow]
      simp
    have hsome := lowerMap_get_isSome _ [] cid.pyLower (Or.inl ⟨c, hcf, hlow⟩)
    obtain ⟨actual, hget⟩ := Option.isSome_iff_exists.1 hsome
    obtain ⟨d, hd, hde⟩ := lowerMap_entries (alistGet_mem hget)
    rw [Prod.mk.injEq] at hde
    have hds : d ∈ storeClients := by
      rw [dedupFirst_mem] at hd
      exact (List.mem_filter.1 hd).1
    have hda : actual = d := hde.2
    have hane : actual ≠ "" := by
      rw [hda]
      intro he
      rw [he] at hds
      exact hnoempty hds
    have habeq : (actual == "") = false := by
      by_contra hcon
      simp only [Bool.not_eq_false] at hcon
      exact hane (eq_of_beq hcon)
    refine ⟨actual, by rw [hda]; exact hds, by rw [hda, ← hde.1], ?_⟩
    apply List.mem_filterMap.2
    refine ⟨row, hrow, ?_⟩
    simp only [hcid, hget, habeq, Bool.false_eq_true, if_false]
  · unfold validate_asset_spaces
    apply List.filter_congr
    intro p hp
    by_cases hs : p.2 ∈ storeSpaces
    · have h2 : storeSpaces.contains p.2 = true := contains_iff_mem.2 hs
      rw [h2]
      apply contains_iff_mem.2
      rw [dedupFirst_mem, List.mem_filter]
      refine ⟨hs, ?_⟩
      apply contains_iff_mem.2
      rw [dedupFirst_mem]
      exact List.mem_map_of_mem Prod.snd hp
    · have h2 : storeSpaces.contains p.2 = false := by
        by_contra hcon
        simp only [Bool.not_eq_false] at hcon
        exact hs (contains_iff_mem.1 hcon)
      rw [h2]
      by_contra hcon
      simp only [Bool.not_eq_false] at hcon
      have := contains_iff_mem.1 hcon
      rw [dedupFirst_mem] at this
      exact hs (List.mem_filter.1 this).1

/-- C5 witness: the amended subcommunity soundness applied at a
concrete case-variant input. -/
theorem claim_C5_referential_validation_witness :
    ((⟨"s1", none, none, "ACTIVE", some "EMAAR", none, none⟩ : SubRow) ∈
      validate_subcommunities ["EMAAR"]
        [⟨"s1", none, none, "ACTIVE", some "emaar", none, none⟩]) ∧
    ∃ row ∈ ([⟨"s1", none, none, "ACTIVE", some "emaar", none, none⟩] : List SubRow),
      ∃ cid actual, truthyVal row.community_id = some cid ∧
        actual ∈ ["EMAAR"] ∧ actual.pyLower = cid.pyLower ∧
        (⟨"s1", none, none, "ACTIVE", some "EMAAR", none, none⟩ : SubRow) =
          { row with community_id := some actual } :=
  ⟨by decide,
   (claim_C5_referential_validation ["EMAAR"]
      [⟨"s1", none, none, "ACTIVE", some "emaar", none, none⟩] [] []).1
     ⟨"s1", none, none, "ACTIVE", some "EMAAR", none, none⟩ (by decide)⟩

/-- C9: in `export_neo4j_to_csv`, a failure of the counting query for a
partition leaves the export state unchanged and the loop continues with
the next partition; the export over a partition list is the plain fold
of `exportPartition`, so one partition's outcome never prevents the
rest; and a window fetch failure inside a partition aborts that
partition's remaining windows after logging — the staging files already
written for the prior windows remain recorded, the partition is not
counted as processed, and only the windows before the failing one
produced files. -/
theorem claim_C9_export_failure_semantics {α : Type}
    (count : String → Except String Nat)
    (fetch : String → Nat → Nat → Except String (List α)) (batchSize : Nat) :
    (∀ (st : ExportState α) (sub : String) (e : String),
      count sub = .error e →
      exportPartition count fetch batchSize st sub = st) ∧
    (∀ (s : String) (rest : List String),
      export_neo4j_to_csv count fetch batchSize (s :: rest) =
        rest.foldl (exportPartition count fetch batchSize)
          (exportPartition count fetch batchSize ⟨[], 0, 0, 0⟩ s)) ∧
    (∀ (st : ExportState α) (sub : String) (total good : Nat)
      (recs : Nat → List α) (e : String),
      count sub = .ok total → (total == 0) = false →
      good < (total + batchSize - 1) / batchSize →
      (∀ i, i < good →
        fetch sub (i * batchSize) batchSize = .ok (recs i) ∧ recs i ≠ []) →
      fetch sub (good * batchSize) batchSize = .error e →
      (exportPartition count fetch batchSize st sub).files =
        st.files ++ (List.range good).map
          (fun i => (st.counter + i + 1, sub, recs i)) ∧
      (exportPartition count fetch batchSize st sub).processed =
        st.processed) := by
  refine ⟨?_, ?_, ?_⟩
  · intro st sub e he
    simp only [exportPartition, he]
  · intro s rest
    simp only [export_neo4j_to_csv, List.foldl_cons]
  · intro st sub total good recs e hcount htot hgood hok hfail
    have hok' : ∀ i, i < good →
        fetch sub ((1 - 1 + i) * batchSize) batchSize = .ok (recs i) ∧
        recs i ≠ [] := by
      intro i hi
      simpa using hok i hi
    have hfail' : fetch sub ((1 - 1 + good) * batchSize) batchSize = .error e := by
      simpa using hfail
    obtain ⟨h2, hfiles, hproc⟩ := exportWindows_fail fetch sub batchSize good
      ((total + batchSize - 1) / batchSize) 1 st recs e (le_refl 1) hgood hok' hfail'
    constructor
    · simp only [exportPartition, hcount, htot, Bool.false_eq_true, if_false, h2,
        if_true]
      exact hfiles
    · simp only [exportPartition, hcount, htot, Bool.false_eq_true, if_false, h2,
        if_true]
      exact hproc

/-- C9 witness: with a seven-row partition, batch size five and a fetch
oracle failing at the second window, only the first window's file is
recorded and the partition is not counted as processed. -/
theorem claim_C9_export_failure_semantics_witness :
    ((fun s : String => if s == "bad" then (.error "boom" : Except String Nat)
        else .ok 7) "wf" = .ok 7 ∧
      ((7 : Nat) == 0) = false ∧
      (1 : Nat) < (7 + 5 - 1) / 5 ∧
      (∀ i, i < 1 →
        (fun (_ : String) (skip : Nat) (_ : Nat) =>
          if skip == 5 then (.error "win" : Except String (List Nat))
          else .ok [skip]) "wf" (i * 5) 5 = .ok ((fun i : Nat => [i * 5]) i) ∧
        (fun i : Nat => ([i * 5] : List Nat)) i ≠ []) ∧
      (fun (_ : String) (skip : Nat) (_ : Nat) =>
        if skip == 5 then (.error "win" : Except String (List Nat))
        else .ok [skip]) "wf" (1 * 5) 5 = .error "win") ∧
    ((exportPartition
        (fun s : String => if s == "bad" then (.error "boom" : Except String Nat)
          else .ok 7)
        (fun (_ : String) (skip : Nat) (_ : Nat) =>
          if skip == 5 then (.error "win" : Except String (List Nat))
          else .ok [skip]) 5
        (⟨[], 0, 0, 0⟩ : ExportState Nat) "wf").files =
      ([] : List (Nat × String × List Nat)) ++ (List.range 1).map
        (fun i => ((0 : Nat) + i + 1, "wf", [i * 5])) ∧
      (exportPartition
        (fun s : String => if s == "bad" then (.error "boom" : Except String Nat)
          else .ok 7)
        (fun (_ : String) (skip : Nat) (_ : Nat) =>
          if skip == 5 then (.error "win" : Except String (List Nat))
          else .ok [skip]) 5
        (⟨[], 0, 0, 0⟩ : ExportState Nat) "wf").processed = 0) :=
  ⟨⟨rfl, by decide, by decide,
    (by intro i hi
        have hi0 : i = 0 := by omega
        subst hi0
        exact ⟨rfl, by decide⟩),
    rfl⟩,
   (claim_C9_export_failure_semantics
      (fun s : String => if s == "bad" then (.error "boom" : Except String Nat)
        else .ok 7)
      (fun (_ : String) (skip : Nat) (_ : Nat) =>
        if skip == 5 then (.error "win" : Except String (List Nat))
        else .ok [skip]) 5).2.2
     ⟨[], 0, 0, 0⟩ "wf" 7 1 (fun i => [i * 5]) "win"
     rfl (by decide) (by decide)
     (by intro i hi
         have hi0 : i = 0 := by omega
         subst hi0
         exact ⟨rfl, by decide⟩)
     rfl⟩

/-- C6: in `sort_rows_for_foreign_key`, after the validation loop and
before the topological order is computed, every row stored in
`client_id_to_row` whose colony is truthy references the client id of
some row of the input batch (dangling colony values were rewritten to
null), and every dependency-graph edge's parent is likewise a client id
of the batch; the embedding is a total function, so no exception arises
from a dangling reference. -/
theorem claim_C6_dangling_references_nulled (rows : List ClientRow) :
    (∀ x ∈ (rows.foldl (fixStep (List.map Prod.fst (buildClientMap rows)))
        (buildClientMap rows, [])).1,
      ∀ c, truthyVal x.2.colony = some c → ∃ r ∈ rows, r.client_id = some c) ∧
    (∀ e ∈ (rows.foldl (fixStep (List.map Prod.fst (buildClientMap rows)))
        (buildClientMap rows, [])).2,
      ∃ r ∈ rows, r.client_id = some e.1) := by
  constructor
  · intro x hx c hc
    have hvalid := fixloop_colony_valid (List.map Prod.fst (buildClientMap rows))
      rows (buildClientMap rows, []) ?_ x hx c hc
    · exact ids_mem_rows hvalid
    · intro y hy
      exact Or.inr ⟨(buildClientMap_mem hy).1, (buildClientMap_mem hy).2⟩
  · intro e he
    have hvalid := fixloop_deps_parents (List.map Prod.fst (buildClientMap rows))
      rows (buildClientMap rows, []) ?_ e he
    · exact ids_mem_rows hvalid
    · intro y hy
      simp at hy

/-- C6 witness: at a two-row batch with a resolvable colony, the stored
row's colony reference resolves to a row of the batch. -/
theorem claim_C6_dangling_references_nulled_witness :
    (("A", (⟨some "A", some "B", 1⟩ : ClientRow)) ∈
      (([⟨some "A", some "B", 1⟩, ⟨some "B", none, 2⟩] : List ClientRow).foldl
        (fixStep (List.map Prod.fst
          (buildClientMap [⟨some "A", some "B", 1⟩, ⟨some "B", none, 2⟩])))
        (buildClientMap [⟨some "A", some "B", 1⟩, ⟨some "B", none, 2⟩], [])).1 ∧
      truthyVal (some "B") = some "B") ∧
    ∃ r ∈ ([⟨some "A", some "B", 1⟩, ⟨some "B", none, 2⟩] : List ClientRow),
      r.client_id = some "B" :=
  ⟨⟨by decide, by decide⟩,
   (claim_C6_dangling_references_nulled
      [⟨some "A", some "B", 1⟩, ⟨some "B", none, 2⟩]).1
     ("A", ⟨some "A", some "B", 1⟩) (by decide) "B" (by decide)⟩

/-- C8: `convert_epoch_to_timestamp` maps `"1700000000"` (seconds) and
`"1700000000000"` (milliseconds) to the same instant, maps `None`,
empty and integer-zero input to null, and maps any non-numeric string
(any string `int()` rejects) to null rather than raising. -/
theorem claim_C8_epoch_conversion (s : String) (h : pyParseInt s = none) :
    convert_epoch_to_timestamp (.str "1700000000") =
      convert_epoch_to_timestamp (.str "1700000000000") ∧
    convert_epoch_to_timestamp (.str "1700000000") = some 1700000000000 ∧
    convert_epoch_to_timestamp .none = none ∧
    convert_epoch_to_timestamp (.str "") = none ∧
    convert_epoch_to_timestamp (.int 0) = none ∧
    convert_epoch_to_timestamp (.str s) = none := by
  refine ⟨by decide, by decide, rfl, by decide, by decide, ?_⟩
  unfold convert_epoch_to_timestamp
  by_cases hs : s = ""
  · subst hs; decide
  · have ht : epochTruthy (.str s) = true := by
      simp [epochTruthy, hs]
    simp [ht, pyIntOf, h]

/-- C8 witness: the hypotheses hold at the non-numeric input `"abc"`. -/
theorem claim_C8_epoch_conversion_witness :
    pyParseInt "abc" = none ∧ convert_epoch_to_timestamp (.str "abc") = none :=
  ⟨by decide, (claim_C8_epoch_conversion "abc" (by decide)).2.2.2.2.2⟩

/-- C3 counterexample: the asset-type loader is not idempotent in row
count.  Its conflict key is the generated `id` (`MAX(id) + 1` at the
start of each run), not the natural name, so rerunning the single
record `{child_name: "X"}` against the first run's one-row store
allocates a fresh id and inserts a second `"X"` row instead of
converging. -/
theorem claim_C3_counterexample :
    (migrate_asset_types_load
        (migrate_asset_types_load [] [{ child_name := some "X" }])
        [{ child_name := some "X" }]).length ≠
      (migrate_asset_types_load [] [{ child_name := some "X" }]).length := by
  decide

/-- C3 (amended): rerunning a load against its own result converges for
the tables keyed by a natural key — `migrate_points` leaves the whole
points store (data_point, asset_point, asset_type_point) exactly
unchanged, and the client upsert leaves the clients row count
unchanged — but not for `public.asset_type`, whose conflict clause is
on the run-generated sequential id (see the counterexample). -/
theorem claim_C3_rerun_convergence (g1 g2 : Nat) (db : PointsDB)
    (data : List CsvRecord) (atm : List (String × String))
    (table rows : List ClientRow) :
    (migrate_points g2 (migrate_points g1 db data atm).2 data atm).2 =
      (migrate_points g1 db data atm).2 ∧
    (migrate_clients_load (migrate_clients_load table rows) rows).length =
      (migrate_clients_load table rows).length :=
  ⟨migrate_points_idempotent g1 g2 db data atm,
   migrate_clients_load_idem table rows⟩

/-- C4: the data-point loader looks each natural name up in the target
table first: when a row is found it inserts nothing and records that
row's existing id/point-id pair (`dpLookup`), and only when none is
found does it insert a freshly generated row whose stored `point_id`
equals its generated `id`, recording the generated pair; consequently a
second run over the same staged rows (with distinct natural names)
against the first run's table inserts no table row and records exactly
the first run's id/point-id pairs, and a link row whose
(owner id, point id) pair is already present is not inserted again. -/
theorem claim_C4_datapoint_reuse
    (stF stN : Nat × List DataPointTableRow × List (Option String × String × String))
    (eF eN : Option String × DataPointRowData)
    (t : DataPointTableRow)
    (hf : stF.2.1.find? (fun x => x.name == some eF.2.name) = some t)
    (hn : stN.2.1.find? (fun x => x.name == some eN.2.name) = none)
    (g1 g2 : Nat) (T0 : List DataPointTableRow)
    (rows : List (Option String × DataPointRowData))
    (hnd : (rows.map (fun e => e.2.name)).Nodup)
    (lst : Nat × List LinkTableRow) (lrow : LinkRowData)
    (hl : (lst.2.find? (fun x =>
        x.owner_id == some lrow.owner_id &&
        x.data_point_id == some lrow.point_id)).isSome = true) :
    ((insertDataPointStep stF eF).2.1 = stF.2.1 ∧
      (insertDataPointStep stF eF).2.2 =
        stF.2.2 ++ [(eF.1, dpLookup stF.2.1 eF.2.name)]) ∧
    ((insertDataPointStep stN eN).2.1 =
        stN.2.1 ++ [mkDataPointTableRow (genId stN.1) eN.2] ∧
      (mkDataPointTableRow (genId stN.1) eN.2).point_id =
        some (mkDataPointTableRow (genId stN.1) eN.2).id ∧
      (insertDataPointStep stN eN).2.2 =
        stN.2.2 ++ [(eN.1, genId stN.1, genId stN.1)]) ∧
    (rows.foldl insertDataPointStep
        (g2, (rows.foldl insertDataPointStep (g1, T0, [])).2.1, []) =
      (g2 + rows.length,
        (rows.foldl insertDataPointStep (g1, T0, [])).2.1,
        (rows.foldl insertDataPointStep (g1, T0, [])).2.2)) ∧
    (insertLinkRowStep lst lrow).2 = lst.2 := by
  refine ⟨⟨?_, ?_⟩, ⟨?_, rfl, ?_⟩, ?_, ?_⟩
  · rw [insertDataPointStep_found hf]
  · rw [insertDataPointStep_found hf]
    simp only [dpLookup, hf]
  · rw [insertDataPointStep_fresh hn]
  · rw [insertDataPointStep_fresh hn]
  · have hpres : ∀ e ∈ rows,
        ∃ x ∈ (rows.foldl insertDataPointStep (g1, T0, [])).2.1,
          x.name = some e.2.name :=
      fun e he => dpFold_name_present rows (g1, T0, []) e he
    rw [dpFold_all_found rows
      (g2, (rows.foldl insertDataPointStep (g1, T0, [])).2.1, []) hpres]
    rw [dpFold_inserted_eq_lookup rows (g1, T0, []) hnd]
  · rw [insertLinkRowStep_found hl]

/-- C4 witness: the hypotheses hold at a concrete found-state,
fresh-state, one-row second run, and a duplicate link pair. -/
theorem claim_C4_datapoint_reuse_witness :
    ([(⟨"id0", none, none, none, some "P", some "pid0", none, none, none,
        none⟩ : DataPointTableRow)].find?
      (fun x => x.name == some "P") =
      some ⟨"id0", none, none, none, some "P", some "pid0", none, none, none,
        none⟩) ∧
    (([] : List DataPointTableRow).find? (fun x => x.name == some "P") = none) ∧
    (([((some "A" : Option String),
        (⟨none, none, none, "P", none, "ACTIVE", none, none⟩ :
          DataPointRowData))].map (fun e => e.2.name)).Nodup) ∧
    (([(⟨"l0", none, none, none, none, none, some "A", some "pid0"⟩ :
        LinkTableRow)].find?
      (fun x => x.owner_id == some "A" &&
        x.data_point_id == some "pid0")).isSome = true) ∧
    ((insertDataPointStep
        (5, [⟨"id0", none, none, none, some "P", some "pid0", none, none, none,
          none⟩], [])
        (some "A", ⟨none, none, none, "P", none, "ACTIVE", none, none⟩)).2.1 =
      [⟨"id0", none, none, none, some "P", some "pid0", none, none, none,
        none⟩]) := by
  refine ⟨by decide, by decide, by decide, by decide, ?_⟩
  exact (claim_C4_datapoint_reuse
    (5, [⟨"id0", none, none, none, some "P", some "pid0", none, none, none,
      none⟩], [])
    (7, [], [])
    (some "A", ⟨none, none, none, "P", none, "ACTIVE", none, none⟩)
    (some "B", ⟨none, none, none, "P", none, "ACTIVE", none, none⟩)
    ⟨"id0", none, none, none, some "P", some "pid0", none, none, none, none⟩
    (by decide) (by decide)
    0 10 []
    [(some "A", ⟨none, none, none, "P", none, "ACTIVE", none, none⟩)]
    (by decide)
    (3, [⟨"l0", none, none, none, none, none, some "A", some "pid0"⟩])
    ⟨none, none, "ACTIVE", none, none, "A", "pid0"⟩
    (by decide)).1.1

/-- C1 counterexample: the claimed ordering fails for the cyclic batch
`[{id:A, colony:B}, {id:B, colony:A}]`.  Both in-degrees are 1, the
Kahn queue starts empty, and the trailing pass appends both rows in
input order, so row A (referencing B) comes first with no earlier row
carrying client id B. -/
theorem claim_C1_counterexample :
    colonyRefOrderedB
      [⟨some "A", some "B", 1⟩, ⟨some "B", some "A", 2⟩]
      (sort_rows_for_foreign_key
        [⟨some "A", some "B", 1⟩, ⟨some "B", some "A", 2⟩]) = false := by
  decide

/-- C1 (amended): for a batch of client rows with truthy, pairwise
distinct client ids whose in-batch colony references admit a rank
function decreasing from child to parent (i.e. the reference graph is
acyclic), the output of `sort_rows_for_foreign_key` satisfies the
claimed ordering — at every output position whose row carries a truthy
colony naming the client id of another row, some earlier output
position carries that client id — and the output has exactly one row
per input row. -/
theorem claim_C1_topological_order (rows : List ClientRow)
    (rank : String → Nat)
    (h1 : ∀ r ∈ rows, pyTruthy r.client_id = true)
    (h2 : (rows.map (fun r => r.client_id)).Nodup)
    (h3 : ∀ r ∈ rows, ∀ c k, truthyVal r.colony = some c →
      r.client_id = some k → (∃ p ∈ rows, p.client_id = some c) → c ≠ k →
      rank c < rank k) :
    colonyRefOrderedB rows (sort_rows_for_foreign_key rows) = true ∧
    (sort_rows_for_foreign_key rows).length = rows.length :=
  sort_rows_ordered rows rank h1 h2 h3

/-- C1 witness: the spec's three-row scenario
`{id:A, colony:null}, {id:B, colony:A}, {id:C, colony:Z}` (Z absent)
satisfies the hypotheses with rank A = C = 0, rank B = 1, and the
output is ordered and of length 3. -/
theorem claim_C1_topological_order_witness :
    (∀ r ∈ ([⟨some "A", none, 1⟩, ⟨some "B", some "A", 2⟩,
        ⟨some "C", some "Z", 3⟩] : List ClientRow),
      pyTruthy r.client_id = true) ∧
    (([⟨some "A", none, 1⟩, ⟨some "B", some "A", 2⟩,
        ⟨some "C", some "Z", 3⟩] : List ClientRow).map
      (fun r => r.client_id)).Nodup ∧
    colonyRefOrderedB
      [⟨some "A", none, 1⟩, ⟨some "B", some "A", 2⟩, ⟨some "C", some "Z", 3⟩]
      (sort_rows_for_foreign_key
        [⟨some "A", none, 1⟩, ⟨some "B", some "A", 2⟩,
          ⟨some "C", some "Z", 3⟩]) = true ∧
    (sort_rows_for_foreign_key
      [⟨some "A", none, 1⟩, ⟨some "B", some "A", 2⟩,
        ⟨some "C", some "Z", 3⟩]).length = 3 := by
  have h3c : ∀ r ∈ ([⟨some "A", none, 1⟩, ⟨some "B", some "A", 2⟩,
      ⟨some "C", some "Z", 3⟩] : List ClientRow), ∀ c k,
      truthyVal r.colony = some c → r.client_id = some k →
      (∃ p ∈ ([⟨some "A", none, 1⟩, ⟨some "B", some "A", 2⟩,
        ⟨some "C", some "Z", 3⟩] : List ClientRow), p.client_id = some c) →
      c ≠ k →
      (fun s => if s = "B" then 1 else 0) c <
        (fun s => if s = "B" then 1 else 0) k := by
    intro r hr c k hc hk hex _
    fin_cases hr
    · simp [truthyVal] at hc
    · simp [truthyVal] at hc hk
      subst hc
      subst hk
      decide
    · simp [truthyVal] at hc
      subst hc
      exfalso
      obtain ⟨p, hp, hpe⟩ := hex
      fin_cases hp <;> simp at hpe
  have h := claim_C1_topological_order
    [⟨some "A", none, 1⟩, ⟨some "B", some "A", 2⟩, ⟨some "C", some "Z", 3⟩]
    (fun s => if s = "B" then 1 else 0) (by decide) (by decide) h3c
  exact ⟨by decide, by decide, h.1, h.2⟩

end Migration
